import Mathlib

/-!
Verification of the `mheap` binary-heap engine.

The Lean definitions below are a shallow embedding of the Rust sources:
`tree.rs`, `ordering.rs`, `storage.rs`, `hole.rs`, `sift.rs`, `raw_heap.rs`,
`vec_heap.rs`, `indexable_vec.rs`, `indexable_heap.rs`.  Loops are modelled
with an explicit fuel argument (the wrappers pass enough fuel, which the
bridge lemmas prove sufficient); machine `usize` values are modelled as `Nat`
(the one place where the word width matters, the `SkipList` tag bit, uses an
explicit `2 ^ 63` constant); Rust panics are modelled by `Option` results or,
for internal expect-style panics that are unreachable under the structure
invariants, by total functions with a documented junk value.
-/

set_option maxHeartbeats 1600000
set_option linter.unusedSectionVars false

namespace Mheap

/-! ### Tree navigation (`src/tree.rs`) -/

/-- Parent of a node: `pos.checked_sub(1)? / 2` (`tree::parent`). -/
def parentPos : Nat → Option Nat
  | 0 => none
  | p + 1 => some (p / 2)

/-- The `index`-th child of `pos` if it is in bounds (`tree::child`). -/
def childPos (len pos index : Nat) : Option Nat :=
  let c := 2 * pos + 1 + index
  if c < len then some c else none

/-- Selects a node or its next sibling (`tree::select_sibling`). -/
def selectSibling (pos : Nat) (cond : Bool) : Option Nat :=
  some (pos + cond.toNat)

/-- Whether a node has both children (`tree::is_whole_node`). -/
def isWholeNode (len pos : Nat) : Bool :=
  (childPos len pos 1).isSome

/-- Number of children of a node, saturating (`tree::nchildren`). -/
def nchildren (len pos : Nat) : Nat :=
  Nat.min (len - (2 * pos + 1)) 2

/-- Present children of a node, in index order (`tree::children`). -/
def childrenList (len pos : Nat) : List Nat :=
  (List.range (nchildren len pos)).map (fun i => 2 * pos + 1 + i)

/-- Upper bound of the rebuild range `0..len/2` (`tree::rebuild_range`). -/
def rebuildRangeLen (len : Nat) : Nat := len / 2

/-- Halving loop computing the floor base-2 logarithm; 64 rounds cover the
whole `usize` range. -/
def log2F : Nat → Nat → Nat
  | 0, _ => 0
  | fuel + 1, n => if 2 ≤ n then log2F fuel (n / 2) + 1 else 0

/-- Floor base-2 logarithm: `usize::BITS - x.leading_zeros() - 1`
(`tree::log2_fast`), which for `x >= 1` in `usize` range is the bit size of
`x` minus one, i.e. the floor base-2 logarithm; the sources only call it
with `x >= 1`. -/
def log2Fast (x : Nat) : Nat := log2F 64 x

/-- Heuristic deciding between a full rebuild and per-element sift-up
(`tree::better_to_rebuild`). -/
def betterToRebuild (len start : Nat) : Bool :=
  let tailLen := len - start
  if start < tailLen then
    true
  else if len ≤ 2048 then
    decide (2 * len < tailLen * log2Fast start)
  else
    decide (2 * len < tailLen * 11)

/-! ### Ordering policies (`src/ordering.rs`) -/

/-- The two-method comparison-policy contract (`ordering::Ordering`). -/
structure HeapOrd (κ : Type) where
  shouldSiftUp : κ → κ → Bool
  shouldSiftDown : κ → κ → Bool

/-- Default `select_upper`: returns true if `b` should be the root.  No
implementation in the crate overrides this default. -/
def HeapOrd.selectUpper (O : HeapOrd κ) (a b : κ) : Bool :=
  O.shouldSiftUp b a

/-- The `MaxHeap<Natural>` policy: `cmp(elt, parent).is_gt()` /
`cmp(elt, child).is_lt()`. -/
def maxHeapOrd (κ : Type) [LinearOrder κ] : HeapOrd κ where
  shouldSiftUp := fun elt par => (compare elt par).isGT
  shouldSiftDown := fun elt child => (compare elt child).isLT

/-- The `MinHeap<Natural>` policy: `cmp(elt, parent).is_lt()` /
`cmp(elt, child).is_gt()`. -/
def minHeapOrd (κ : Type) [LinearOrder κ] : HeapOrd κ where
  shouldSiftUp := fun elt par => (compare elt par).isLT
  shouldSiftDown := fun elt child => (compare elt child).isGT

/-- A policy is standard for a linear order when preferring an element means
it is strictly greater.  `maxHeapOrd` is standard for the given order and
`minHeapOrd` is standard for the dual order. -/
def IsStdOrd {κ : Type} [LinearOrder κ] (O : HeapOrd κ) : Prop :=
  (∀ a b, O.shouldSiftUp a b = decide (b < a)) ∧
  (∀ a b, O.shouldSiftDown a b = decide (a < b))

/-! ### The storage contract (`src/storage.rs`)

`load` leaves the slot bits in place in the Rust code (`ptr::read`) and the
hole is never read again, so it is modelled as a pure read.  `store` and
`moveElement` are the hole-filling writes. -/

structure StorageModel (σ κ ι slot : Type) where
  length : σ → Nat
  getItem : σ → Nat → ι
  setItem : σ → Nat → ι → σ
  getKey : σ → Nat → κ
  slotKey : slot → κ
  load : σ → Nat → slot
  store : σ → Nat → slot → σ
  moveElement : σ → Nat → Nat → σ

variable {σ κ ι slot : Type}

/-! ### The hole guard (`src/hole.rs`) -/

/-- State of an open `Hole`: the backing storage (with stale bits at `pos`),
the out-of-band element, and the hole position. -/
structure HoleS (σ slot : Type) where
  data : σ
  elt : slot
  pos : Nat

/-- `Hole::new`. -/
def holeNew (S : StorageModel σ κ ι slot) (d : σ) (p : Nat) : HoleS σ slot :=
  ⟨d, S.load d p, p⟩

/-- `Hole::element`. -/
def holeElement (S : StorageModel σ κ ι slot) (h : HoleS σ slot) : κ :=
  S.slotKey h.elt

/-- `Hole::move_to`: `move_element(index, pos)` then `pos := index`. -/
def holeMoveTo (S : StorageModel σ κ ι slot) (h : HoleS σ slot) (i : Nat) :
    HoleS σ slot :=
  ⟨S.moveElement h.data i h.pos, h.elt, i⟩

/-- `Hole::into_pos` / the `Drop` impl: store the retained element back into
the hole's final position. -/
def holeIntoPos (S : StorageModel σ κ ι slot) (h : HoleS σ slot) : σ × Nat :=
  (S.store h.data h.pos h.elt, h.pos)

/-- `Hole::upper_child_whole`.  `select_sibling` always returns `some`, so the
inner fallback branch of the source is dead code; it is kept verbatim. -/
def holeUpperChildWhole (S : StorageModel σ κ ι slot) (O : HeapOrd κ)
    (h : HoleS σ slot) : Option Nat :=
  if isWholeNode (S.length h.data) h.pos then
    let first := 2 * h.pos + 1
    let second := 2 * h.pos + 2
    let cond := O.selectUpper (S.getKey h.data first) (S.getKey h.data second)
    some (match selectSibling first cond with
      | some child => child
      | none => if cond then first else second)
  else
    none

/-- `Hole::upper_child_partial`: fold the present children, keeping the one
the policy prefers. -/
def holeUpperChildLone (S : StorageModel σ κ ι slot) (O : HeapOrd κ)
    (h : HoleS σ slot) : Option Nat :=
  match childrenList (S.length h.data) h.pos with
  | [] => none
  | c :: rest =>
    some (rest.foldl
      (fun mx child =>
        if O.selectUpper (S.getKey h.data mx) (S.getKey h.data child) then child
        else mx)
      c)

/-! ### Sift algorithms (`src/sift.rs`), with explicit fuel -/

/-- Loop of `sift_up`: `while hole.move_up(ord) {}`.  Fuel `h.pos` suffices
since the position strictly decreases. -/
def siftUpLoop (S : StorageModel σ κ ι slot) (O : HeapOrd κ) :
    Nat → HoleS σ slot → HoleS σ slot
  | 0, h => h
  | fuel + 1, h =>
    match parentPos h.pos with
    | none => h
    | some par =>
      if O.shouldSiftUp (holeElement S h) (S.getKey h.data par) then
        siftUpLoop S O fuel (holeMoveTo S h par)
      else h

/-- `sift_up`. -/
def siftUpS (S : StorageModel σ κ ι slot) (O : HeapOrd κ) (d : σ) (p : Nat) :
    σ × Nat :=
  holeIntoPos S (siftUpLoop S O p (holeNew S d p))

/-- Loop of `sift_down`: descend through whole nodes while the policy says to
sift down, with the early `return` on a failed move; then at most one move
toward a lone child.  Fuel `length` suffices since the position strictly
increases and stays below the length. -/
def siftDownLoop (S : StorageModel σ κ ι slot) (O : HeapOrd κ) :
    Nat → HoleS σ slot → σ × Nat
  | 0, h => holeIntoPos S h
  | fuel + 1, h =>
    match holeUpperChildWhole S O h with
    | some child =>
      if O.shouldSiftDown (holeElement S h) (S.getKey h.data child) then
        siftDownLoop S O fuel (holeMoveTo S h child)
      else
        holeIntoPos S h
    | none =>
      match holeUpperChildLone S O h with
      | some child =>
        if O.shouldSiftDown (holeElement S h) (S.getKey h.data child) then
          holeIntoPos S (holeMoveTo S h child)
        else
          holeIntoPos S h
      | none => holeIntoPos S h

/-- `sift_down`. -/
def siftDownS (S : StorageModel σ κ ι slot) (O : HeapOrd κ) (d : σ) (p : Nat) :
    σ × Nat :=
  siftDownLoop S O (S.length d) (holeNew S d p)

/-- Loop of `sift_down_to_bottom`: relocate unconditionally to the upper
child until no children remain. -/
def siftToBottomLoop (S : StorageModel σ κ ι slot) (O : HeapOrd κ) :
    Nat → HoleS σ slot → HoleS σ slot
  | 0, h => h
  | fuel + 1, h =>
    match holeUpperChildWhole S O h with
    | some child => siftToBottomLoop S O fuel (holeMoveTo S h child)
    | none =>
      match holeUpperChildLone S O h with
      | some child => holeMoveTo S h child
      | none => h

/-- `sift_down_to_bottom`. -/
def siftToBottomS (S : StorageModel σ κ ι slot) (O : HeapOrd κ) (d : σ)
    (p : Nat) : σ × Nat :=
  holeIntoPos S (siftToBottomLoop S O (S.length d) (holeNew S d p))

/-- `fixup_sift`: sift up first; only if the position did not change, sift
down from the original position. -/
def fixupSiftS (S : StorageModel σ κ ι slot) (O : HeapOrd κ) (d : σ)
    (p : Nat) : σ × Nat :=
  let r := siftUpS S O d p
  if r.2 ≠ p then r else siftDownS S O r.1 p

/-- `RawHeap::fixup_sift_to_bottom`: sift down to the bottom, then sift up. -/
def fixupSiftToBottomS (S : StorageModel σ κ ι slot) (O : HeapOrd κ) (d : σ)
    (p : Nat) : σ × Nat :=
  let r := siftToBottomS S O d p
  siftUpS S O r.1 r.2

/-! ### The heap algorithm layer (`src/raw_heap.rs`) -/

/-- `RawHeap::peek`. -/
def peekS (S : StorageModel σ κ ι slot) (d : σ) : Option ι :=
  if S.length d ≠ 0 then some (S.getItem d 0) else none

/-- `RawHeap::pop_swap`: if a root exists, swap it with `item`, fix up the
root to the bottom, and return the displaced element. -/
def popSwapS (S : StorageModel σ κ ι slot) (O : HeapOrd κ) (d : σ) (item : ι) :
    σ × ι :=
  if S.length d ≠ 0 then
    let old := S.getItem d 0
    let d₁ := S.setItem d 0 item
    ((fixupSiftToBottomS S O d₁ 0).1, old)
  else
    (d, item)

/-- `RawHeap::rebuild`: sift down every position of `(0..len/2).rev()`. -/
def rebuildS (S : StorageModel σ κ ι slot) (O : HeapOrd κ) (d : σ) : σ :=
  (List.range (rebuildRangeLen (S.length d))).reverse.foldl
    (fun acc i => (siftDownS S O acc i).1) d

/-- `RawHeap::rebuild_tail`. -/
def rebuildTailS (S : StorageModel σ κ ι slot) (O : HeapOrd κ) (d : σ)
    (start : Nat) : σ :=
  if start = S.length d then d
  else if betterToRebuild (S.length d) start then rebuildS S O d
  else
    (List.range' start (S.length d - start)).foldl
      (fun acc i => (siftUpS S O acc i).1) d

/-! ### Plain list storage (`impl Storage for Vec<T>` / `[T]`), generalized
with a key projection so that the pair storage of the indexable heap can be
projected onto it. -/

def listStorage (β κ : Type) [Inhabited β] (key : β → κ) :
    StorageModel (List β) κ β β where
  length := List.length
  getItem := fun l p => l.getD p default
  setItem := fun l p x => l.set p x
  getKey := fun l p => key (l.getD p default)
  slotKey := key
  load := fun l p => l.getD p default
  store := fun l p x => l.set p x
  moveElement := fun l src dst => l.set dst (l.getD src default)

/-- Storage of `VecHeap<T>`: items are their own keys. -/
def vecStorage (α : Type) [Inhabited α] : StorageModel (List α) α α α :=
  listStorage α α id

/-! ### The `VecHeap` facade (`src/vec_heap.rs`) -/

/-- `VecHeap::push`: append, then sift up from the old length. -/
def vPush [Inhabited α] (O : HeapOrd α) (l : List α) (x : α) : List α :=
  (siftUpS (vecStorage α) O (l ++ [x]) l.length).1

/-- `VecHeap::pop`: remove the physical last slot, then `pop_swap` the
removed value into the root.  Returns the popped element and the new heap. -/
def vPop [Inhabited α] (O : HeapOrd α) (l : List α) : Option (α × List α) :=
  match l.getLast? with
  | none => none
  | some item =>
    let r := popSwapS (vecStorage α) O l.dropLast item
    some (r.2, r.1)

/-- `VecHeap::peek`. -/
def vPeek [Inhabited α] (l : List α) : Option α :=
  peekS (vecStorage α) l

/-- Composite modelling of `peek_mut` followed by a write through the guard
and the guard release: `as_mut` marks the guard dirty only when the root has
a child, and `restore` sifts down from the root when dirty. -/
def vPeekMutSet [Inhabited α] (O : HeapOrd α) (l : List α) (x : α) : List α :=
  if l.isEmpty then l
  else
    let sift := (childPos l.length 0 0).isSome
    let l₁ := l.set 0 x
    if sift then (siftDownS (vecStorage α) O l₁ 0).1 else l₁

/-- Creating a `peek_mut` guard and dropping it without calling `as_mut`:
the guard is created clean and `restore` takes its no-mutation branch. -/
def vPeekMutNoMut [Inhabited α] (O : HeapOrd α) (l : List α) : List α :=
  if l.isEmpty then l
  else
    let sift := false
    if sift then (siftDownS (vecStorage α) O l 0).1 else l

/-- Data part of `VecHeap::append`: the smaller heap is merged into the
larger one, then `rebuild_tail` runs from the old length of the larger. -/
def vAppendList [Inhabited α] (O : HeapOrd α) (l other : List α) : List α :=
  let p := if l.length < other.length then (other, l) else (l, other)
  rebuildTailS (vecStorage α) O (p.1 ++ p.2) p.1.length

/-- A `VecHeap` with its ordering value, for the full `append` model. -/
structure VecHeapS (α ω : Type) where
  data : List α
  ord : ω

/-- `VecHeap::append` including the `mem::swap` of the whole structs when
`self.len() < other.len()`.  `pol` interprets the stored ordering value. -/
def vAppendFull [Inhabited α] (pol : ω → HeapOrd α) (h₁ h₂ : VecHeapS α ω) :
    VecHeapS α ω × VecHeapS α ω :=
  let p := if h₁.data.length < h₂.data.length then (h₂, h₁) else (h₁, h₂)
  let start := p.1.data.length
  let d := p.1.data ++ p.2.data
  ({ data := rebuildTailS (vecStorage α) (pol p.1.ord) d start, ord := p.1.ord },
   { data := [], ord := p.2.ord })

/-! ### Plain-heap operation sequences, for the invariant claim -/

/-- Completed public operations on a `VecHeap`; the heap appended by
`append` is itself built by a sequence of operations from empty. -/
inductive POp (α : Type) where
  | push (x : α)
  | pop
  | peekMutSet (x : α)
  | append (ops : List (POp α))

mutual

def execPOp [Inhabited α] (O : HeapOrd α) : List α → POp α → List α
  | l, .push x => vPush O l x
  | l, .pop =>
    match vPop O l with
    | none => l
    | some r => r.2
  | l, .peekMutSet x => vPeekMutSet O l x
  | l, .append ops => vAppendList O l (execPOps O [] ops)

def execPOps [Inhabited α] (O : HeapOrd α) : List α → List (POp α) → List α
  | l, [] => l
  | l, op :: rest => execPOps O (execPOp O l op) rest

end

/-! ### The index-recycling store (`src/indexable_vec.rs`)

The `SkipList` packs a tag into the sign bit of a `usize`; positions are
modelled as unbounded `Nat`, with the tag bit `2 ^ 63` explicit.  All stored
positions and links are below `2 ^ 63` in every reachable state (the crate
panics on `from_pos` otherwise), which the invariants below carry. -/

def SKIP_BIT : Nat := 2 ^ 63

/-- Decoded form of a table entry (`SkipEntryRepr`). -/
inductive SkipRepr where
  | data (pos : Nat)
  | skip (nextRaw : Nat)
  deriving DecidableEq

/-- `SkipEntry::repr`. -/
def skipRepr (e : Nat) : SkipRepr :=
  if e &&& SKIP_BIT = 0 then .data e else .skip (e &&& (SKIP_BIT - 1))

/-- `SkipEntry::is_data`. -/
def entryIsData (e : Nat) : Bool :=
  decide (e &&& SKIP_BIT = 0)

/-- `SkipEntry::from_skip`: tag a raw `NextSkip` value. -/
def entryFromSkip (nextRaw : Nat) : Nat :=
  nextRaw ||| SKIP_BIT

/-- The free-list side table: raw entries plus the raw head pointer
(`NextSkip`: `0` is none, `i + 1` points at entry `i`). -/
structure SkipListS where
  data : List Nat
  firstSkip : Nat
  deriving DecidableEq

/-- `SkipList::add`: reuse the head of the free chain, or mint a fresh index.
The `expect_skip` panic is unreachable (all chain entries are skip entries);
its branch is modelled with a junk link. -/
def skipAdd (s : SkipListS) (pos : Nat) : SkipListS × Nat :=
  match s.firstSkip with
  | 0 =>
    ({ data := s.data ++ [pos], firstSkip := 0 }, s.data.length)
  | i + 1 =>
    let nextRaw :=
      match skipRepr (s.data.getD i 0) with
      | .skip n => n
      | .data _ => 0
    ({ data := s.data.set i pos, firstSkip := nextRaw }, i)

/-- `SkipList::is_valid`. -/
def skipIsValid (s : SkipListS) (i : Nat) : Bool :=
  decide (i < s.data.length) && entryIsData (s.data.getD i 0)

/-- `SkipList::get`; the `expect_data` panic (also on an out-of-bounds
index) is modelled as `none`. -/
def skipGet (s : SkipListS) (i : Nat) : Option Nat :=
  if i < s.data.length then
    match skipRepr (s.data.getD i 0) with
    | .data p => some p
    | .skip _ => none
  else none

/-- `SkipList::set`.  The source checks `expect_data` on the old entry first;
in every reachable call the entry is a data entry, so the check is dropped
from the total model. -/
def skipSet (s : SkipListS) (i pos : Nat) : SkipListS :=
  { s with data := s.data.set i pos }

/-- `SkipList::remove`: pop the table if `i` is its last entry, otherwise
overwrite entry `i` with a skip entry and make it the new chain head. -/
def skipRemove (s : SkipListS) (i : Nat) : SkipListS :=
  if i = s.data.length - 1 then
    { s with data := s.data.dropLast }
  else
    { data := s.data.set i (entryFromSkip s.firstSkip), firstSkip := i + 1 }

/-- `IndexableVec<T>`: element/index pairs plus the position side table. -/
structure IVecS (α : Type) where
  data : List (α × Nat)
  table : SkipListS

def emptyIVec (α : Type) : IVecS α := ⟨[], ⟨[], 0⟩⟩

instance : Inhabited (IVecS α) := ⟨emptyIVec α⟩

/-- `IndexableVec::record_position`: point the side-table entry of the pair
now stored at `pos` back at `pos`. -/
def ivRecordPosition [Inhabited α] (s : IVecS α) (pos : Nat) : IVecS α :=
  let idx := (s.data.getD pos default).2
  { s with table := skipSet s.table idx pos }

/-- `impl Storage for IndexableVec<T>`: keys are the elements, slots are the
pairs, and every hole-filling write updates the side table. -/
def ivecStorage (α : Type) [Inhabited α] :
    StorageModel (IVecS α) α α (α × Nat) where
  length := fun s => s.data.length
  getItem := fun s p => (s.data.getD p default).1
  setItem := fun s p x => { s with data := s.data.set p (x, (s.data.getD p default).2) }
  getKey := fun s p => (s.data.getD p default).1
  slotKey := Prod.fst
  load := fun s p => s.data.getD p default
  store := fun s p x => ivRecordPosition { s with data := s.data.set p x } p
  moveElement := fun s src dst =>
    ivRecordPosition { s with data := s.data.set dst (s.data.getD src default) } dst

/-- `IndexableVec::push`. -/
def ivPush [Inhabited α] (s : IVecS α) (x : α) : IVecS α × Nat :=
  let pos := s.data.length
  let r := skipAdd s.table pos
  ({ data := s.data ++ [(x, r.2)], table := r.1 }, r.2)

/-- `IndexableVec::pop`: remove the tail pair and release its index. -/
def ivPop [Inhabited α] (s : IVecS α) : Option (α × IVecS α) :=
  match s.data.getLast? with
  | none => none
  | some pair =>
    some (pair.1, { data := s.data.dropLast, table := skipRemove s.table pair.2 })

/-- `IndexableVec::swap_remove`: `Vec::swap_remove` the pair at `pos` and
release its index. -/
def ivSwapRemove [Inhabited α] (s : IVecS α) (pos : Nat) : α × IVecS α :=
  let pair := s.data.getD pos default
  let d := (s.data.set pos (s.data.getLast?.getD default)).dropLast
  (pair.1, { data := d, table := skipRemove s.table pair.2 })

/-- `IndexableVec::index_to_pos` (the `expect_data` panic is `none`). -/
def ivIndexToPos [Inhabited α] (s : IVecS α) (idx : Nat) : Option Nat :=
  skipGet s.table idx

/-! ### The `IndexableHeap` facade (`src/indexable_heap.rs`) -/

/-- `IndexableHeap::by_index` (panics, modelled `none`, on a stale index). -/
def iByIndex [Inhabited α] (s : IVecS α) (idx : Nat) : Option α :=
  match ivIndexToPos s idx with
  | none => none
  | some pos =>
    if pos < s.data.length then some ((s.data.getD pos default).1) else none

/-- `IndexableHeap::push`: push the pair, then sift up from the old length;
returns the new heap and the issued handle. -/
def iPush [Inhabited α] (O : HeapOrd α) (s : IVecS α) (x : α) : IVecS α × Nat :=
  let pos := s.data.length
  let r := ivPush s x
  ((siftUpS (ivecStorage α) O r.1 pos).1, r.2)

/-- `IndexableHeap::pop`. -/
def iPop [Inhabited α] (O : HeapOrd α) (s : IVecS α) : Option (α × IVecS α) :=
  match ivPop s with
  | none => none
  | some r =>
    let r₁ := popSwapS (ivecStorage α) O r.2 r.1
    some (r₁.2, r₁.1)

/-- `IndexableHeap::peek`. -/
def iPeek [Inhabited α] (s : IVecS α) : Option α :=
  peekS (ivecStorage α) s

/-- Composite modelling of `by_index_mut` followed by a write through the
guard and the guard release: stale handles panic (left unchanged here),
`GetMut::new` asserts the position is in range, `as_mut` always marks the
guard dirty, and `restore` runs `fixup_sift`. -/
def iByIndexMutSet [Inhabited α] (O : HeapOrd α) (s : IVecS α) (idx : Nat)
    (x : α) : IVecS α :=
  match ivIndexToPos s idx with
  | none => s
  | some pos =>
    if pos < s.data.length then
      (fixupSiftS (ivecStorage α) O ((ivecStorage α).setItem s pos x) pos).1
    else s

/-- Creating a `by_index_mut` guard and dropping it without calling
`as_mut`: the dirty flag stays false and `restore` does nothing. -/
def iByIndexMutNoMut [Inhabited α] (O : HeapOrd α) (s : IVecS α) (idx : Nat) :
    IVecS α :=
  match ivIndexToPos s idx with
  | none => s
  | some pos =>
    if pos < s.data.length then
      (if False then (fixupSiftS (ivecStorage α) O s pos).1 else s)
    else s

/-- `GetMut::remove`: swap-remove the pair, then fix up the inheriting slot
to the bottom unless the removed slot was already the last. -/
def iRemove [Inhabited α] (O : HeapOrd α) (s : IVecS α) (idx : Nat) : IVecS α :=
  match ivIndexToPos s idx with
  | none => s
  | some pos =>
    if pos < s.data.length then
      let r := ivSwapRemove s pos
      if pos < r.2.data.length then
        (fixupSiftToBottomS (ivecStorage α) O r.2 pos).1
      else r.2
    else s

/-- Composite modelling of the indexable `peek_mut` with a write and guard
release (same raw guard as the plain facade). -/
def iPeekMutSet [Inhabited α] (O : HeapOrd α) (s : IVecS α) (x : α) : IVecS α :=
  if s.data.isEmpty then s
  else
    let sift := (childPos s.data.length 0 0).isSome
    let s₁ := (ivecStorage α).setItem s 0 x
    if sift then (siftDownS (ivecStorage α) O s₁ 0).1 else s₁

/-! ### Indexable-heap operation sequences -/

inductive IOp (α : Type) where
  | push (x : α)
  | pop
  | peekMutSet (x : α)
  | byIndexMutSet (idx : Nat) (x : α)
  | removeIdx (idx : Nat)

def execIOp [Inhabited α] (O : HeapOrd α) (s : IVecS α) : IOp α → IVecS α
  | .push x => (iPush O s x).1
  | .pop =>
    match iPop O s with
    | none => s
    | some r => r.2
  | .peekMutSet x => iPeekMutSet O s x
  | .byIndexMutSet i x => iByIndexMutSet O s i x
  | .removeIdx i => iRemove O s i

def execIOps [Inhabited α] (O : HeapOrd α) (s : IVecS α) (ops : List (IOp α)) :
    IVecS α :=
  ops.foldl (execIOp O) s

/-! ### Derived operation sequences used by the claims -/

def vPushAll [Inhabited α] (O : HeapOrd α) (l : List α) (xs : List α) : List α :=
  xs.foldl (vPush O) l

/-- Pop until empty (fuel-bounded; fuel at least the length is exact). -/
def vPopAll [Inhabited α] (O : HeapOrd α) : Nat → List α → List α
  | 0, _ => []
  | fuel + 1, l =>
    match vPop O l with
    | none => []
    | some r => r.1 :: vPopAll O fuel r.2

/-- Push a batch into an indexable heap, collecting the issued handles. -/
def iPushAllH [Inhabited α] (O : HeapOrd α) (s : IVecS α) (xs : List α) :
    IVecS α × List Nat :=
  xs.foldl (fun p x => ((iPush O p.1 x).1, p.2 ++ [(iPush O p.1 x).2])) (s, [])

/-- Operations that remove one element (a pop or a by-handle remove). -/
def IsRemovalOp : IOp α → Prop
  | .pop => True
  | .removeIdx _ => True
  | _ => False

/-! ### Abstract (swap-based) versions of the sift loops

The hole-based loops above move each element once; on the backing list this
is equivalent to the classic swap-based formulation, which the bridge lemmas
below establish.  All heap reasoning happens on these versions. -/

/-- Swap two positions of a list. -/
def lswap [Inhabited β] (l : List β) (i j : Nat) : List β :=
  (l.set i (l.getD j default)).set j (l.getD i default)

/-- Key of the element at a position. -/
def keyAt [Inhabited β] (key : β → κ) (l : List β) (i : Nat) : κ :=
  key (l.getD i default)

/-- The upper child of a whole node, as selected by the policy (left on
ties). -/
def upperWhole [Inhabited β] (O : HeapOrd κ) (key : β → κ) (l : List β)
    (p : Nat) : Option Nat :=
  if isWholeNode l.length p then
    some (2 * p + 1 +
      (O.selectUpper (keyAt key l (2 * p + 1)) (keyAt key l (2 * p + 2))).toNat)
  else none

/-- The preferred present child of a node with at most one child missing. -/
def upperLone [Inhabited β] (O : HeapOrd κ) (key : β → κ) (l : List β)
    (p : Nat) : Option Nat :=
  match childrenList l.length p with
  | [] => none
  | c :: rest =>
    some (rest.foldl
      (fun mx child =>
        if O.selectUpper (keyAt key l mx) (keyAt key l child) then child else mx)
      c)

def absUp [Inhabited β] (O : HeapOrd κ) (key : β → κ) :
    Nat → List β → Nat → List β × Nat
  | 0, l, p => (l, p)
  | fuel + 1, l, p =>
    match parentPos p with
    | none => (l, p)
    | some par =>
      if O.shouldSiftUp (keyAt key l p) (keyAt key l par) then
        absUp O key fuel (lswap l p par) par
      else (l, p)

def absDown [Inhabited β] (O : HeapOrd κ) (key : β → κ) :
    Nat → List β → Nat → List β × Nat
  | 0, l, p => (l, p)
  | fuel + 1, l, p =>
    match upperWhole O key l p with
    | some c =>
      if O.shouldSiftDown (keyAt key l p) (keyAt key l c) then
        absDown O key fuel (lswap l p c) c
      else (l, p)
    | none =>
      match upperLone O key l p with
      | some c =>
          if O.shouldSiftDown (keyAt key l p) (keyAt key l c) then (lswap l p c, c)
          else (l, p)
      | none => (l, p)

def absBot [Inhabited β] (O : HeapOrd κ) (key : β → κ) :
    Nat → List β → Nat → List β × Nat
  | 0, l, p => (l, p)
  | fuel + 1, l, p =>
    match upperWhole O key l p with
    | some c => absBot O key fuel (lswap l p c) c
    | none =>
      match upperLone O key l p with
      | some c => (lswap l p c, c)
      | none => (l, p)

/-! ### Heap-property predicates -/

/-- The heap edge at a non-root position: the policy-relevant key is not
preferred over the parent's (max-shape: child at most parent). -/
def EdgeAt [Inhabited β] [LinearOrder κ] (key : β → κ) (l : List β) (q : Nat) :
    Prop :=
  keyAt key l q ≤ keyAt key l ((q - 1) / 2)

/-- All edges with child position below `m` hold. -/
def HeapUpTo [Inhabited β] [LinearOrder κ] (key : β → κ) (l : List β)
    (m : Nat) : Prop :=
  ∀ q, 0 < q → q < m → EdgeAt key l q

/-- The heap property for the whole backing list. -/
def IsHeapL [Inhabited β] [LinearOrder κ] (key : β → κ) (l : List β) : Prop :=
  HeapUpTo key l l.length

/-- Iterated parent. -/
def parIter : Nat → Nat → Nat
  | 0, q => q
  | n + 1, q => parIter n ((q - 1) / 2)

/-- `q` lies in the subtree rooted at `i`. -/
def Desc (i q : Nat) : Prop := ∃ n, parIter n q = i

/-! ### Invariants of the index-recycling store -/

/-- The free chain starting at a raw `NextSkip` value visits the given list
of table indices, each a skip entry linking to the next. -/
inductive ChainIs : List Nat → Nat → List Nat → Prop where
  | nil : ∀ table, ChainIs table 0 []
  | cons : ∀ table i next c, i < table.length →
      skipRepr (table.getD i 0) = .skip next →
      ChainIs table next c →
      ChainIs table (i + 1) (i :: c)

/-- Well-formedness of the side table: the free chain visits exactly the
skip entries, each exactly once. -/
def SkipWF (s : SkipListS) : Prop :=
  ∃ chain, ChainIs s.data s.firstSkip chain ∧ chain.Nodup ∧
    ∀ i, i < s.data.length →
      ((entryIsData (s.data.getD i 0) = false) ↔ i ∈ chain)

/-- Index stored in the pair at a position. -/
def pairIdxAt [Inhabited α] (s : IVecS α) (p : Nat) : Nat :=
  (s.data.getD p default).2

/-- Structure invariant of `IndexableVec`: the side table is well-formed,
lengths stay below the tag bit, every pair's index is a data entry pointing
back at the pair's position, and every data entry is some pair's index. -/
def IVecInv [Inhabited α] (s : IVecS α) : Prop :=
  SkipWF s.table ∧
  s.data.length < SKIP_BIT ∧
  s.table.data.length < SKIP_BIT ∧
  (∀ p, p < s.data.length →
    pairIdxAt s p < s.table.data.length ∧
    s.table.data.getD (pairIdxAt s p) 0 = p) ∧
  (∀ i, i < s.table.data.length → entryIsData (s.table.data.getD i 0) = true →
    ∃ p, p < s.data.length ∧ pairIdxAt s p = i)

/-- The invariant of an open hole over an `IndexableVec`: every pair other
than the stale one at the hole position is tracked, the out-of-band pair's
entry is still a data entry owned by no live pair, and data entries are
exactly the live pairs' indices plus the out-of-band one. -/
def HoleTInv [Inhabited α] (h : HoleS (IVecS α) (α × Nat)) : Prop :=
  h.pos < h.data.data.length ∧
  SkipWF h.data.table ∧
  h.data.data.length < SKIP_BIT ∧
  h.data.table.data.length < SKIP_BIT ∧
  (∀ p, p < h.data.data.length → p ≠ h.pos →
    pairIdxAt h.data p < h.data.table.data.length ∧
    h.data.table.data.getD (pairIdxAt h.data p) 0 = p) ∧
  (h.elt.2 < h.data.table.data.length ∧
    entryIsData (h.data.table.data.getD h.elt.2 0) = true) ∧
  (∀ p, p < h.data.data.length → p ≠ h.pos → pairIdxAt h.data p ≠ h.elt.2) ∧
  (∀ i, i < h.data.table.data.length →
    entryIsData (h.data.table.data.getD i 0) = true →
    (∃ p, p < h.data.data.length ∧ p ≠ h.pos ∧ pairIdxAt h.data p = i) ∨
      i = h.elt.2)

/-- The heap property exactly as the spec phrases it: the policy never
prefers a non-root position over its parent. -/
def NoPreferOverParent [Inhabited β] (O : HeapOrd κ) (key : β → κ)
    (l : List β) : Prop :=
  ∀ p, p < l.length → 0 < p →
    O.shouldSiftUp (keyAt key l p) (keyAt key l ((p - 1) / 2)) = false

/-- Projection of a hole over an `IndexableVec` onto its pair list. -/
def holeDataProj (h : HoleS (IVecS α) (α × Nat)) : HoleS (List (α × Nat)) (α × Nat) :=
  ⟨h.data.data, h.elt, h.pos⟩

/-- Frame of the side table across a sift: the table keeps its length, its
chain head, and every skip entry. -/
def TableFrame (t t' : SkipListS) : Prop :=
  t'.data.length = t.data.length ∧ t'.firstSkip = t.firstSkip ∧
  ∀ i, entryIsData (t.data.getD i 0) = false → t'.data.getD i 0 = t.data.getD i 0

/-! ## Lemma layer -/

section ListFacts

variable {β : Type} [Inhabited β]

theorem getD_set_self {l : List β} {i : Nat} (a d : β) (h : i < l.length) :
    (l.set i a).getD i d = a := by
  simp [List.getD_eq_getElem?_getD, List.getElem?_set_self, h]

theorem getD_set_ne {l : List β} {i j : Nat} (a d : β) (h : i ≠ j) :
    (l.set i a).getD j d = l.getD j d := by
  simp [List.getD_eq_getElem?_getD, List.getElem?_set_ne, h]

theorem set_getD_self {l : List β} {i : Nat} (d : β) (h : i < l.length) :
    l.set i (l.getD i d) = l := by
  induction l generalizing i with
  | nil => simp at h
  | cons x t ih =>
    cases i with
    | zero => simp [List.getD]
    | succ m =>
      simp only [List.length_cons, Nat.succ_lt_succ_iff] at h
      simp only [List.getD_cons_succ, List.set]
      rw [ih h]

theorem getD_append_left {l l' : List β} {q : Nat} (d : β) (h : q < l.length) :
    (l ++ l').getD q d = l.getD q d := by
  simp [List.getD_eq_getElem?_getD, List.getElem?_append_left h]

theorem getD_append_right_last {l : List β} (x d : β) :
    (l ++ [x]).getD l.length d = x := by
  simp [List.getD_eq_getElem?_getD]

/-- Moving the element at position `m` to the head, replacing it with `x`,
permutes the list with `x` at the head. -/
theorem cons_set_perm {t : List β} {m : Nat} (x d : β) (h : m < t.length) :
    (t.getD m d :: t.set m x).Perm (x :: t) := by
  induction t generalizing m with
  | nil => simp at h
  | cons a s ih =>
    cases m with
    | zero => simpa [List.getD] using List.Perm.swap x a (s)
    | succ m =>
      simp only [List.length_cons, Nat.succ_lt_succ_iff] at h
      have h1 : (s.getD m d :: a :: s.set m x).Perm (a :: (s.getD m d :: s.set m x)) :=
        List.Perm.swap a (s.getD m d) (s.set m x)
      have h2 : (s.getD m d :: s.set m x).Perm (x :: s) := ih h
      simpa using h1.trans ((h2.cons a).trans (List.Perm.swap x a s))

end ListFacts

section SwapFacts

variable {β : Type} [Inhabited β]

theorem length_lswap (l : List β) (i j : Nat) : (lswap l i j).length = l.length := by
  simp [lswap]

theorem getD_lswap_fst {l : List β} {i j : Nat} (hi : i < l.length)
    (hj : j < l.length) : (lswap l i j).getD i default = l.getD j default := by
  unfold lswap
  by_cases hij : i = j
  · subst hij
    rw [getD_set_self _ _ (by simpa using hi)]
  · rw [getD_set_ne _ _ (fun h => hij h.symm), getD_set_self _ _ hi]

theorem getD_lswap_snd {l : List β} {i j : Nat} (hj : j < l.length) :
    (lswap l i j).getD j default = l.getD i default := by
  unfold lswap
  rw [getD_set_self _ _ (by simpa using hj)]

theorem getD_lswap_other {l : List β} {i j q : Nat} (hqi : q ≠ i) (hqj : q ≠ j) :
    (lswap l i j).getD q default = l.getD q default := by
  unfold lswap
  rw [getD_set_ne _ _ (fun h => hqj h.symm), getD_set_ne _ _ (fun h => hqi h.symm)]

theorem lswap_cons (x : β) (t : List β) (i j : Nat) :
    lswap (x :: t) (i + 1) (j + 1) = x :: lswap t i j := by
  simp [lswap, List.getD_cons_succ, List.set]

theorem lswap_comm (l : List β) (i j : Nat) : lswap l i j = lswap l j i := by
  by_cases hij : i = j
  · subst hij; rfl
  · unfold lswap
    rw [List.set_comm _ _ _ hij]

theorem lswap_perm : ∀ (l : List β) (i j : Nat), i < l.length → j < l.length →
    (lswap l i j).Perm l := by
  intro l i j
  induction l generalizing i j with
  | nil => intro hi; simp at hi
  | cons x t ih =>
    intro hi hj
    match i, j with
    | 0, 0 =>
      simp [lswap, List.getD]
    | 0, j + 1 =>
      have hj' : j < t.length := by simpa using hj
      have : lswap (x :: t) 0 (j + 1) = t.getD j default :: t.set j x := by
        simp [lswap, List.getD, List.getD_cons_succ, List.set]
      rw [this]
      exact cons_set_perm x default hj'
    | i + 1, 0 =>
      rw [lswap_comm]
      have hi' : i < t.length := by simpa using hi
      have : lswap (x :: t) 0 (i + 1) = t.getD i default :: t.set i x := by
        simp [lswap, List.getD, List.getD_cons_succ, List.set]
      rw [this]
      exact cons_set_perm x default hi'
    | i + 1, j + 1 =>
      rw [lswap_cons]
      exact (ih i j (by simpa using hi) (by simpa using hj)).cons x

theorem keyAt_lswap_fst {key : β → κ} {l : List β} {i j : Nat}
    (hi : i < l.length) (hj : j < l.length) :
    keyAt key (lswap l i j) i = keyAt key l j := by
  unfold keyAt
  rw [getD_lswap_fst hi hj]

theorem keyAt_lswap_snd {key : β → κ} {l : List β} {i j : Nat}
    (hj : j < l.length) : keyAt key (lswap l i j) j = keyAt key l i := by
  unfold keyAt
  rw [getD_lswap_snd hj]

theorem keyAt_lswap_other {key : β → κ} {l : List β} {i j q : Nat}
    (hqi : q ≠ i) (hqj : q ≠ j) : keyAt key (lswap l i j) q = keyAt key l q := by
  unfold keyAt
  rw [getD_lswap_other hqi hqj]

end SwapFacts

section TreeFacts

theorem parentPos_zero : parentPos 0 = none := rfl

theorem parentPos_succ (p : Nat) : parentPos (p + 1) = some (p / 2) := rfl

theorem parentPos_some {p par : Nat} (h : parentPos p = some par) :
    par = (p - 1) / 2 ∧ par < p ∧ 0 < p := by
  cases p with
  | zero => simp [parentPos] at h
  | succ q =>
    simp only [parentPos_succ, Option.some.injEq] at h
    omega

theorem parentPos_of_pos {p : Nat} (h : 0 < p) : parentPos p = some ((p - 1) / 2) := by
  cases p with
  | zero => omega
  | succ q => simp [parentPos_succ]

theorem child_parent_iff {c p : Nat} (hc : 0 < c) :
    (c - 1) / 2 = p ↔ c = 2 * p + 1 ∨ c = 2 * p + 2 := by
  omega

theorem isWholeNode_iff {len p : Nat} : isWholeNode len p = true ↔ 2 * p + 2 < len := by
  simp only [isWholeNode, childPos]
  split <;> simp_all

theorem childrenList_eq (len p : Nat) :
    childrenList len p =
      if 2 * p + 2 < len then [2 * p + 1, 2 * p + 2]
      else if 2 * p + 1 < len then [2 * p + 1]
      else [] := by
  unfold childrenList nchildren
  rcases Nat.lt_or_ge (2 * p + 2) len with h | h
  · have hm : Nat.min (len - (2 * p + 1)) 2 = 2 := by
      show (if len - (2 * p + 1) ≤ 2 then len - (2 * p + 1) else 2) = _
      split <;> omega
    rw [hm, if_pos h]
    rfl
  · rcases Nat.lt_or_ge (2 * p + 1) len with h' | h'
    · have hm : Nat.min (len - (2 * p + 1)) 2 = 1 := by
        show (if len - (2 * p + 1) ≤ 2 then len - (2 * p + 1) else 2) = 1
        split <;> omega
      rw [hm, if_neg (by omega), if_pos h']
      rfl
    · have hm : Nat.min (len - (2 * p + 1)) 2 = 0 := by
        show (if len - (2 * p + 1) ≤ 2 then len - (2 * p + 1) else 2) = 0
        split <;> omega
      rw [hm, if_neg (by omega), if_neg (by omega)]
      rfl

end TreeFacts

section StorageFacts

variable {β κ : Type} [Inhabited β] (key : β → κ)

theorem listStorage_length (l : List β) :
    (listStorage β κ key).length l = l.length := rfl

theorem listStorage_getKey (l : List β) (p : Nat) :
    (listStorage β κ key).getKey l p = keyAt key l p := rfl

theorem listStorage_load (l : List β) (p : Nat) :
    (listStorage β κ key).load l p = l.getD p default := rfl

theorem listStorage_store (l : List β) (p : Nat) (x : β) :
    (listStorage β κ key).store l p x = l.set p x := rfl

theorem listStorage_move (l : List β) (src dst : Nat) :
    (listStorage β κ key).moveElement l src dst = l.set dst (l.getD src default) := rfl

theorem listStorage_setItem (l : List β) (p : Nat) (x : β) :
    (listStorage β κ key).setItem l p x = l.set p x := rfl

theorem listStorage_getItem (l : List β) (p : Nat) :
    (listStorage β κ key).getItem l p = l.getD p default := rfl

theorem listStorage_slotKey (x : β) :
    (listStorage β κ key).slotKey x = key x := rfl

end StorageFacts

section Bridge

variable {β κ : Type} [Inhabited β] (O : HeapOrd κ) (key : β → κ)

theorem move_set_eq {d : List β} {e : β} {p i : Nat} (hp : p < d.length)
    (hip : i ≠ p) :
    (d.set p (d.getD i default)).set i e = lswap (d.set p e) p i := by
  unfold lswap
  rw [getD_set_ne e default (fun h => hip h.symm), getD_set_self e default hp,
    List.set_set]

theorem holeUpperWhole_reduce {σ ι slotT : Type} (S : StorageModel σ κ ι slotT)
    (h : HoleS σ slotT) :
    holeUpperChildWhole S O h =
      if isWholeNode (S.length h.data) h.pos then
        some (2 * h.pos + 1 +
          (O.selectUpper (S.getKey h.data (2 * h.pos + 1))
            (S.getKey h.data (2 * h.pos + 2))).toNat)
      else none := rfl

theorem childrenList_mem {len p x : Nat} (h : x ∈ childrenList len p) :
    (x = 2 * p + 1 ∨ x = 2 * p + 2) ∧ x < len := by
  rw [childrenList_eq] at h
  split at h
  · simp at h
    constructor
    · tauto
    · rcases h with h | h <;> omega
  · split at h
    · simp at h
      subst h
      exact ⟨Or.inl rfl, by assumption⟩
    · simp at h

theorem fold_upper_congr (d : List β) (e : β) (p : Nat) :
    ∀ (cs : List Nat) (mx : Nat), mx ≠ p → (∀ x ∈ cs, x ≠ p) →
    cs.foldl (fun mx c =>
        if O.selectUpper (keyAt key d mx) (keyAt key d c) then c else mx) mx =
    cs.foldl (fun mx c =>
        if O.selectUpper (keyAt key (d.set p e) mx) (keyAt key (d.set p e) c)
        then c else mx) mx := by
  intro cs
  induction cs with
  | nil => intro mx _ _; rfl
  | cons c rest ih =>
    intro mx hmx hcs
    have hc : c ≠ p := hcs c (List.mem_cons_self c rest)
    have hkm : keyAt key (d.set p e) mx = keyAt key d mx := by
      unfold keyAt; rw [getD_set_ne _ _ (fun h => hmx h.symm)]
    have hkc : keyAt key (d.set p e) c = keyAt key d c := by
      unfold keyAt; rw [getD_set_ne _ _ (fun h => hc h.symm)]
    simp only [List.foldl_cons, hkm, hkc]
    split
    · exact ih c hc (fun x hx => hcs x (List.mem_cons_of_mem c hx))
    · exact ih mx hmx (fun x hx => hcs x (List.mem_cons_of_mem c hx))

theorem holeUpperWhole_eq (d : List β) (e : β) (p : Nat) (hp : p < d.length) :
    holeUpperChildWhole (listStorage β κ key) O ⟨d, e, p⟩ =
      upperWhole O key (d.set p e) p := by
  rw [holeUpperWhole_reduce]
  unfold upperWhole
  simp only [listStorage_length, listStorage_getKey, List.length_set]
  by_cases hw : isWholeNode d.length p = true
  · rw [if_pos hw, if_pos hw]
    have h1 : keyAt key (d.set p e) (2 * p + 1) = keyAt key d (2 * p + 1) := by
      unfold keyAt; rw [getD_set_ne _ _ (by omega)]
    have h2 : keyAt key (d.set p e) (2 * p + 2) = keyAt key d (2 * p + 2) := by
      unfold keyAt; rw [getD_set_ne _ _ (by omega)]
    rw [h1, h2]
  · rw [if_neg hw, if_neg hw]

theorem holeUpperLone_eq (d : List β) (e : β) (p : Nat) (hp : p < d.length) :
    holeUpperChildLone (listStorage β κ key) O ⟨d, e, p⟩ =
      upperLone O key (d.set p e) p := by
  unfold holeUpperChildLone upperLone
  simp only [listStorage_length, listStorage_getKey, List.length_set]
  cases hcl : childrenList d.length p with
  | nil => rfl
  | cons c rest =>
    have hmem : ∀ x ∈ childrenList d.length p, x ≠ p := by
      intro x hx
      have := childrenList_mem hx
      omega
    rw [hcl] at hmem
    have hc : c ≠ p := hmem c (List.mem_cons_self c rest)
    dsimp only
    congr 1
    exact fold_upper_congr O key d e p rest c hc
      (fun x hx => hmem x (List.mem_cons_of_mem c hx))

theorem bridge_up : ∀ (fuel : Nat) (h : HoleS (List β) β),
    h.pos < h.data.length →
    holeIntoPos (listStorage β κ key) (siftUpLoop (listStorage β κ key) O fuel h) =
      absUp O key fuel (h.data.set h.pos h.elt) h.pos := by
  intro fuel
  induction fuel with
  | zero => intro h hp; rfl
  | succ fuel ih =>
    intro h hp
    obtain ⟨d, e, p⟩ := h
    simp only at hp
    simp only [siftUpLoop, absUp]
    cases hpar : parentPos p with
    | none => rfl
    | some par =>
      obtain ⟨hpareq, hparlt, hppos⟩ := parentPos_some hpar
      dsimp only
      have hkey : keyAt key (d.set p e) p = key e := by
        unfold keyAt; rw [getD_set_self _ _ hp]
      have hkeypar : keyAt key (d.set p e) par = keyAt key d par := by
        unfold keyAt; rw [getD_set_ne _ _ (by omega)]
      rw [hkey, hkeypar]
      have helem : holeElement (listStorage β κ key) (⟨d, e, p⟩ : HoleS (List β) β) = key e := rfl
      have hgk : (listStorage β κ key).getKey d par = keyAt key d par := rfl
      rw [helem, hgk]
      by_cases hc : O.shouldSiftUp (key e) (keyAt key d par) = true
      · rw [if_pos hc, if_pos hc]
        have hmove : holeMoveTo (listStorage β κ key) (⟨d, e, p⟩ : HoleS (List β) β) par =
            ⟨d.set p (d.getD par default), e, par⟩ := rfl
        rw [hmove, ih ⟨d.set p (d.getD par default), e, par⟩ (by simpa using hparlt.trans hp)]
        congr 1
        exact move_set_eq hp (by omega)
      · rw [if_neg hc, if_neg hc]
        rfl

theorem bridge_down : ∀ (fuel : Nat) (h : HoleS (List β) β),
    h.pos < h.data.length →
    siftDownLoop (listStorage β κ key) O fuel h =
      absDown O key fuel (h.data.set h.pos h.elt) h.pos := by
  intro fuel
  induction fuel with
  | zero => intro h hp; rfl
  | succ fuel ih =>
    intro h hp
    obtain ⟨d, e, p⟩ := h
    simp only at hp
    simp only [siftDownLoop, absDown]
    rw [holeUpperWhole_eq O key d e p hp]
    have hkey : keyAt key (d.set p e) p = key e := by
      unfold keyAt; rw [getD_set_self _ _ hp]
    have helem : holeElement (listStorage β κ key) (⟨d, e, p⟩ : HoleS (List β) β) = key e := rfl
    cases hcw : upperWhole O key (d.set p e) p with
    | some c =>
      have hcb : 2 * p + 1 ≤ c ∧ c ≤ 2 * p + 2 ∧ 2 * p + 2 < d.length := by
        have hlen : (d.set p e).length = d.length := by simp
        unfold upperWhole at hcw
        split at hcw
        · simp only [Option.some.injEq] at hcw
          have := isWholeNode_iff.mp (by assumption)
          rcases Bool.toNat_le (O.selectUpper (keyAt key (d.set p e) (2 * p + 1))
            (keyAt key (d.set p e) (2 * p + 2))) with h'
          omega
        · exact absurd hcw (by simp)
      dsimp only
      have hkc : keyAt key (d.set p e) c = keyAt key d c := by
        unfold keyAt; rw [getD_set_ne _ _ (by omega)]
      have hgk : (listStorage β κ key).getKey d c = keyAt key d c := rfl
      rw [helem, hgk, hkey, hkc]
      by_cases hcnd : O.shouldSiftDown (key e) (keyAt key d c) = true
      · rw [if_pos hcnd, if_pos hcnd]
        have hmove : holeMoveTo (listStorage β κ key) (⟨d, e, p⟩ : HoleS (List β) β) c =
            ⟨d.set p (d.getD c default), e, c⟩ := rfl
        rw [hmove, ih ⟨d.set p (d.getD c default), e, c⟩ (by simp; omega)]
        congr 1
        exact move_set_eq hp (by omega)
      · rw [if_neg hcnd, if_neg hcnd]
        rfl
    | none =>
      rw [holeUpperLone_eq O key d e p hp]
      cases hcl : upperLone O key (d.set p e) p with
      | some c =>
        have hcb : (c = 2 * p + 1 ∨ c = 2 * p + 2) ∧ c < d.length := by
          unfold upperLone at hcl
          cases hh : childrenList (d.set p e).length p with
          | nil => rw [hh] at hcl; exact absurd hcl (by simp)
          | cons c0 rest =>
            rw [hh] at hcl
            simp only [Option.some.injEq] at hcl
            have hsub : ∀ x ∈ childrenList (d.set p e).length p,
                (x = 2 * p + 1 ∨ x = 2 * p + 2) ∧ x < d.length := by
              intro x hx
              have := childrenList_mem hx
              simpa using this
            have hcmem : c ∈ childrenList (d.set p e).length p := by
              rw [hh]
              rw [← hcl]
              have : ∀ (cs : List Nat) (mx : Nat), mx ∈ c0 :: rest →
                  (∀ x ∈ cs, x ∈ c0 :: rest) →
                  cs.foldl (fun mx c =>
                    if O.selectUpper (keyAt key (d.set p e) mx)
                      (keyAt key (d.set p e) c) then c else mx) mx ∈ c0 :: rest := by
                intro cs
                induction cs with
                | nil => intro mx hmx _; simpa using hmx
                | cons a as iha =>
                  intro mx hmx hall
                  simp only [List.foldl_cons]
                  split
                  · exact iha a (hall a (List.mem_cons_self a as))
                      (fun x hx => hall x (List.mem_cons_of_mem a hx))
                  · exact iha mx hmx (fun x hx => hall x (List.mem_cons_of_mem a hx))
              exact this rest c0 (List.mem_cons_self c0 rest)
                (fun x hx => List.mem_cons_of_mem c0 hx)
            exact hsub c hcmem
        dsimp only
        have hkc : keyAt key (d.set p e) c = keyAt key d c := by
          unfold keyAt; rw [getD_set_ne _ _ (by omega)]
        have hgk : (listStorage β κ key).getKey d c = keyAt key d c := rfl
        rw [helem, hgk, hkey, hkc]
        by_cases hcnd : O.shouldSiftDown (key e) (keyAt key d c) = true
        · rw [if_pos hcnd, if_pos hcnd]
          have hmove : holeIntoPos (listStorage β κ key)
              (holeMoveTo (listStorage β κ key) (⟨d, e, p⟩ : HoleS (List β) β) c) =
              ((d.set p (d.getD c default)).set c e, c) := rfl
          rw [hmove]
          rw [move_set_eq hp (by omega)]
        · rw [if_neg hcnd, if_neg hcnd]
          rfl
      | none => rfl

theorem bridge_bot : ∀ (fuel : Nat) (h : HoleS (List β) β),
    h.pos < h.data.length →
    holeIntoPos (listStorage β κ key) (siftToBottomLoop (listStorage β κ key) O fuel h) =
      absBot O key fuel (h.data.set h.pos h.elt) h.pos := by
  intro fuel
  induction fuel with
  | zero => intro h hp; rfl
  | succ fuel ih =>
    intro h hp
    obtain ⟨d, e, p⟩ := h
    simp only at hp
    simp only [siftToBottomLoop, absBot]
    rw [holeUpperWhole_eq O key d e p hp]
    cases hcw : upperWhole O key (d.set p e) p with
    | some c =>
      have hcb : 2 * p + 1 ≤ c ∧ c ≤ 2 * p + 2 ∧ 2 * p + 2 < d.length := by
        have hlen : (d.set p e).length = d.length := by simp
        unfold upperWhole at hcw
        split at hcw
        · simp only [Option.some.injEq] at hcw
          have := isWholeNode_iff.mp (by assumption)
          rcases Bool.toNat_le (O.selectUpper (keyAt key (d.set p e) (2 * p + 1))
            (keyAt key (d.set p e) (2 * p + 2))) with h'
          omega
        · exact absurd hcw (by simp)
      dsimp only
      have hmove : holeMoveTo (listStorage β κ key) (⟨d, e, p⟩ : HoleS (List β) β) c =
          ⟨d.set p (d.getD c default), e, c⟩ := rfl
      rw [hmove, ih ⟨d.set p (d.getD c default), e, c⟩ (by simp; omega)]
      congr 1
      exact move_set_eq hp (by omega)
    | none =>
      rw [holeUpperLone_eq O key d e p hp]
      cases hcl : upperLone O key (d.set p e) p with
      | some c =>
        have hcb : (c = 2 * p + 1 ∨ c = 2 * p + 2) ∧ c < d.length := by
          unfold upperLone at hcl
          cases hh : childrenList (d.set p e).length p with
          | nil => rw [hh] at hcl; exact absurd hcl (by simp)
          | cons c0 rest =>
            rw [hh] at hcl
            simp only [Option.some.injEq] at hcl
            have hsub : ∀ x ∈ childrenList (d.set p e).length p,
                (x = 2 * p + 1 ∨ x = 2 * p + 2) ∧ x < d.length := by
              intro x hx
              have := childrenList_mem hx
              simpa using this
            have hcmem : c ∈ childrenList (d.set p e).length p := by
              rw [hh]
              rw [← hcl]
              have : ∀ (cs : List Nat) (mx : Nat), mx ∈ c0 :: rest →
                  (∀ x ∈ cs, x ∈ c0 :: rest) →
                  cs.foldl (fun mx c =>
                    if O.selectUpper (keyAt key (d.set p e) mx)
                      (keyAt key (d.set p e) c) then c else mx) mx ∈ c0 :: rest := by
                intro cs
                induction cs with
                | nil => intro mx hmx _; simpa using hmx
                | cons a as iha =>
                  intro mx hmx hall
                  simp only [List.foldl_cons]
                  split
                  · exact iha a (hall a (List.mem_cons_self a as))
                      (fun x hx => hall x (List.mem_cons_of_mem a hx))
                  · exact iha mx hmx (fun x hx => hall x (List.mem_cons_of_mem a hx))
              exact this rest c0 (List.mem_cons_self c0 rest)
                (fun x hx => List.mem_cons_of_mem c0 hx)
            exact hsub c hcmem
        dsimp only
        have hmove : holeIntoPos (listStorage β κ key)
            (holeMoveTo (listStorage β κ key) (⟨d, e, p⟩ : HoleS (List β) β) c) =
            ((d.set p (d.getD c default)).set c e, c) := rfl
        rw [hmove]
        rw [move_set_eq hp (by omega)]
      | none => rfl

theorem siftUpS_eq (d : List β) (p : Nat) (hp : p < d.length) :
    siftUpS (listStorage β κ key) O d p = absUp O key p d p := by
  unfold siftUpS holeNew
  rw [bridge_up O key p ⟨d, (listStorage β κ key).load d p, p⟩ hp]
  have : (listStorage β κ key).load d p = d.getD p default := rfl
  rw [this, set_getD_self _ hp]

theorem siftDownS_eq (d : List β) (p : Nat) (hp : p < d.length) :
    siftDownS (listStorage β κ key) O d p = absDown O key d.length d p := by
  unfold siftDownS holeNew
  rw [bridge_down O key ((listStorage β κ key).length d)
    ⟨d, (listStorage β κ key).load d p, p⟩ hp]
  have : (listStorage β κ key).load d p = d.getD p default := rfl
  rw [this, set_getD_self _ hp]
  rfl

theorem siftToBottomS_eq (d : List β) (p : Nat) (hp : p < d.length) :
    siftToBottomS (listStorage β κ key) O d p = absBot O key d.length d p := by
  unfold siftToBottomS holeNew
  rw [bridge_bot O key ((listStorage β κ key).length d)
    ⟨d, (listStorage β κ key).load d p, p⟩ hp]
  have : (listStorage β κ key).load d p = d.getD p default := rfl
  rw [this, set_getD_self _ hp]
  rfl

end Bridge

section AbsBasic

variable {β κ : Type} [Inhabited β] (O : HeapOrd κ) (key : β → κ)

theorem foldl_choice_mem (f : Nat → Nat → Bool) :
    ∀ (cs : List Nat) (mx : Nat),
      cs.foldl (fun a c => if f a c then c else a) mx ∈ mx :: cs := by
  intro cs
  induction cs with
  | nil => intro mx; simp
  | cons c rest ih =>
    intro mx
    simp only [List.foldl_cons]
    split
    · have := ih c
      simp only [List.mem_cons] at this ⊢
      tauto
    · have := ih mx
      simp only [List.mem_cons] at this ⊢
      tauto

theorem upperWhole_some {l : List β} {p c : Nat}
    (h : upperWhole O key l p = some c) :
    (c = 2 * p + 1 ∨ c = 2 * p + 2) ∧ 2 * p + 2 < l.length := by
  unfold upperWhole at h
  split at h
  · simp only [Option.some.injEq] at h
    have hw := isWholeNode_iff.mp (by assumption)
    rcases Bool.toNat_le (O.selectUpper (keyAt key l (2 * p + 1))
      (keyAt key l (2 * p + 2))) with h'
    omega
  · exact absurd h (by simp)

theorem upperWhole_none {l : List β} {p : Nat}
    (h : upperWhole O key l p = none) : ¬ (2 * p + 2 < l.length) := by
  unfold upperWhole at h
  split at h
  · exact absurd h (by simp)
  · intro hlt
    exact (by assumption : ¬ isWholeNode l.length p = true) (isWholeNode_iff.mpr hlt)

theorem upperLone_some {l : List β} {p c : Nat}
    (h : upperLone O key l p = some c) :
    (c = 2 * p + 1 ∨ c = 2 * p + 2) ∧ c < l.length := by
  unfold upperLone at h
  cases hcl : childrenList l.length p with
  | nil => rw [hcl] at h; exact absurd h (by simp)
  | cons c0 rest =>
    rw [hcl] at h
    simp only [Option.some.injEq] at h
    have hmem : c ∈ childrenList l.length p := by
      rw [hcl, ← h]
      exact foldl_choice_mem _ rest c0
    exact ⟨(childrenList_mem hmem).1, (childrenList_mem hmem).2⟩

theorem upperLone_none {l : List β} {p : Nat}
    (h : upperLone O key l p = none) : ¬ (2 * p + 1 < l.length) := by
  unfold upperLone at h
  cases hcl : childrenList l.length p with
  | nil =>
    rw [childrenList_eq] at hcl
    intro hlt
    split at hcl <;> simp_all
  | cons c0 rest => rw [hcl] at h; exact absurd h (by simp)

theorem absUp_length : ∀ (fuel : Nat) (l : List β) (p : Nat),
    ((absUp O key fuel l p).1).length = l.length := by
  intro fuel
  induction fuel with
  | zero => intro l p; rfl
  | succ fuel ih =>
    intro l p
    simp only [absUp]
    cases parentPos p with
    | none => rfl
    | some par =>
      dsimp only
      split
      · rw [ih, length_lswap]
      · rfl

theorem absUp_perm : ∀ (fuel : Nat) (l : List β) (p : Nat), p < l.length →
    ((absUp O key fuel l p).1).Perm l := by
  intro fuel
  induction fuel with
  | zero => intro l p _; exact List.Perm.refl l
  | succ fuel ih =>
    intro l p hp
    simp only [absUp]
    cases hpar : parentPos p with
    | none => exact List.Perm.refl l
    | some par =>
      obtain ⟨hpareq, hparlt, hppos⟩ := parentPos_some hpar
      dsimp only
      split
      · exact (ih (lswap l p par) par (by rw [length_lswap]; omega)).trans
          (lswap_perm l p par hp (by omega))
      · exact List.Perm.refl l

theorem absUp_pos_le : ∀ (fuel : Nat) (l : List β) (p : Nat),
    (absUp O key fuel l p).2 ≤ p := by
  intro fuel
  induction fuel with
  | zero => intro l p; exact Nat.le_refl p
  | succ fuel ih =>
    intro l p
    simp only [absUp]
    cases hpar : parentPos p with
    | none => exact Nat.le_refl p
    | some par =>
      obtain ⟨hpareq, hparlt, hppos⟩ := parentPos_some hpar
      dsimp only
      split
      · exact le_trans (ih (lswap l p par) par) (by omega)
      · exact Nat.le_refl p

theorem absUp_stop : ∀ (fuel : Nat) (l : List β) (p : Nat),
    (absUp O key fuel l p).2 = p → (absUp O key fuel l p).1 = l := by
  intro fuel l p
  cases fuel with
  | zero => intro _; rfl
  | succ fuel =>
    simp only [absUp]
    cases hpar : parentPos p with
    | none => intro _; rfl
    | some par =>
      obtain ⟨hpareq, hparlt, hppos⟩ := parentPos_some hpar
      dsimp only
      split
      · intro hpos
        have := absUp_pos_le O key fuel (lswap l p par) par
        omega
      · intro _; rfl

theorem absDown_length : ∀ (fuel : Nat) (l : List β) (p : Nat),
    ((absDown O key fuel l p).1).length = l.length := by
  intro fuel
  induction fuel with
  | zero => intro l p; rfl
  | succ fuel ih =>
    intro l p
    simp only [absDown]
    cases upperWhole O key l p with
    | some c =>
      dsimp only
      split
      · rw [ih, length_lswap]
      · rfl
    | none =>
      dsimp only
      cases upperLone O key l p with
      | some c =>
        dsimp only
        split
        · rw [length_lswap]
        · rfl
      | none => rfl

theorem absDown_perm : ∀ (fuel : Nat) (l : List β) (p : Nat), p < l.length →
    ((absDown O key fuel l p).1).Perm l := by
  intro fuel
  induction fuel with
  | zero => intro l p _; exact List.Perm.refl l
  | succ fuel ih =>
    intro l p hp
    simp only [absDown]
    cases hcw : upperWhole O key l p with
    | some c =>
      obtain ⟨hc, hlen⟩ := upperWhole_some O key hcw
      dsimp only
      split
      · exact (ih (lswap l p c) c (by rw [length_lswap]; omega)).trans
          (lswap_perm l p c hp (by omega))
      · exact List.Perm.refl l
    | none =>
      dsimp only
      cases hcl : upperLone O key l p with
      | some c =>
        obtain ⟨hc, hlen⟩ := upperLone_some O key hcl
        dsimp only
        split
        · exact lswap_perm l p c hp (by omega)
        · exact List.Perm.refl l
      | none => exact List.Perm.refl l

theorem absBot_length : ∀ (fuel : Nat) (l : List β) (p : Nat),
    ((absBot O key fuel l p).1).length = l.length := by
  intro fuel
  induction fuel with
  | zero => intro l p; rfl
  | succ fuel ih =>
    intro l p
    simp only [absBot]
    cases upperWhole O key l p with
    | some c =>
      dsimp only
      rw [ih, length_lswap]
    | none =>
      dsimp only
      cases upperLone O key l p with
      | some c => dsimp only; rw [length_lswap]
      | none => rfl

theorem absBot_perm : ∀ (fuel : Nat) (l : List β) (p : Nat), p < l.length →
    ((absBot O key fuel l p).1).Perm l := by
  intro fuel
  induction fuel with
  | zero => intro l p _; exact List.Perm.refl l
  | succ fuel ih =>
    intro l p hp
    simp only [absBot]
    cases hcw : upperWhole O key l p with
    | some c =>
      obtain ⟨hc, hlen⟩ := upperWhole_some O key hcw
      dsimp only
      exact (ih (lswap l p c) c (by rw [length_lswap]; omega)).trans
        (lswap_perm l p c hp (by omega))
    | none =>
      dsimp only
      cases hcl : upperLone O key l p with
      | some c =>
        obtain ⟨hc, hlen⟩ := upperLone_some O key hcl
        dsimp only
        exact lswap_perm l p c hp (by omega)
      | none => exact List.Perm.refl l

theorem absBot_pos : ∀ (fuel : Nat) (l : List β) (p : Nat), p < l.length →
    p ≤ (absBot O key fuel l p).2 ∧ (absBot O key fuel l p).2 < l.length := by
  intro fuel
  induction fuel with
  | zero => intro l p hp; exact ⟨Nat.le_refl p, hp⟩
  | succ fuel ih =>
    intro l p hp
    simp only [absBot]
    cases hcw : upperWhole O key l p with
    | some c =>
      obtain ⟨hc, hlen⟩ := upperWhole_some O key hcw
      dsimp only
      have := ih (lswap l p c) c (by rw [length_lswap]; omega)
      rw [length_lswap] at this
      omega
    | none =>
      dsimp only
      cases hcl : upperLone O key l p with
      | some c =>
        obtain ⟨hc, hlen⟩ := upperLone_some O key hcl
        dsimp only
        omega
      | none => exact ⟨Nat.le_refl p, hp⟩

end AbsBasic

section StdFacts

variable {κ : Type} [LinearOrder κ] {O : HeapOrd κ}

theorem IsStdOrd.ssu_iff (h : IsStdOrd O) {a b : κ} :
    O.shouldSiftUp a b = true ↔ b < a := by
  rw [h.1]; simp

theorem IsStdOrd.ssu_false (h : IsStdOrd O) {a b : κ} :
    O.shouldSiftUp a b = false ↔ a ≤ b := by
  rw [h.1]; simp

theorem IsStdOrd.ssd_iff (h : IsStdOrd O) {a b : κ} :
    O.shouldSiftDown a b = true ↔ a < b := by
  rw [h.2]; simp

theorem IsStdOrd.ssd_false (h : IsStdOrd O) {a b : κ} :
    O.shouldSiftDown a b = false ↔ b ≤ a := by
  rw [h.2]; simp

theorem IsStdOrd.selU_iff (h : IsStdOrd O) {a b : κ} :
    O.selectUpper a b = true ↔ a < b := by
  unfold HeapOrd.selectUpper
  rw [h.1]; simp

theorem maxHeapOrd_std (κ : Type) [LinearOrder κ] : IsStdOrd (maxHeapOrd κ) := by
  constructor
  · intro a b
    simp only [maxHeapOrd]
    rcases lt_trichotomy a b with h | h | h
    · simp [compare_lt_iff_lt.mpr h, Ordering.isGT, not_lt.mpr (le_of_lt h)]
    · subst h
      simp [compare_eq_iff_eq.mpr rfl, Ordering.isGT]
    · simp [compare_gt_iff_gt.mpr h, Ordering.isGT, h]
  · intro a b
    simp only [maxHeapOrd]
    rcases lt_trichotomy a b with h | h | h
    · simp [compare_lt_iff_lt.mpr h, Ordering.isLT, h]
    · subst h
      simp [compare_eq_iff_eq.mpr rfl, Ordering.isLT]
    · simp [compare_gt_iff_gt.mpr h, Ordering.isLT, not_lt.mpr (le_of_lt h)]

theorem minHeapOrd_std (κ : Type) [LinearOrder κ] :
    IsStdOrd (κ := κᵒᵈ) (minHeapOrd κ) := by
  constructor
  · intro a b
    have h2 : (decide (b < a) : Bool) =
        decide (OrderDual.ofDual a < OrderDual.ofDual b) :=
      decide_eq_decide.mpr Iff.rfl
    rw [h2]
    show (compare (OrderDual.ofDual a) (OrderDual.ofDual b)).isLT = _
    rcases lt_trichotomy (OrderDual.ofDual a) (OrderDual.ofDual b) with h | h | h
    · simp [compare_lt_iff_lt.mpr h, Ordering.isLT, h]
    · rw [h]
      simp [compare_eq_iff_eq.mpr rfl, Ordering.isLT]
    · simp [compare_gt_iff_gt.mpr h, Ordering.isLT, not_lt.mpr (le_of_lt h)]
  · intro a b
    have h2 : (decide (a < b) : Bool) =
        decide (OrderDual.ofDual b < OrderDual.ofDual a) :=
      decide_eq_decide.mpr Iff.rfl
    rw [h2]
    show (compare (OrderDual.ofDual a) (OrderDual.ofDual b)).isGT = _
    rcases lt_trichotomy (OrderDual.ofDual a) (OrderDual.ofDual b) with h | h | h
    · simp [compare_lt_iff_lt.mpr h, Ordering.isGT, not_lt.mpr (le_of_lt h)]
    · rw [h]
      simp [compare_eq_iff_eq.mpr rfl, Ordering.isGT]
    · simp [compare_gt_iff_gt.mpr h, Ordering.isGT, h]

end StdFacts

section HeapMaster

variable {β κ : Type} [Inhabited β] [LinearOrder κ] {O : HeapOrd κ} (key : β → κ)

/-- Master sift-up lemma.  If every edge below `m` except possibly the one at
`p` holds, and the children of `p` below `m` already fit below `p`'s parent,
then after sifting up from `p` every edge below `m` holds. -/
theorem absUp_heap (hst : IsStdOrd O) :
    ∀ (fuel : Nat) (l : List β) (p m : Nat), p ≤ fuel → p < m → m ≤ l.length →
    (∀ q, 0 < q → q < m → q ≠ p → EdgeAt key l q) →
    (0 < p → ∀ c, c < m → (c - 1) / 2 = p →
      keyAt key l c ≤ keyAt key l ((p - 1) / 2)) →
    ∀ q, 0 < q → q < m → EdgeAt key (absUp O key fuel l p).1 q := by
  intro fuel
  induction fuel with
  | zero =>
    intro l p m hfuel hpm hml hA hB q hq0 hqm
    have hp0 : p = 0 := by omega
    subst hp0
    exact hA q hq0 hqm (by omega)
  | succ fuel ih =>
    intro l p m hfuel hpm hml hA hB q hq0 hqm
    simp only [absUp]
    cases hpar : parentPos p with
    | none =>
      have hp0 : p = 0 := by cases p with
        | zero => rfl
        | succ u => rw [parentPos_succ] at hpar; exact absurd hpar (by simp)
      subst hp0
      exact hA q hq0 hqm (by omega)
    | some par =>
      obtain ⟨hpareq, hparlt, hppos⟩ := parentPos_some hpar
      dsimp only
      have hplen : p < l.length := by omega
      have hparlen : par < l.length := by omega
      by_cases hcond : O.shouldSiftUp (keyAt key l p) (keyAt key l par) = true
      · rw [if_pos hcond]
        have hlt : keyAt key l par < keyAt key l p := (hst.ssu_iff).mp hcond
        apply ih (lswap l p par) par m (by omega) (by omega)
          (by rw [length_lswap]; omega) ?_ ?_ q hq0 hqm
        · -- every edge below m except at par holds after the swap
          intro r hr0 hrm hrpar
          unfold EdgeAt
          by_cases hrp : r = p
          · subst hrp
            rw [keyAt_lswap_fst hplen hparlen, ← hpareq,
              keyAt_lswap_snd hparlen]
            exact le_of_lt hlt
          · by_cases hr1 : (r - 1) / 2 = p
            · have hrgt : p < r := by omega
              rw [keyAt_lswap_other (by omega) (by omega), hr1,
                keyAt_lswap_fst hplen hparlen]
              have := hB hppos r hrm hr1
              rw [← hpareq] at this
              exact this
            · by_cases hr2 : (r - 1) / 2 = par
              · have hrne : r ≠ par := by
                  intro hcontra
                  subst hcontra
                  omega
                rw [keyAt_lswap_other (by omega) (by omega), hr2,
                  keyAt_lswap_snd hparlen]
                have := hA r hr0 hrm (by omega)
                unfold EdgeAt at this
                rw [hr2] at this
                exact le_trans this (le_of_lt hlt)
              · rw [keyAt_lswap_other (by omega) (by omega),
                  keyAt_lswap_other (by omega) (by omega)]
                have := hA r hr0 hrm (by omega)
                unfold EdgeAt at this
                exact this
        · -- children of par below m fit below par's parent after the swap
          intro hpar0 c hcm hcp
          have hcge : c = 2 * par + 1 ∨ c = 2 * par + 2 := by
            have hc0 : 0 < c := by omega
            exact (child_parent_iff hc0).mp hcp
          have hgparlt : (par - 1) / 2 < par := by omega
          have hgpr : keyAt key (lswap l p par) ((par - 1) / 2) =
              keyAt key l ((par - 1) / 2) :=
            keyAt_lswap_other (by omega) (by omega)
          rw [hgpr]
          by_cases hcpp : c = p
          · subst hcpp
            rw [keyAt_lswap_fst hplen hparlen]
            have := hA par (by omega) (by omega) (by omega)
            unfold EdgeAt at this
            exact this
          · rw [keyAt_lswap_other (by omega) (by omega)]
            have h1 := hA c (by omega) hcm (by omega)
            unfold EdgeAt at h1
            rw [hcp] at h1
            have h2 := hA par (by omega) (by omega) (by omega)
            unfold EdgeAt at h2
            exact le_trans h1 h2
      · rw [if_neg hcond]
        by_cases hqp : q = p
        · subst hqp
          unfold EdgeAt
          rw [← hpareq]
          exact (hst.ssu_false).mp (by simpa using hcond)
        · exact hA q hq0 hqm hqp

/-- The whole-node upper child is a maximal child under a standard policy. -/
theorem upperWhole_max (hst : IsStdOrd O) {l : List β} {p c : Nat}
    (h : upperWhole O key l p = some c) :
    ∀ d, 0 < d → (d - 1) / 2 = p → d < l.length →
      keyAt key l d ≤ keyAt key l c := by
  obtain ⟨hc, hlen⟩ := upperWhole_some O key h
  unfold upperWhole at h
  rw [if_pos (isWholeNode_iff.mpr hlen)] at h
  simp only [Option.some.injEq] at h
  intro d hd0 hd hdlen
  have hdc : d = 2 * p + 1 ∨ d = 2 * p + 2 := (child_parent_iff hd0).mp hd
  by_cases hsel : O.selectUpper (keyAt key l (2 * p + 1)) (keyAt key l (2 * p + 2)) = true
  · have hlt := (hst.selU_iff).mp hsel
    have hceq : c = 2 * p + 2 := by rw [hsel] at h; simpa using h.symm
    subst hceq
    rcases hdc with hdc | hdc <;> subst hdc
    · exact le_of_lt hlt
    · exact le_refl _
  · have hle : keyAt key l (2 * p + 2) ≤ keyAt key l (2 * p + 1) := by
      rcases le_or_lt (keyAt key l (2 * p + 2)) (keyAt key l (2 * p + 1)) with hh | hh
      · exact hh
      · exact absurd ((hst.selU_iff).mpr hh) hsel
    have hceq : c = 2 * p + 1 := by
      rw [Bool.not_eq_true] at hsel
      rw [hsel] at h
      simpa using h.symm
    subst hceq
    rcases hdc with hdc | hdc <;> subst hdc
    · exact le_refl _
    · exact hle

/-- Fixup variant of the sift-up lemma: edges not touching `p` hold and the
children of `p` fit below `p`'s parent; if the sift moved the element, the
whole heap property is restored. -/
theorem absUp_fixup (hst : IsStdOrd O) :
    ∀ (fuel : Nat) (l : List β) (p : Nat), p ≤ fuel → p < l.length →
    (∀ q, 0 < q → q < l.length → q ≠ p → (q - 1) / 2 ≠ p → EdgeAt key l q) →
    (0 < p → ∀ c, c < l.length → (c - 1) / 2 = p →
      keyAt key l c ≤ keyAt key l ((p - 1) / 2)) →
    (absUp O key fuel l p).2 ≠ p →
    ∀ q, 0 < q → q < l.length → EdgeAt key (absUp O key fuel l p).1 q := by
  intro fuel l p hfuel hp hA4 hB hmoved
  cases fuel with
  | zero => exact absurd rfl hmoved
  | succ fuel =>
    revert hmoved
    simp only [absUp]
    cases hpar : parentPos p with
    | none => intro hmoved; exact absurd rfl hmoved
    | some par =>
      obtain ⟨hpareq, hparlt, hppos⟩ := parentPos_some hpar
      dsimp only
      by_cases hcond : O.shouldSiftUp (keyAt key l p) (keyAt key l par) = true
      · rw [if_pos hcond]
        intro _
        have hlt : keyAt key l par < keyAt key l p := (hst.ssu_iff).mp hcond
        have hparlen : par < l.length := by omega
        apply absUp_heap key hst fuel (lswap l p par) par l.length (by omega)
          (by omega) (by rw [length_lswap])
        · intro r hr0 hrm hrpar
          unfold EdgeAt
          by_cases hrp : r = p
          · subst hrp
            rw [keyAt_lswap_fst hp hparlen, ← hpareq, keyAt_lswap_snd hparlen]
            exact le_of_lt hlt
          · by_cases hr1 : (r - 1) / 2 = p
            · have hrgt : p < r := by omega
              rw [keyAt_lswap_other (by omega) (by omega), hr1,
                keyAt_lswap_fst hp hparlen]
              have := hB hppos r hrm hr1
              rw [← hpareq] at this
              exact this
            · by_cases hr2 : (r - 1) / 2 = par
              · rw [keyAt_lswap_other (by omega) (by omega), hr2,
                  keyAt_lswap_snd hparlen]
                have := hA4 r hr0 hrm (by omega) (by omega)
                unfold EdgeAt at this
                rw [hr2] at this
                exact le_trans this (le_of_lt hlt)
              · rw [keyAt_lswap_other (by omega) (by omega),
                  keyAt_lswap_other (by omega) (by omega)]
                have := hA4 r hr0 hrm (by omega) (by omega)
                unfold EdgeAt at this
                exact this
        · intro hpar0 c hcm hcp
          have hc0 : 0 < c := by omega
          have hcge : c = 2 * par + 1 ∨ c = 2 * par + 2 :=
            (child_parent_iff hc0).mp hcp
          have hgpr : keyAt key (lswap l p par) ((par - 1) / 2) =
              keyAt key l ((par - 1) / 2) :=
            keyAt_lswap_other (by omega) (by omega)
          rw [hgpr]
          by_cases hcpp : c = p
          · subst hcpp
            rw [keyAt_lswap_fst hp hparlen]
            have := hA4 par (by omega) (by omega) (by omega) (by omega)
            unfold EdgeAt at this
            exact this
          · rw [keyAt_lswap_other (by omega) (by omega)]
            have h1 := hA4 c (by omega) hcm (by omega) (by omega)
            unfold EdgeAt at h1
            rw [hcp] at h1
            have h2 := hA4 par (by omega) (by omega) (by omega) (by omega)
            unfold EdgeAt at h2
            exact le_trans h1 h2
      · rw [if_neg hcond]
        intro hmoved
        exact absurd rfl hmoved

/-- Master sift-to-bottom lemma: if the only edges that may fail touch `p`
and `p`'s children already fit below `p`'s parent, the result is a heap
everywhere except possibly at the final position, which has no children. -/
theorem absBot_master (hst : IsStdOrd O) :
    ∀ (fuel : Nat) (l : List β) (p : Nat), l.length - p ≤ fuel → p < l.length →
    (∀ q, 0 < q → q < l.length → q ≠ p → (q - 1) / 2 ≠ p → EdgeAt key l q) →
    (0 < p → ∀ c, c < l.length → (c - 1) / 2 = p →
      keyAt key l c ≤ keyAt key l ((p - 1) / 2)) →
    (∀ q, 0 < q → q < l.length → q ≠ (absBot O key fuel l p).2 →
      EdgeAt key (absBot O key fuel l p).1 q) ∧
    ¬ (2 * (absBot O key fuel l p).2 + 1 < l.length) := by
  intro fuel
  induction fuel with
  | zero =>
    intro l p hfuel hp
    omega
  | succ fuel ih =>
    intro l p hfuel hp hT1 hT2
    simp only [absBot]
    cases hcw : upperWhole O key l p with
    | some c =>
      obtain ⟨hc, hlen2⟩ := upperWhole_some O key hcw
      have hclen : c < l.length := by omega
      have hcpar : (c - 1) / 2 = p := by omega
      have hmax := upperWhole_max key hst hcw
      dsimp only
      have hrec := ih (lswap l p c) c (by rw [length_lswap]; omega)
        (by rw [length_lswap]; omega) ?_ ?_
      · constructor
        · intro q hq0 hqm hqne
          rw [length_lswap] at hrec
          exact hrec.1 q hq0 (by omega) hqne
        · rw [length_lswap] at hrec
          exact hrec.2
      · -- T1 for the swapped state at the new hole position c
        intro q hq0 hqm hqc hqparc
        rw [length_lswap] at hqm
        unfold EdgeAt
        by_cases hqp : q = p
        · subst hqp
          rw [keyAt_lswap_fst hp hclen,
            keyAt_lswap_other (by omega) (by omega)]
          exact hT2 (by omega) c hclen hcpar
        · by_cases hq1 : (q - 1) / 2 = p
          · -- q is the sibling of c
            rw [keyAt_lswap_other (by omega) (by omega), hq1,
              keyAt_lswap_fst hp hclen]
            exact hmax q hq0 hq1 hqm
          · rw [keyAt_lswap_other (by omega) (by omega),
              keyAt_lswap_other (by omega) (by omega)]
            exact hT1 q hq0 hqm (by omega) (by omega)
      · -- T2 for the swapped state at c
        intro hc0 d hdm hdp
        rw [length_lswap] at hdm
        have hd0 : 0 < d := by omega
        rw [hcpar, keyAt_lswap_other (by omega) (by omega),
          keyAt_lswap_fst hp hclen]
        have := hT1 d hd0 hdm (by omega) (by omega)
        unfold EdgeAt at this
        rw [hdp] at this
        exact this
    | none =>
      have hnw := upperWhole_none O key hcw
      dsimp only
      cases hcl : upperLone O key l p with
      | some c =>
        obtain ⟨hc, hclen⟩ := upperLone_some O key hcl
        have hceq : c = 2 * p + 1 := by omega
        dsimp only
        constructor
        · intro q hq0 hqm hqne
          unfold EdgeAt
          by_cases hqp : q = p
          · rw [hqp]
            have hp0 : 0 < p := by omega
            rw [keyAt_lswap_fst hp hclen,
              keyAt_lswap_other (by omega) (by omega)]
            exact hT2 hp0 c hclen (by omega)
          · by_cases hq1 : (q - 1) / 2 = p
            · have : q = 2 * p + 1 ∨ q = 2 * p + 2 := (child_parent_iff hq0).mp hq1
              omega
            · have hqc2 : (q - 1) / 2 ≠ c := by
                intro hcontra
                have hq2 : 0 < q := hq0
                have : q = 2 * c + 1 ∨ q = 2 * c + 2 := (child_parent_iff hq2).mp hcontra
                omega
              rw [keyAt_lswap_other (by omega) (by omega),
                keyAt_lswap_other (by omega) (by omega)]
              exact hT1 q hq0 hqm (by omega) (by omega)
        · omega
      | none =>
        have hnl := upperLone_none O key hcl
        dsimp only
        constructor
        · intro q hq0 hqm hqne
          by_cases hq1 : (q - 1) / 2 = p
          · have : q = 2 * p + 1 ∨ q = 2 * p + 2 := (child_parent_iff hq0).mp hq1
            omega
          · exact hT1 q hq0 hqm hqne hq1
        · omega

end HeapMaster

section DescFacts

theorem parIter_le : ∀ (n q : Nat), parIter n q ≤ q := by
  intro n
  induction n with
  | zero => intro q; exact Nat.le_refl q
  | succ n ih =>
    intro q
    calc parIter (n + 1) q = parIter n ((q - 1) / 2) := rfl
      _ ≤ (q - 1) / 2 := ih _
      _ ≤ q := by omega

theorem parIter_add : ∀ (n k q : Nat), parIter (n + k) q = parIter k (parIter n q) := by
  intro n
  induction n with
  | zero => intro k q; rw [Nat.zero_add]; rfl
  | succ n ih =>
    intro k q
    have : n + 1 + k = (n + k) + 1 := by omega
    rw [this]
    show parIter (n + k) ((q - 1) / 2) = parIter k (parIter n ((q - 1) / 2))
    exact ih k ((q - 1) / 2)

theorem Desc_refl (i : Nat) : Desc i i := ⟨0, rfl⟩

theorem Desc_le {i q : Nat} (h : Desc i q) : i ≤ q := by
  obtain ⟨n, hn⟩ := h
  rw [← hn]
  exact parIter_le n q

theorem Desc_parent {i q : Nat} (h : Desc i q) (hne : q ≠ i) :
    Desc i ((q - 1) / 2) := by
  obtain ⟨n, hn⟩ := h
  cases n with
  | zero => exact absurd hn hne
  | succ n => exact ⟨n, hn⟩

theorem Desc_child {i p c : Nat} (h : Desc i p) (hc : (c - 1) / 2 = p) :
    Desc i c := by
  obtain ⟨n, hn⟩ := h
  exact ⟨n + 1, by show parIter n ((c - 1) / 2) = i; rw [hc]; exact hn⟩

theorem Desc_trans {a b q : Nat} (hab : Desc a b) (hbq : Desc b q) : Desc a q := by
  obtain ⟨n, hn⟩ := hab
  obtain ⟨m, hm⟩ := hbq
  exact ⟨m + n, by rw [parIter_add, hm, hn]⟩

theorem Desc_through_child : ∀ (n q i : Nat), parIter n q = i → q ≠ i →
    ∃ c, (c - 1) / 2 = i ∧ c ≠ i ∧ Desc c q := by
  intro n
  induction n with
  | zero => intro q i h hne; exact absurd h hne
  | succ n ih =>
    intro q i h hne
    by_cases hq : (q - 1) / 2 = i
    · exact ⟨q, hq, hne, Desc_refl q⟩
    · obtain ⟨c, hc1, hcne, hc2⟩ := ih ((q - 1) / 2) i h hq
      exact ⟨c, hc1, hcne, Desc_child hc2 rfl⟩

theorem Desc_linear {a b q : Nat} (ha : Desc a q) (hb : Desc b q) :
    Desc a b ∨ Desc b a := by
  obtain ⟨n, hn⟩ := ha
  obtain ⟨m, hm⟩ := hb
  rcases Nat.le_total n m with h | h
  · right
    refine ⟨m - n, ?_⟩
    rw [← hn, ← parIter_add]
    have : n + (m - n) = m := by omega
    rw [this]
    exact hm
  · left
    refine ⟨n - m, ?_⟩
    rw [← hm, ← parIter_add]
    have : m + (n - m) = n := by omega
    rw [this]
    exact hn

theorem Desc_sibling_not {i c1 c2 : Nat} (hc1 : (c1 - 1) / 2 = i)
    (hc2 : (c2 - 1) / 2 = i) (h01 : 0 < c1) (h02 : 0 < c2) (hne : c1 ≠ c2) :
    ¬ Desc c1 c2 := by
  intro h
  have hgt : i < c1 := by
    have := (child_parent_iff h01).mp hc1
    omega
  by_cases heq : c2 = c1
  · exact hne heq.symm
  · have := Desc_le (Desc_parent h heq)
    rw [hc2] at this
    omega

end DescFacts

section DownMaster

variable {β κ : Type} [Inhabited β] [LinearOrder κ] {O : HeapOrd κ} (key : β → κ)

/-- Master sift-down lemma, subtree version.  If every edge strictly inside
the subtree of `p` (not entering `p`'s children) holds, then after sifting
down from `p`: every subtree edge holds, the value at `p` is the old one or
an old child's, and nothing outside the subtree changed. -/
theorem absDown_master (hst : IsStdOrd O) :
    ∀ (fuel : Nat) (l : List β) (p : Nat), l.length - p ≤ fuel → p < l.length →
    (∀ q, 0 < q → q < l.length → Desc p q → q ≠ p → (q - 1) / 2 ≠ p →
      EdgeAt key l q) →
    (∀ q, 0 < q → q < l.length → Desc p q → q ≠ p →
      EdgeAt key (absDown O key fuel l p).1 q) ∧
    ((absDown O key fuel l p).1.getD p default = l.getD p default ∨
      ∃ c, 0 < c ∧ (c - 1) / 2 = p ∧ c < l.length ∧
        (absDown O key fuel l p).1.getD p default = l.getD c default) ∧
    (∀ q, ¬ Desc p q →
      (absDown O key fuel l p).1.getD q default = l.getD q default) := by
  intro fuel
  induction fuel with
  | zero =>
    intro l p hfuel hp
    omega
  | succ fuel ih =>
    intro l p hfuel hp hS1
    simp only [absDown]
    cases hcw : upperWhole O key l p with
    | some c =>
      obtain ⟨hc, hlen2⟩ := upperWhole_some O key hcw
      have hclen : c < l.length := by omega
      have hcpar : (c - 1) / 2 = p := by omega
      have hmax := upperWhole_max key hst hcw
      have hdpc : Desc p c := Desc_child (Desc_refl p) hcpar
      dsimp only
      by_cases hcond : O.shouldSiftDown (keyAt key l p) (keyAt key l c) = true
      · rw [if_pos hcond]
        have hlt : keyAt key l p < keyAt key l c := (hst.ssd_iff).mp hcond
        have hrec := ih (lswap l p c) c (by rw [length_lswap]; omega)
          (by rw [length_lswap]; omega) ?_
        · obtain ⟨ha, hb, hcout⟩ := hrec
          rw [length_lswap] at ha
          -- the final value at p is the old value at c
          have hpval : (absDown O key fuel (lswap l p c) c).1.getD p default =
              l.getD c default := by
            have hnd : ¬ Desc c p := by
              intro hcontra
              have := Desc_le hcontra
              omega
            rw [hcout p hnd, getD_lswap_fst hp hclen]
          refine ⟨?_, ?_, ?_⟩
          · -- all subtree edges hold afterwards
            intro q hq0 hqm hdq hqp
            by_cases hqc : q = c
            · unfold EdgeAt keyAt
              rw [hqc, hcpar]
              rcases hb with hcv | hcv
              · rw [hcv, getD_lswap_snd hclen, hpval]
                exact le_of_lt hlt
              · obtain ⟨d, hd0, hdpar, hdlen, hdval⟩ := hcv
                rw [length_lswap] at hdlen
                have hdgt : c < d := by
                  have := (child_parent_iff hd0).mp hdpar
                  omega
                rw [hdval, getD_lswap_other (by omega) (by omega), hpval]
                have := hS1 d hd0 hdlen (Desc_child hdpc hdpar) (by omega) (by omega)
                unfold EdgeAt keyAt at this
                rw [hdpar] at this
                exact this
            · -- q ≠ c: through which child of p does q descend?
              have hex : ∃ cc, (cc - 1) / 2 = p ∧ cc ≠ p ∧ Desc cc q := by
                obtain ⟨n, hn⟩ := hdq
                exact Desc_through_child n q p hn hqp
              obtain ⟨ch, hch, hchne, hchq⟩ := hex
              have hch0 : 0 < ch := by omega
              have hchlt : ch = 2 * p + 1 ∨ ch = 2 * p + 2 :=
                (child_parent_iff hch0).mp hch
              have hchlen : ch < l.length := by
                have := Desc_le hchq
                omega
              by_cases hchc : ch = c
              · subst hchc
                exact ha q hq0 (by omega) hchq hqc
              · -- q is in the sibling subtree: untouched
                have hsib : ¬ Desc c q := by
                  intro hcq
                  rcases Desc_linear hcq hchq with hl | hl
                  · exact Desc_sibling_not hcpar hch (by omega) hch0
                      (fun h => hchc h.symm) hl
                  · exact Desc_sibling_not hch hcpar hch0 (by omega) hchc hl
                have hqs : ch ≤ q := Desc_le hchq
                have hqgt : p < q := by omega
                by_cases hqsib : q = ch
                · -- q is the sibling child of p itself
                  unfold EdgeAt keyAt
                  rw [hcout q hsib, hqsib, hch,
                    getD_lswap_other (by omega) hchc, hpval]
                  unfold keyAt at hmax
                  exact hmax ch hch0 hch hchlen
                · -- q strictly below the sibling: everything untouched
                  have hpq : ¬ Desc c ((q - 1) / 2) := by
                    intro hcontra
                    exact hsib (Desc_child hcontra rfl)
                  have hqpargt : ch ≤ (q - 1) / 2 := Desc_le (Desc_parent hchq hqsib)
                  have hqcne : q ≠ c := by
                    intro h
                    exact hsib (by rw [h]; exact Desc_refl c)
                  have hparcne : (q - 1) / 2 ≠ c := by
                    intro h
                    exact hpq (by rw [h]; exact Desc_refl c)
                  unfold EdgeAt keyAt
                  rw [hcout q hsib, hcout ((q - 1) / 2) hpq,
                    getD_lswap_other (by omega) hqcne,
                    getD_lswap_other (by omega) hparcne]
                  have := hS1 q hq0 hqm hdq (by omega) (by omega)
                  unfold EdgeAt keyAt at this
                  exact this
          · right
            exact ⟨c, by omega, hcpar, hclen, hpval⟩
          · intro q hnq
            have hqc : ¬ Desc c q := fun h => hnq (Desc_trans hdpc h)
            have hqp : q ≠ p := fun h => hnq (h ▸ Desc_refl p)
            have hqcne : q ≠ c := fun h => hnq (h ▸ hdpc)
            rw [hcout q hqc, getD_lswap_other hqp hqcne]
        · -- the recursive subtree hypothesis
          intro q hq0 hqm hdq hqc hqparc
          rw [length_lswap] at hqm
          have hqgt : c < q := by
            have := Desc_le hdq
            omega
          have hqpargt : c < (q - 1) / 2 := by
            have := Desc_le (Desc_parent hdq hqc)
            omega
          unfold EdgeAt keyAt
          rw [getD_lswap_other (by omega) (by omega),
            getD_lswap_other (by omega) (by omega)]
          have := hS1 q hq0 hqm (Desc_trans hdpc hdq) (by omega) (by omega)
          unfold EdgeAt keyAt at this
          exact this
      · rw [if_neg hcond]
        have hge : keyAt key l c ≤ keyAt key l p := by
          rcases le_or_lt (keyAt key l c) (keyAt key l p) with hh | hh
          · exact hh
          · exact absurd ((hst.ssd_iff).mpr hh) hcond
        refine ⟨?_, Or.inl rfl, fun q _ => rfl⟩
        intro q hq0 hqm hdq hqp
        by_cases hq1 : (q - 1) / 2 = p
        · unfold EdgeAt
          rw [hq1]
          exact le_trans (hmax q hq0 hq1 hqm) hge
        · exact hS1 q hq0 hqm hdq hqp hq1
    | none =>
      have hnw := upperWhole_none O key hcw
      dsimp only
      cases hcl : upperLone O key l p with
      | some c =>
        obtain ⟨hc, hclen⟩ := upperLone_some O key hcl
        have hceq : c = 2 * p + 1 := by omega
        have hcpar : (c - 1) / 2 = p := by omega
        have hdpc : Desc p c := Desc_child (Desc_refl p) hcpar
        dsimp only
        by_cases hcond : O.shouldSiftDown (keyAt key l p) (keyAt key l c) = true
        · rw [if_pos hcond]
          have hlt : keyAt key l p < keyAt key l c := (hst.ssd_iff).mp hcond
          refine ⟨?_, ?_, ?_⟩
          · intro q hq0 hqm hdq hqp
            have hex : ∃ cc, (cc - 1) / 2 = p ∧ cc ≠ p ∧ Desc cc q := by
              obtain ⟨n, hn⟩ := hdq
              exact Desc_through_child n q p hn hqp
            obtain ⟨ch, hch, hchne, hchq⟩ := hex
            have hch0 : 0 < ch := by omega
            have hchlt : ch = 2 * p + 1 ∨ ch = 2 * p + 2 :=
              (child_parent_iff hch0).mp hch
            have hchle : ch ≤ q := Desc_le hchq
            have hcheq : ch = c := by omega
            subst hcheq
            by_cases hqc : q = ch
            · subst hqc
              unfold EdgeAt keyAt
              rw [hcpar, getD_lswap_snd hclen, getD_lswap_fst hp hclen]
              exact le_of_lt hlt
            · -- below the lone child: impossible, it has no children in range
              have hex2 : ∃ dd, (dd - 1) / 2 = ch ∧ dd ≠ ch ∧ Desc dd q := by
                obtain ⟨n, hn⟩ := hchq
                exact Desc_through_child n q ch hn hqc
              obtain ⟨d, hd, hdne, hdq2⟩ := hex2
              have hd0 : 0 < d := by omega
              have := (child_parent_iff hd0).mp hd
              have := Desc_le hdq2
              omega
          · right
            refine ⟨c, by omega, hcpar, hclen, ?_⟩
            rw [getD_lswap_fst hp hclen]
          · intro q hnq
            have hqp : q ≠ p := fun h => hnq (h ▸ Desc_refl p)
            have hqcne : q ≠ c := fun h => hnq (h ▸ hdpc)
            rw [getD_lswap_other hqp hqcne]
        · rw [if_neg hcond]
          have hge : keyAt key l c ≤ keyAt key l p := by
            rcases le_or_lt (keyAt key l c) (keyAt key l p) with hh | hh
            · exact hh
            · exact absurd ((hst.ssd_iff).mpr hh) hcond
          refine ⟨?_, Or.inl rfl, fun q _ => rfl⟩
          intro q hq0 hqm hdq hqp
          by_cases hq1 : (q - 1) / 2 = p
          · have : q = 2 * p + 1 ∨ q = 2 * p + 2 := (child_parent_iff hq0).mp hq1
            have hqc : q = c := by omega
            subst hqc
            unfold EdgeAt
            rw [hq1]
            exact hge
          · exact hS1 q hq0 hqm hdq hqp hq1
      | none =>
        have hnl := upperLone_none O key hcl
        dsimp only
        refine ⟨?_, Or.inl rfl, fun q _ => rfl⟩
        intro q hq0 hqm hdq hqp
        by_cases hq1 : (q - 1) / 2 = p
        · have : q = 2 * p + 1 ∨ q = 2 * p + 2 := (child_parent_iff hq0).mp hq1
          omega
        · exact hS1 q hq0 hqm hdq hqp hq1

/-- Almost-heap sift-down: if only the edges entering `p`'s children may
fail (the edge at `p` itself holds) and the children of `p` fit below `p`'s
parent, sifting down from `p` restores the whole heap property. -/
theorem absDown_restore (hst : IsStdOrd O) (fuel : Nat) (l : List β) (p : Nat)
    (hfuel : l.length - p ≤ fuel) (hp : p < l.length)
    (hA1 : ∀ q, 0 < q → q < l.length → (q - 1) / 2 ≠ p → EdgeAt key l q)
    (hB : 0 < p → ∀ c, c < l.length → (c - 1) / 2 = p →
      keyAt key l c ≤ keyAt key l ((p - 1) / 2)) :
    ∀ q, 0 < q → q < l.length → EdgeAt key (absDown O key fuel l p).1 q := by
  obtain ⟨ha, hb, hcout⟩ := absDown_master key hst fuel l p hfuel hp
    (fun q hq0 hqm _ _ hqpar => hA1 q hq0 hqm hqpar)
  intro q hq0 hqm
  by_cases hqp : q = p
  · subst hqp
    have hparne : (q - 1) / 2 < q := by omega
    have hnd : ¬ Desc q ((q - 1) / 2) := by
      intro hcontra
      have := Desc_le hcontra
      omega
    unfold EdgeAt keyAt
    rw [hcout ((q - 1) / 2) hnd]
    rcases hb with hb | hb
    · rw [hb]
      exact hA1 q hq0 hqm (by omega)
    · obtain ⟨c, hc0, hcpar, hclen, hcval⟩ := hb
      rw [hcval]
      exact hB hq0 c hclen hcpar
  · by_cases hdesc : Desc p q
    · exact ha q hq0 hqm hdesc hqp
    · have hndpar : ¬ Desc p ((q - 1) / 2) := by
        intro hcontra
        exact hdesc (Desc_child hcontra rfl)
      have hq1 : (q - 1) / 2 ≠ p := by
        intro hcontra
        exact hdesc (Desc_child (Desc_refl p) hcontra)
      unfold EdgeAt keyAt
      rw [hcout q hdesc, hcout ((q - 1) / 2) hndpar]
      exact hA1 q hq0 hqm hq1

end DownMaster

section OpLemmas

variable {β κ : Type} [Inhabited β] [LinearOrder κ] {O : HeapOrd κ} (key : β → κ)

theorem absUp_unmoved_edge (hst : IsStdOrd O) {fuel : Nat} {l : List β} {p : Nat}
    (hp0 : 0 < p) (hf : 0 < fuel) (h : (absUp O key fuel l p).2 = p) :
    EdgeAt key l p := by
  cases fuel with
  | zero => omega
  | succ fuel =>
    revert h
    simp only [absUp]
    rw [parentPos_of_pos hp0]
    dsimp only
    by_cases hcond : O.shouldSiftUp (keyAt key l p) (keyAt key l ((p - 1) / 2)) = true
    · rw [if_pos hcond]
      intro h
      have := absUp_pos_le O key fuel (lswap l p ((p - 1) / 2)) ((p - 1) / 2)
      omega
    · intro _
      exact (hst.ssu_false).mp (by simpa using hcond)

/-- Heap correctness of `push`: append then sift up from the old length. -/
theorem push_list_heap (hst : IsStdOrd O) (l : List β) (b : β)
    (h : IsHeapL key l) :
    IsHeapL key (siftUpS (listStorage β κ key) O (l ++ [b]) l.length).1 ∧
    ((siftUpS (listStorage β κ key) O (l ++ [b]) l.length).1).Perm (l ++ [b]) := by
  have hlen : l.length < (l ++ [b]).length := by simp
  rw [siftUpS_eq O key _ _ hlen]
  constructor
  · unfold IsHeapL
    rw [absUp_length]
    intro q hq0 hqm
    simp only [List.length_append, List.length_cons, List.length_nil] at hqm
    apply absUp_heap key hst l.length (l ++ [b]) l.length (l.length + 1)
      (Nat.le_refl _) (by omega) (by simp) ?_ ?_ q hq0 (by omega)
    · intro r hr0 hrm hrne
      have hrl : r < l.length := by omega
      have hparl : (r - 1) / 2 < l.length := by omega
      unfold EdgeAt keyAt
      rw [getD_append_left _ hrl, getD_append_left _ hparl]
      exact h r hr0 hrl
    · intro hl0 c hcm hcp
      have : c = 2 * l.length + 1 ∨ c = 2 * l.length + 2 :=
        (child_parent_iff (by omega)).mp hcp
      omega
  · exact absUp_perm O key l.length (l ++ [b]) l.length hlen

/-- Heap correctness of `fixup_sift_to_bottom` from a state whose only
suspect edges touch `p`, with `p`'s children fitting below `p`'s parent. -/
theorem fixupToBottom_heap (hst : IsStdOrd O) (l : List β) (p : Nat)
    (hp : p < l.length)
    (hT1 : ∀ q, 0 < q → q < l.length → q ≠ p → (q - 1) / 2 ≠ p → EdgeAt key l q)
    (hT2 : 0 < p → ∀ c, c < l.length → (c - 1) / 2 = p →
      keyAt key l c ≤ keyAt key l ((p - 1) / 2)) :
    IsHeapL key (fixupSiftToBottomS (listStorage β κ key) O l p).1 ∧
    ((fixupSiftToBottomS (listStorage β κ key) O l p).1).Perm l := by
  unfold fixupSiftToBottomS
  rw [siftToBottomS_eq O key l p hp]
  obtain ⟨ha, hnc⟩ := absBot_master key hst l.length l p (by omega) hp hT1 hT2
  set r := absBot O key l.length l p with hr
  have hrlen : r.1.length = l.length := absBot_length O key l.length l p
  have hrpos : p ≤ r.2 ∧ r.2 < l.length := absBot_pos O key l.length l p hp
  have hrpos2 : r.2 < r.1.length := by omega
  rw [siftUpS_eq O key r.1 r.2 hrpos2]
  constructor
  · unfold IsHeapL
    rw [absUp_length, hrlen]
    intro q hq0 hqm
    apply absUp_heap key hst r.2 r.1 r.2 l.length (Nat.le_refl _) (by omega)
      (by omega) ?_ ?_ q hq0 hqm
    · intro s hs0 hsm hsne
      exact ha s hs0 hsm hsne
    · intro h0 c hcm hcp
      have : c = 2 * r.2 + 1 ∨ c = 2 * r.2 + 2 :=
        (child_parent_iff (by omega)).mp hcp
      omega
  · exact (absUp_perm O key r.2 r.1 r.2 hrpos2).trans
      (absBot_perm O key l.length l p hp)

/-- Heap correctness of the `peek_mut` restore path: sift down from the root
of a state whose only suspect edges enter the root's children. -/
theorem siftDown_root_heap (hst : IsStdOrd O) (l : List β) (hne : 0 < l.length)
    (hA1 : ∀ q, 0 < q → q < l.length → (q - 1) / 2 ≠ 0 → EdgeAt key l q) :
    IsHeapL key (siftDownS (listStorage β κ key) O l 0).1 ∧
    ((siftDownS (listStorage β κ key) O l 0).1).Perm l := by
  rw [siftDownS_eq O key l 0 hne]
  constructor
  · unfold IsHeapL
    rw [absDown_length]
    intro q hq0 hqm
    exact absDown_restore key hst l.length l 0 (by omega) hne hA1
      (by omega) q hq0 hqm
  · exact absDown_perm O key l.length l 0 hne

/-- Heap correctness of `fixup_sift` from a state whose only suspect edges
touch `p`, with `p`'s children fitting below `p`'s parent. -/
theorem fixup_heap (hst : IsStdOrd O) (l : List β) (p : Nat) (hp : p < l.length)
    (hA4 : ∀ q, 0 < q → q < l.length → q ≠ p → (q - 1) / 2 ≠ p → EdgeAt key l q)
    (hB : 0 < p → ∀ c, c < l.length → (c - 1) / 2 = p →
      keyAt key l c ≤ keyAt key l ((p - 1) / 2)) :
    IsHeapL key (fixupSiftS (listStorage β κ key) O l p).1 ∧
    ((fixupSiftS (listStorage β κ key) O l p).1).Perm l := by
  unfold fixupSiftS
  rw [siftUpS_eq O key l p hp]
  by_cases hmoved : (absUp O key p l p).2 ≠ p
  · rw [if_pos hmoved]
    constructor
    · unfold IsHeapL
      rw [absUp_length]
      exact absUp_fixup key hst p l p (Nat.le_refl _) hp hA4 hB hmoved
    · exact absUp_perm O key p l p hp
  · rw [if_neg hmoved]
    push_neg at hmoved
    have hsame : (absUp O key p l p).1 = l := absUp_stop O key p l p hmoved
    rw [hsame]
    have hA1 : ∀ q, 0 < q → q < l.length → (q - 1) / 2 ≠ p → EdgeAt key l q := by
      intro q hq0 hqm hqpar
      by_cases hqp : q = p
      · subst hqp
        have hq0' : 0 < q := hq0
        exact absUp_unmoved_edge key hst hq0' (by omega) hmoved
      · exact hA4 q hq0 hqm hqp hqpar
    rw [siftDownS_eq O key l p hp]
    constructor
    · unfold IsHeapL
      rw [absDown_length]
      intro q hq0 hqm
      exact absDown_restore key hst l.length l p (by omega) hp hA1 hB q hq0 hqm
    · exact absDown_perm O key l.length l p hp

/-- Bottom-up rebuild produces a heap from any list. -/
theorem rebuild_fold_heap (hst : IsStdOrd O) :
    ∀ (n : Nat) (d : List β), 2 * n ≤ d.length →
    (∀ q, 0 < q → q < d.length → n ≤ (q - 1) / 2 → EdgeAt key d q) →
    (∀ q, 0 < q →
      q < ((List.range n).reverse.foldl
        (fun acc i => (siftDownS (listStorage β κ key) O acc i).1) d).length →
      EdgeAt key ((List.range n).reverse.foldl
        (fun acc i => (siftDownS (listStorage β κ key) O acc i).1) d) q) := by
  intro n
  induction n with
  | zero =>
    intro d hn hd q hq0 hqm
    simp only [List.range_zero, List.reverse_nil, List.foldl_nil] at hqm ⊢
    exact hd q hq0 hqm (by omega)
  | succ n ih =>
    intro d hn hd
    have hrev : (List.range (n + 1)).reverse = n :: (List.range n).reverse := by
      rw [List.range_succ, List.reverse_append]
      rfl
    rw [hrev]
    simp only [List.foldl_cons]
    have hnlen : n < d.length := by omega
    rw [siftDownS_eq O key d n hnlen]
    have hS1 : ∀ q, 0 < q → q < d.length → Desc n q → q ≠ n → (q - 1) / 2 ≠ n →
        EdgeAt key d q := by
      intro q hq0 hqm hdq hqn hqpar
      have := Desc_le (Desc_parent hdq hqn)
      exact hd q hq0 hqm (by omega)
    obtain ⟨ha, hb, hcout⟩ := absDown_master key hst d.length d n (by omega)
      hnlen hS1
    set d₁ := (absDown O key d.length d n).1 with hd₁
    have hd₁len : d₁.length = d.length := absDown_length O key d.length d n
    apply ih d₁ (by omega)
    intro q hq0 hqm hnq
    rw [hd₁len] at hqm
    by_cases hdesc : Desc n q
    · by_cases hqn : q = n
      · subst hqn
        omega
      · exact ha q hq0 hqm hdesc hqn
    · have hnpar : ¬ Desc n ((q - 1) / 2) := by
        intro hcontra
        exact hdesc (Desc_child hcontra rfl)
      have hq1 : (q - 1) / 2 ≠ n := by
        intro hcontra
        exact hdesc (Desc_child (Desc_refl n) hcontra)
      unfold EdgeAt keyAt
      rw [hcout q hdesc, hcout ((q - 1) / 2) hnpar]
      exact hd q hq0 hqm (by omega)

theorem rebuild_heap (hst : IsStdOrd O) (d : List β) :
    IsHeapL key (rebuildS (listStorage β κ key) O d) ∧
    (rebuildS (listStorage β κ key) O d).Perm d := by
  constructor
  · unfold rebuildS IsHeapL
    intro q hq0 hqm
    apply rebuild_fold_heap key hst (rebuildRangeLen ((listStorage β κ key).length d)) d
      (by unfold rebuildRangeLen; simp only [listStorage_length]; omega) ?_ q hq0 hqm
    intro q hq0 hqm hge
    unfold rebuildRangeLen at hge
    simp only [listStorage_length] at hge
    omega
  · unfold rebuildS
    have : ∀ (xs : List Nat) (d : List β), (∀ i ∈ xs, i < d.length) →
        (xs.foldl (fun acc i => (siftDownS (listStorage β κ key) O acc i).1) d).Perm d := by
      intro xs
      induction xs with
      | nil => intro d _; exact List.Perm.refl d
      | cons x rest ihx =>
        intro d hmem
        simp only [List.foldl_cons]
        have hx : x < d.length := hmem x (List.mem_cons_self x rest)
        have hperm : ((siftDownS (listStorage β κ key) O d x).1).Perm d := by
          rw [siftDownS_eq O key d x hx]
          exact absDown_perm O key d.length d x hx
        have hlen : ((siftDownS (listStorage β κ key) O d x).1).length = d.length := by
          rw [siftDownS_eq O key d x hx]
          exact absDown_length O key d.length d x
        exact (ihx _ (fun i hi => by rw [hlen]; exact hmem i (List.mem_cons_of_mem x hi))).trans hperm
    apply this
    intro i hi
    simp only [List.mem_reverse, List.mem_range] at hi
    unfold rebuildRangeLen at hi
    simp only [listStorage_length] at hi
    omega

theorem rebuildTail_fold_heap (hst : IsStdOrd O) :
    ∀ (k : Nat) (d : List β) (i : Nat), i + k = d.length →
    HeapUpTo key d i →
    IsHeapL key ((List.range' i k).foldl
      (fun acc j => (siftUpS (listStorage β κ key) O acc j).1) d) ∧
    ((List.range' i k).foldl
      (fun acc j => (siftUpS (listStorage β κ key) O acc j).1) d).Perm d := by
  intro k
  induction k with
  | zero =>
    intro d i hik hup
    simp only [List.range', List.foldl_nil]
    exact ⟨fun q hq0 hqm => hup q hq0 (by omega), List.Perm.refl d⟩
  | succ k ih =>
    intro d i hik hup
    have hrange : List.range' i (k + 1) = i :: List.range' (i + 1) k := rfl
    rw [hrange]
    simp only [List.foldl_cons]
    have hilen : i < d.length := by omega
    rw [siftUpS_eq O key d i hilen]
    set d₁ := (absUp O key i d i).1 with hd₁
    have hd₁len : d₁.length = d.length := absUp_length O key i d i
    have hnext : HeapUpTo key d₁ (i + 1) := by
      intro q hq0 hqm
      apply absUp_heap key hst i d i (i + 1) (Nat.le_refl _) (by omega) (by omega)
        ?_ ?_ q hq0 hqm
      · intro r hr0 hrm hrne
        exact hup r hr0 (by omega)
      · intro h0 c hcm hcp
        have : c = 2 * i + 1 ∨ c = 2 * i + 2 := (child_parent_iff (by omega)).mp hcp
        omega
    obtain ⟨hh, hp⟩ := ih d₁ (i + 1) (by omega) hnext
    exact ⟨hh, hp.trans (absUp_perm O key i d i hilen)⟩

/-- `rebuild_tail` restores the heap property when the prefix below `start`
already satisfies it. -/
theorem rebuildTail_heap (hst : IsStdOrd O) (d : List β) (start : Nat)
    (hstart : start ≤ d.length) (hup : HeapUpTo key d start) :
    IsHeapL key (rebuildTailS (listStorage β κ key) O d start) ∧
    (rebuildTailS (listStorage β κ key) O d start).Perm d := by
  unfold rebuildTailS
  by_cases h1 : start = (listStorage β κ key).length d
  · rw [if_pos h1]
    refine ⟨?_, List.Perm.refl d⟩
    intro q hq0 hqm
    apply hup q hq0
    simp only [listStorage_length] at h1
    omega
  · rw [if_neg h1]
    by_cases h2 : betterToRebuild ((listStorage β κ key).length d) start = true
    · rw [if_pos h2]
      exact rebuild_heap key hst d
    · rw [if_neg h2]
      simp only [listStorage_length]
      exact rebuildTail_fold_heap key hst (d.length - start) d start (by omega) hup

/-- In a heap the root carries a maximal key. -/
theorem isHeap_root_top (l : List β) (h : IsHeapL key l) :
    ∀ q, q < l.length → keyAt key l q ≤ keyAt key l 0 := by
  intro q
  induction q using Nat.strong_induction_on with
  | _ q ih =>
    intro hq
    cases Nat.eq_zero_or_pos q with
    | inl h0 => subst h0; exact le_refl _
    | inr h0 =>
      have hedge := h q h0 hq
      unfold EdgeAt at hedge
      exact le_trans hedge (ih ((q - 1) / 2) (by omega) (by omega))

end OpLemmas

section VecFacade

variable {α : Type} [Inhabited α] [LinearOrder α] {O : HeapOrd α}

theorem vPush_heap (hst : IsStdOrd O) (l : List α) (x : α)
    (h : IsHeapL id l) :
    IsHeapL id (vPush O l x) ∧ (vPush O l x).Perm (l ++ [x]) := by
  unfold vPush vecStorage
  exact push_list_heap id hst l x h

theorem vPop_none_iff (O : HeapOrd α) (l : List α) :
    vPop O l = none ↔ l = [] := by
  unfold vPop
  cases l with
  | nil => simp
  | cons a t =>
    rw [List.getLast?_eq_getLast (a :: t) (by simp)]
    simp

theorem vPop_spec (hst : IsStdOrd O) (l : List α) (hne : l ≠ [])
    (h : IsHeapL id l) :
    ∃ l', vPop O l = some (l.getD 0 default, l') ∧ IsHeapL id l' ∧
      (l.getD 0 default :: l').Perm l := by
  unfold vPop
  rw [List.getLast?_eq_getLast l hne]
  dsimp only
  by_cases hlen : l.dropLast.length = 0
  · have h1 : l.length = 1 := by
      have := List.length_dropLast l
      have hpos : 0 < l.length := List.length_pos.mpr hne
      omega
    obtain ⟨a, ha⟩ : ∃ a, l = [a] := by
      cases l with
      | nil => exact absurd rfl hne
      | cons a t =>
        cases t with
        | nil => exact ⟨a, rfl⟩
        | cons b t' => simp at h1
    subst ha
    refine ⟨[], ?_, ?_, ?_⟩
    · unfold popSwapS
      simp [vecStorage, listStorage, List.getLast]
    · intro q hq0 hqm
      simp at hqm
    · simp
  · have hpos : 0 < l.dropLast.length := by omega
    unfold popSwapS
    rw [if_pos (by simpa [vecStorage, listStorage] using hlen)]
    dsimp only
    set last := l.getLast hne with hlast
    set d₁ := l.dropLast.set 0 last with hd₁
    have hold : (vecStorage α).getItem l.dropLast 0 = l.getD 0 default := by
      show l.dropLast.getD 0 default = l.getD 0 default
      rw [List.getD_eq_getElem?_getD, List.getD_eq_getElem?_getD,
        List.getElem?_eq_getElem hpos,
        List.getElem?_eq_getElem
          (by have := List.length_dropLast l; omega : 0 < l.length),
        List.getElem_dropLast]
    have hset : (vecStorage α).setItem l.dropLast 0 last = d₁ := rfl
    rw [hold, hset]
    have hd₁len : d₁.length = l.dropLast.length := by
      rw [hd₁, List.length_set]
    have hT1 : ∀ q, 0 < q → q < d₁.length → q ≠ 0 → (q - 1) / 2 ≠ 0 →
        EdgeAt id d₁ q := by
      intro q hq0 hqm hqne hqpar
      rw [hd₁len] at hqm
      have hdrop : ∀ r, r ≠ 0 → r < l.dropLast.length →
          d₁.getD r default = l.getD r default := by
        intro r hr0 hr
        rw [hd₁, getD_set_ne last default (fun hh => hr0 hh.symm),
          List.getD_eq_getElem?_getD, List.getD_eq_getElem?_getD,
          List.getElem?_eq_getElem hr,
          List.getElem?_eq_getElem (by have := List.length_dropLast l; omega),
          List.getElem_dropLast]
      unfold EdgeAt keyAt
      rw [hdrop q (by omega) (by omega), hdrop ((q - 1) / 2) hqpar (by omega)]
      have hed := h q hq0 (by have := List.length_dropLast l; omega)
      unfold EdgeAt keyAt at hed
      exact hed
    obtain ⟨hheap, hperm⟩ := fixupToBottom_heap id hst d₁ 0 (by omega)
      hT1 (by omega)
    refine ⟨(fixupSiftToBottomS (listStorage α α id) O d₁ 0).1, rfl, hheap, ?_⟩
    apply (List.Perm.cons _ hperm).trans
    have hstep : (l.getD 0 default :: d₁).Perm (last :: l.dropLast) := by
      have hcs := @cons_set_perm α _ l.dropLast 0 last default hpos
      have hgd : l.dropLast.getD 0 default = l.getD 0 default := hold
      rw [hgd] at hcs
      exact hcs
    apply hstep.trans
    have hdl : l.dropLast ++ [last] = l := List.dropLast_append_getLast hne
    have hfin : (last :: l.dropLast).Perm (l.dropLast ++ [last]) :=
      (List.perm_append_singleton last l.dropLast).symm
    rw [hdl] at hfin
    exact hfin

theorem vPopAll_spec (hst : IsStdOrd O) :
    ∀ (fuel : Nat) (l : List α), l.length ≤ fuel → IsHeapL id l →
    (vPopAll O fuel l).Perm l ∧
    List.Sorted (fun a b : α => b ≤ a) (vPopAll O fuel l) := by
  intro fuel
  induction fuel with
  | zero =>
    intro l hlen _
    have : l = [] := List.length_eq_zero.mp (by omega)
    subst this
    exact ⟨List.Perm.refl _, List.sorted_nil⟩
  | succ fuel ih =>
    intro l hlen hheap
    by_cases hne : l = []
    · subst hne
      simp only [vPopAll]
      rw [(vPop_none_iff O []).mpr rfl]
      exact ⟨List.Perm.refl _, List.sorted_nil⟩
    · obtain ⟨l', hpop, hheap', hperm⟩ := vPop_spec hst l hne hheap
      simp only [vPopAll]
      rw [hpop]
      dsimp only
      have hlen' : l'.length ≤ fuel := by
        have := hperm.length_eq
        simp at this
        omega
      obtain ⟨ihp, ihs⟩ := ih l' hlen' hheap'
      constructor
      · exact (List.Perm.cons _ ihp).trans hperm
      · rw [List.sorted_cons]
        refine ⟨?_, ihs⟩
        intro b hb
        have hbl : b ∈ l := hperm.mem_iff.mp (List.mem_cons_of_mem _ (ihp.mem_iff.mp hb))
        obtain ⟨q, hq, hbq⟩ := List.getElem_of_mem hbl
        have := isHeap_root_top id l hheap q hq
        unfold keyAt at this
        simp only [id_eq] at this
        rw [List.getD_eq_getElem?_getD, List.getElem?_eq_getElem hq] at this
        simp only [Option.getD_some] at this
        rw [hbq] at this
        exact this

theorem vPushAll_heap (hst : IsStdOrd O) :
    ∀ (xs l : List α), IsHeapL id l →
    IsHeapL id (vPushAll O l xs) ∧ (vPushAll O l xs).Perm (l ++ xs) := by
  intro xs
  induction xs with
  | nil =>
    intro l h
    exact ⟨h, by simp [vPushAll]⟩
  | cons x rest ih =>
    intro l h
    obtain ⟨h1, hp1⟩ := vPush_heap hst l x h
    obtain ⟨h2, hp2⟩ := ih (vPush O l x) h1
    refine ⟨h2, ?_⟩
    unfold vPushAll at hp2 ⊢
    simp only [List.foldl_cons]
    apply hp2.trans
    have h3 : (vPush O l x ++ rest).Perm (l ++ (x :: rest)) := by
      have h4 := hp1.append_right rest
      simpa using h4
    exact h3

end VecFacade

section POpInv

variable {α : Type} [Inhabited α] [LinearOrder α] {O : HeapOrd α}

theorem appended_heapUpTo (l other : List α) (hl : IsHeapL id l) :
    HeapUpTo id (l ++ other) l.length := by
  intro q hq0 hqm
  have hed := hl q hq0 hqm
  unfold EdgeAt keyAt at hed ⊢
  rw [getD_append_left _ hqm, getD_append_left _ (by omega)]
  exact hed

theorem rebuildTailS_listPair (hst : IsStdOrd O) (a b : List α)
    (ha : IsHeapL id a) :
    IsHeapL id (rebuildTailS (vecStorage α) O (a ++ b) a.length) ∧
    (rebuildTailS (vecStorage α) O (a ++ b) a.length).Perm (a ++ b) := by
  unfold vecStorage
  exact rebuildTail_heap id hst (a ++ b) a.length (by simp)
    (appended_heapUpTo a b ha)

theorem vAppendList_heap (hst : IsStdOrd O) (l other : List α)
    (hl : IsHeapL id l) (ho : IsHeapL id other) :
    IsHeapL id (vAppendList O l other) ∧
    (vAppendList O l other).Perm (l ++ other) := by
  unfold vAppendList
  by_cases hc : l.length < other.length
  · rw [if_pos hc]
    dsimp only
    obtain ⟨hh, hp⟩ := rebuildTailS_listPair hst other l ho
    exact ⟨hh, hp.trans (List.perm_append_comm)⟩
  · rw [if_neg hc]
    dsimp only
    exact rebuildTailS_listPair hst l other hl

theorem vPeekMutSet_heap (hst : IsStdOrd O) (l : List α) (x : α)
    (h : IsHeapL id l) :
    IsHeapL id (vPeekMutSet O l x) ∧ (vPeekMutSet O l x).length = l.length := by
  unfold vPeekMutSet
  by_cases he : l.isEmpty
  · rw [if_pos he]
    exact ⟨h, rfl⟩
  · rw [if_neg he]
    have hlpos : 0 < l.length := by
      cases l with
      | nil => simp at he
      | cons a t => simp
    dsimp only
    by_cases hs : (childPos l.length 0 0).isSome
    · rw [if_pos hs]
      have hset : ∀ q, 0 < q → q < (l.set 0 x).length → (q - 1) / 2 ≠ 0 →
          EdgeAt id (l.set 0 x) q := by
        intro q hq0 hqm hqpar
        rw [List.length_set] at hqm
        unfold EdgeAt keyAt
        rw [getD_set_ne x default (fun hh => hq0.ne hh),
          getD_set_ne x default (fun hh => hqpar hh.symm)]
        exact h q hq0 hqm
      obtain ⟨hh, hp⟩ := siftDown_root_heap id hst (l.set 0 x)
        (by rw [List.length_set]; exact hlpos) hset
      refine ⟨hh, ?_⟩
      have hle := hp.length_eq
      rw [List.length_set] at hle
      exact hle
    · rw [if_neg hs]
      have hlen1 : l.length ≤ 1 := by
        by_contra hgt
        push_neg at hgt
        apply hs
        unfold childPos
        dsimp only
        rw [if_pos (show 2 * 0 + 1 + 0 < l.length by omega)]
        rfl
      refine ⟨?_, List.length_set l 0 x⟩
      intro q hq0 hqm
      rw [List.length_set] at hqm
      omega

theorem execPOp_heap_aux (hst : IsStdOrd O) :
    ∀ (n : Nat) (op : POp α), sizeOf op ≤ n →
    ∀ l, IsHeapL id l → IsHeapL id (execPOp O l op) := by
  intro n
  induction n using Nat.strong_induction_on with
  | _ n ih =>
    intro op hsz l hl
    cases op with
    | push x => exact (vPush_heap hst l x hl).1
    | pop =>
      simp only [execPOp]
      cases hp : vPop O l with
      | none => exact hl
      | some r =>
        have hne : l ≠ [] := by
          intro hnil
          rw [hnil, (vPop_none_iff O []).mpr rfl] at hp
          cases hp
        obtain ⟨l', hpop, hheap', _⟩ := vPop_spec hst l hne hl
        rw [hpop] at hp
        cases hp
        exact hheap'
    | peekMutSet x => exact (vPeekMutSet_heap hst l x hl).1
    | append ops =>
      simp only [execPOp]
      have hgen : ∀ (ops' : List (POp α)), sizeOf ops' < n →
          ∀ l', IsHeapL id l' → IsHeapL id (execPOps O l' ops') := by
        intro ops'
        induction ops' with
        | nil => intro _ l' h'; exact h'
        | cons o rest ihr =>
          intro hsz' l' h'
          have hrec : sizeOf o < n ∧ sizeOf rest < n := by
            simp only [List.cons.sizeOf_spec] at hsz'
            have h1 : 1 ≤ sizeOf o := by
              cases o <;> simp <;> omega
            have h2 : 1 ≤ sizeOf rest := by
              cases rest <;> simp <;> omega
            omega
          show IsHeapL id (execPOps O (execPOp O l' o) rest)
          exact ihr hrec.2 _ (ih (sizeOf o) hrec.1 o (Nat.le_refl _) l' h')
      have hsub : IsHeapL id (execPOps O [] ops) := by
        apply hgen ops ?_ [] ?_
        · have : sizeOf (POp.append ops) = 1 + sizeOf ops := by
            simp
          omega
        · intro q hq0 hqm
          simp at hqm
      exact (vAppendList_heap hst l _ hl hsub).1

theorem execPOps_heap (hst : IsStdOrd O) (ops : List (POp α)) :
    ∀ l, IsHeapL id l → IsHeapL id (execPOps O l ops) := by
  induction ops with
  | nil => intro l h; exact h
  | cons o rest ih =>
    intro l h
    show IsHeapL id (execPOps O (execPOp O l o) rest)
    exact ih _ (execPOp_heap_aux hst (sizeOf o) o (Nat.le_refl _) l h)

end POpInv

section IVecSim

variable {α : Type} [Inhabited α] {O : HeapOrd α}

theorem proj_holeNew (s : IVecS α) (p : Nat) :
    holeDataProj (holeNew (ivecStorage α) s p) =
    holeNew (listStorage (α × Nat) α Prod.fst) s.data p := rfl

theorem proj_moveTo (h : HoleS (IVecS α) (α × Nat)) (i : Nat) :
    holeDataProj (holeMoveTo (ivecStorage α) h i) =
    holeMoveTo (listStorage (α × Nat) α Prod.fst) (holeDataProj h) i := rfl

theorem proj_intoPos (h : HoleS (IVecS α) (α × Nat)) :
    (((holeIntoPos (ivecStorage α) h).1).data, (holeIntoPos (ivecStorage α) h).2) =
    holeIntoPos (listStorage (α × Nat) α Prod.fst) (holeDataProj h) := rfl

theorem proj_upperWhole (h : HoleS (IVecS α) (α × Nat)) :
    holeUpperChildWhole (ivecStorage α) O h =
    holeUpperChildWhole (listStorage (α × Nat) α Prod.fst) O (holeDataProj h) := rfl

theorem proj_upperLone (h : HoleS (IVecS α) (α × Nat)) :
    holeUpperChildLone (ivecStorage α) O h =
    holeUpperChildLone (listStorage (α × Nat) α Prod.fst) O (holeDataProj h) := rfl

theorem proj_siftUpLoop : ∀ (fuel : Nat) (h : HoleS (IVecS α) (α × Nat)),
    holeDataProj (siftUpLoop (ivecStorage α) O fuel h) =
    siftUpLoop (listStorage (α × Nat) α Prod.fst) O fuel (holeDataProj h) := by
  intro fuel
  induction fuel with
  | zero => intro h; rfl
  | succ fuel ih =>
    intro h
    have hpos : (holeDataProj h).pos = h.pos := rfl
    simp only [siftUpLoop, hpos]
    cases parentPos h.pos with
    | none => rfl
    | some par =>
      dsimp only
      have hcc : O.shouldSiftUp
          (holeElement (listStorage (α × Nat) α Prod.fst) (holeDataProj h))
          ((listStorage (α × Nat) α Prod.fst).getKey (holeDataProj h).data par) =
          O.shouldSiftUp (holeElement (ivecStorage α) h)
          ((ivecStorage α).getKey h.data par) := rfl
      rw [hcc]
      split
      · rw [ih, proj_moveTo]
      · rfl

theorem proj_siftToBottomLoop : ∀ (fuel : Nat) (h : HoleS (IVecS α) (α × Nat)),
    holeDataProj (siftToBottomLoop (ivecStorage α) O fuel h) =
    siftToBottomLoop (listStorage (α × Nat) α Prod.fst) O fuel (holeDataProj h) := by
  intro fuel
  induction fuel with
  | zero => intro h; rfl
  | succ fuel ih =>
    intro h
    simp only [siftToBottomLoop]
    rw [← @proj_upperWhole α _ O h]
    cases holeUpperChildWhole (ivecStorage α) O h with
    | some child =>
      dsimp only
      rw [ih, proj_moveTo]
    | none =>
      dsimp only
      rw [← proj_upperLone]
      cases holeUpperChildLone (ivecStorage α) O h with
      | some child => exact proj_moveTo h child
      | none => rfl

theorem proj_siftDownLoop : ∀ (fuel : Nat) (h : HoleS (IVecS α) (α × Nat)),
    (((siftDownLoop (ivecStorage α) O fuel h).1).data,
      (siftDownLoop (ivecStorage α) O fuel h).2) =
    siftDownLoop (listStorage (α × Nat) α Prod.fst) O fuel (holeDataProj h) := by
  intro fuel
  induction fuel with
  | zero => intro h; rfl
  | succ fuel ih =>
    intro h
    simp only [siftDownLoop]
    rw [← @proj_upperWhole α _ O h]
    cases holeUpperChildWhole (ivecStorage α) O h with
    | some child =>
      dsimp only
      have hcc : O.shouldSiftDown
          (holeElement (listStorage (α × Nat) α Prod.fst) (holeDataProj h))
          ((listStorage (α × Nat) α Prod.fst).getKey (holeDataProj h).data child) =
          O.shouldSiftDown (holeElement (ivecStorage α) h)
          ((ivecStorage α).getKey h.data child) := rfl
      rw [hcc]
      split
      · rw [← proj_moveTo, ih]
      · exact proj_intoPos h
    | none =>
      dsimp only
      rw [← proj_upperLone]
      cases holeUpperChildLone (ivecStorage α) O h with
      | some child =>
        dsimp only
        have hcc : O.shouldSiftDown
            (holeElement (listStorage (α × Nat) α Prod.fst) (holeDataProj h))
            ((listStorage (α × Nat) α Prod.fst).getKey (holeDataProj h).data child) =
            O.shouldSiftDown (holeElement (ivecStorage α) h)
            ((ivecStorage α).getKey h.data child) := rfl
        rw [hcc]
        split
        · rw [← proj_moveTo]
          exact proj_intoPos _
        · exact proj_intoPos h
      | none => exact proj_intoPos h

theorem proj_siftUpS (s : IVecS α) (p : Nat) :
    (((siftUpS (ivecStorage α) O s p).1).data, (siftUpS (ivecStorage α) O s p).2) =
    siftUpS (listStorage (α × Nat) α Prod.fst) O s.data p := by
  unfold siftUpS
  rw [← proj_holeNew, ← proj_siftUpLoop, ← proj_intoPos]

theorem proj_siftDownS (s : IVecS α) (p : Nat) :
    (((siftDownS (ivecStorage α) O s p).1).data, (siftDownS (ivecStorage α) O s p).2) =
    siftDownS (listStorage (α × Nat) α Prod.fst) O s.data p := by
  unfold siftDownS
  have hlen : (ivecStorage α).length s =
      (listStorage (α × Nat) α Prod.fst).length s.data := rfl
  rw [← proj_holeNew, ← hlen]
  exact proj_siftDownLoop _ _

theorem proj_siftToBottomS (s : IVecS α) (p : Nat) :
    (((siftToBottomS (ivecStorage α) O s p).1).data,
      (siftToBottomS (ivecStorage α) O s p).2) =
    siftToBottomS (listStorage (α × Nat) α Prod.fst) O s.data p := by
  unfold siftToBottomS
  have hlen : (ivecStorage α).length s =
      (listStorage (α × Nat) α Prod.fst).length s.data := rfl
  rw [← proj_holeNew, ← hlen, ← proj_siftToBottomLoop, ← proj_intoPos]

theorem proj_fixupSiftS (s : IVecS α) (p : Nat) :
    (((fixupSiftS (ivecStorage α) O s p).1).data, (fixupSiftS (ivecStorage α) O s p).2) =
    fixupSiftS (listStorage (α × Nat) α Prod.fst) O s.data p := by
  unfold fixupSiftS
  have hup := @proj_siftUpS α _ O s p
  have h1 : ((siftUpS (ivecStorage α) O s p).1).data =
      (siftUpS (listStorage (α × Nat) α Prod.fst) O s.data p).1 :=
    congrArg Prod.fst hup
  have h2 : (siftUpS (ivecStorage α) O s p).2 =
      (siftUpS (listStorage (α × Nat) α Prod.fst) O s.data p).2 :=
    congrArg Prod.snd hup
  by_cases hc : (siftUpS (ivecStorage α) O s p).2 ≠ p
  · rw [if_pos hc, if_pos (by rw [← h2]; exact hc)]
    exact hup
  · rw [if_neg hc, if_neg (by rw [← h2]; exact hc)]
    rw [← h1]
    exact @proj_siftDownS α _ O (siftUpS (ivecStorage α) O s p).1 p

theorem proj_fixupSiftToBottomS (s : IVecS α) (p : Nat) :
    (((fixupSiftToBottomS (ivecStorage α) O s p).1).data,
      (fixupSiftToBottomS (ivecStorage α) O s p).2) =
    fixupSiftToBottomS (listStorage (α × Nat) α Prod.fst) O s.data p := by
  unfold fixupSiftToBottomS
  have hbt := @proj_siftToBottomS α _ O s p
  have h1 : ((siftToBottomS (ivecStorage α) O s p).1).data =
      (siftToBottomS (listStorage (α × Nat) α Prod.fst) O s.data p).1 :=
    congrArg Prod.fst hbt
  have h2 : (siftToBottomS (ivecStorage α) O s p).2 =
      (siftToBottomS (listStorage (α × Nat) α Prod.fst) O s.data p).2 :=
    congrArg Prod.snd hbt
  dsimp only
  rw [← h1, ← h2]
  exact @proj_siftUpS α _ O (siftToBottomS (ivecStorage α) O s p).1
    (siftToBottomS (ivecStorage α) O s p).2

end IVecSim

section SetHelpers

variable {β κ : Type} [Inhabited β] [LinearOrder κ]

theorem getD_dropLast {l : List β} {r : Nat} (d : β) (h : r < l.dropLast.length) :
    l.dropLast.getD r d = l.getD r d := by
  rw [List.getD_eq_getElem?_getD, List.getD_eq_getElem?_getD,
    List.getElem?_eq_getElem h,
    List.getElem?_eq_getElem (by have := List.length_dropLast l; omega),
    List.getElem_dropLast]

theorem set_edges_away (key : β → κ) (l : List β) (b : β) (p : Nat)
    (h : IsHeapL key l) :
    ∀ q, 0 < q → q < (l.set p b).length → q ≠ p → (q - 1) / 2 ≠ p →
      EdgeAt key (l.set p b) q := by
  intro q hq0 hqm hqp hqpar
  rw [List.length_set] at hqm
  unfold EdgeAt keyAt
  rw [getD_set_ne b default (fun hh => hqp hh.symm),
    getD_set_ne b default (fun hh => hqpar hh.symm)]
  exact h q hq0 hqm

theorem set_children_bound (key : β → κ) (l : List β) (b : β) (p : Nat)
    (h : IsHeapL key l) (hp0 : 0 < p) (hpm : p < l.length) :
    ∀ c, c < (l.set p b).length → (c - 1) / 2 = p →
      keyAt key (l.set p b) c ≤ keyAt key (l.set p b) ((p - 1) / 2) := by
  intro c hcm hcp
  rw [List.length_set] at hcm
  have hc0 : 0 < c := by
    by_contra hc
    push_neg at hc
    omega
  have hcne : c ≠ p := by
    have := (child_parent_iff hc0).mp hcp
    omega
  have hpar_ne : (p - 1) / 2 ≠ p := by omega
  unfold keyAt
  rw [getD_set_ne b default (fun hh => hcne hh.symm),
    getD_set_ne b default (fun hh => hpar_ne hh.symm)]
  have h1 := h c hc0 hcm
  unfold EdgeAt keyAt at h1
  rw [hcp] at h1
  have h2 := h p hp0 hpm
  unfold EdgeAt keyAt at h2
  exact le_trans h1 h2

theorem IsHeapL_dropLast (key : β → κ) (l : List β) (h : IsHeapL key l) :
    IsHeapL key l.dropLast := by
  intro q hq0 hqm
  unfold EdgeAt keyAt
  rw [getD_dropLast _ hqm, getD_dropLast _ (by omega)]
  exact h q hq0 (by have := List.length_dropLast l; omega)

end SetHelpers

section IOpInv

variable {α : Type} [Inhabited α] [LinearOrder α] {O : HeapOrd α}

theorem iPush_heap (hst : IsStdOrd O) (s : IVecS α) (x : α)
    (h : IsHeapL Prod.fst s.data) :
    IsHeapL Prod.fst ((iPush O s x).1).data := by
  unfold iPush ivPush
  dsimp only
  have hproj := @proj_siftUpS α _ O
    ⟨s.data ++ [(x, (skipAdd s.table s.data.length).2)],
      (skipAdd s.table s.data.length).1⟩ s.data.length
  have h1 := congrArg Prod.fst hproj
  dsimp only at h1
  rw [h1]
  exact (push_list_heap Prod.fst hst s.data (x, (skipAdd s.table s.data.length).2) h).1

theorem iPop_heap (hst : IsStdOrd O) (s : IVecS α) (x : α) (s' : IVecS α)
    (h : IsHeapL Prod.fst s.data) (hpop : iPop O s = some (x, s')) :
    IsHeapL Prod.fst s'.data := by
  unfold iPop ivPop at hpop
  cases hgl : s.data.getLast? with
  | none => rw [hgl] at hpop; cases hpop
  | some pair =>
    rw [hgl] at hpop
    dsimp only at hpop
    unfold popSwapS at hpop
    by_cases hlen : (ivecStorage α).length
        (⟨s.data.dropLast, skipRemove s.table pair.2⟩ : IVecS α) ≠ 0
    · rw [if_pos hlen] at hpop
      dsimp only at hpop
      rw [Option.some.injEq, Prod.mk.injEq] at hpop
      obtain ⟨hx, hs'⟩ := hpop
      rw [← hs']
      have hlen' : 0 < s.data.dropLast.length := by
        simp only [ivecStorage] at hlen
        omega
      set st : IVecS α := ⟨s.data.dropLast, skipRemove s.table pair.2⟩ with hst'
      have hsetd : ((ivecStorage α).setItem st 0 pair.1).data =
          s.data.dropLast.set 0 (pair.1, (s.data.dropLast.getD 0 default).2) := rfl
      have hproj := @proj_fixupSiftToBottomS α _ O
        ((ivecStorage α).setItem st 0 pair.1) 0
      have h1 := congrArg Prod.fst hproj
      dsimp only at h1
      rw [h1, hsetd]
      have hdheap : IsHeapL Prod.fst s.data.dropLast := IsHeapL_dropLast _ _ h
      exact (fixupToBottom_heap Prod.fst hst _ 0
        (by rw [List.length_set]; exact hlen')
        (fun q hq0 hqm hqp hqpar =>
          set_edges_away Prod.fst s.data.dropLast _ 0 hdheap q hq0
            (by rw [List.length_set]; rw [List.length_set] at hqm; exact hqm)
            hqp hqpar)
        (by omega)).1
    · rw [if_neg hlen] at hpop
      dsimp only at hpop
      rw [Option.some.injEq, Prod.mk.injEq] at hpop
      obtain ⟨hx, hs'⟩ := hpop
      rw [← hs']
      push_neg at hlen
      have hlen0 : s.data.dropLast.length = 0 := hlen
      intro q hq0 hqm
      have hqm' : q < s.data.dropLast.length := hqm
      omega

theorem iPeekMutSet_heap (hst : IsStdOrd O) (s : IVecS α) (x : α)
    (h : IsHeapL Prod.fst s.data) :
    IsHeapL Prod.fst (iPeekMutSet O s x).data := by
  unfold iPeekMutSet
  by_cases he : s.data.isEmpty
  · rw [if_pos he]
    exact h
  · rw [if_neg he]
    have hlpos : 0 < s.data.length := by
      cases hd : s.data with
      | nil => rw [hd] at he; simp at he
      | cons a t => simp
    dsimp only
    by_cases hs : (childPos s.data.length 0 0).isSome
    · rw [if_pos hs]
      have hsetd : ((ivecStorage α).setItem s 0 x).data =
          s.data.set 0 (x, (s.data.getD 0 default).2) := rfl
      have hproj := @proj_siftDownS α _ O ((ivecStorage α).setItem s 0 x) 0
      have h1 := congrArg Prod.fst hproj
      dsimp only at h1
      rw [h1, hsetd]
      exact (siftDown_root_heap Prod.fst hst _
        (by rw [List.length_set]; exact hlpos)
        (fun q hq0 hqm hqpar =>
          set_edges_away Prod.fst s.data _ 0 h q hq0
            (by rw [List.length_set]; rw [List.length_set] at hqm; exact hqm)
            (by omega) hqpar)).1
    · rw [if_neg hs]
      have hlen1 : s.data.length ≤ 1 := by
        by_contra hgt
        push_neg at hgt
        apply hs
        unfold childPos
        dsimp only
        rw [if_pos (show 2 * 0 + 1 + 0 < s.data.length by omega)]
        rfl
      intro q hq0 hqm
      have : ((ivecStorage α).setItem s 0 x).data.length = s.data.length := by
        show (s.data.set 0 _).length = s.data.length
        exact List.length_set s.data 0 _
      rw [this] at hqm
      omega

theorem iByIndexMutSet_heap (hst : IsStdOrd O) (s : IVecS α) (idx : Nat)
    (x : α) (h : IsHeapL Prod.fst s.data) :
    IsHeapL Prod.fst (iByIndexMutSet O s idx x).data := by
  unfold iByIndexMutSet
  cases hpos : ivIndexToPos s idx with
  | none => exact h
  | some pos =>
    dsimp only
    by_cases hlt : pos < s.data.length
    · rw [if_pos hlt]
      have hsetd : ((ivecStorage α).setItem s pos x).data =
          s.data.set pos (x, (s.data.getD pos default).2) := rfl
      have hproj := @proj_fixupSiftS α _ O ((ivecStorage α).setItem s pos x) pos
      have h1 := congrArg Prod.fst hproj
      dsimp only at h1
      rw [h1, hsetd]
      exact (fixup_heap Prod.fst hst _ pos (by rw [List.length_set]; exact hlt)
        (set_edges_away Prod.fst s.data _ pos h)
        (fun hp0 => set_children_bound Prod.fst s.data _ pos h hp0 hlt)).1
    · rw [if_neg hlt]
      exact h

theorem iRemove_heap (hst : IsStdOrd O) (s : IVecS α) (idx : Nat)
    (h : IsHeapL Prod.fst s.data) :
    IsHeapL Prod.fst (iRemove O s idx).data := by
  unfold iRemove ivSwapRemove
  cases hpos : ivIndexToPos s idx with
  | none => exact h
  | some pos =>
    dsimp only
    by_cases hlt : pos < s.data.length
    · rw [if_pos hlt]
      set b := s.data.getLast?.getD default with hb
      set d' := (s.data.set pos b).dropLast with hd'
      have hd'len : d'.length = s.data.length - 1 := by
        rw [hd', List.length_dropLast, List.length_set]
      have hgd' : ∀ r, r < d'.length → r ≠ pos →
          d'.getD r default = s.data.getD r default := by
        intro r hr hrp
        rw [hd', getD_dropLast _ (by rw [← hd']; exact hr),
          getD_set_ne b default (fun hh => hrp hh.symm)]
      have hD' : ∀ q, 0 < q → q < d'.length → q ≠ pos → (q - 1) / 2 ≠ pos →
          EdgeAt Prod.fst d' q := by
        intro q hq0 hqm hqp hqpar
        unfold EdgeAt keyAt
        rw [hgd' q hqm hqp, hgd' ((q - 1) / 2) (by omega) hqpar]
        exact h q hq0 (by omega)
      by_cases hlt2 : pos < d'.length
      · rw [if_pos hlt2]
        have hproj := @proj_fixupSiftToBottomS α _ O
          (⟨d', skipRemove s.table (s.data.getD pos default).2⟩ : IVecS α) pos
        have h1 := congrArg Prod.fst hproj
        dsimp only at h1
        rw [h1]
        apply (fixupToBottom_heap Prod.fst hst d' pos hlt2 hD' ?_).1
        intro hp0 c hcm hcp
        have hc0 : 0 < c := by
          by_contra hc
          push_neg at hc
          omega
        have hcne : c ≠ pos := by
          have := (child_parent_iff hc0).mp hcp
          omega
        have hpar_ne : (pos - 1) / 2 ≠ pos := by omega
        unfold keyAt
        rw [hgd' c hcm hcne, hgd' ((pos - 1) / 2) (by omega) hpar_ne]
        have h1c := h c hc0 (by omega)
        unfold EdgeAt keyAt at h1c
        rw [hcp] at h1c
        have h2c := h pos hp0 hlt
        unfold EdgeAt keyAt at h2c
        exact le_trans h1c h2c
      · rw [if_neg hlt2]
        intro q hq0 hqm
        have hqm' : q < d'.length := hqm
        push_neg at hlt2
        exact hD' q hq0 hqm' (by omega) (by omega)
    · rw [if_neg hlt]
      exact h

theorem execIOp_heap (hst : IsStdOrd O) (s : IVecS α) (op : IOp α)
    (h : IsHeapL Prod.fst s.data) :
    IsHeapL Prod.fst (execIOp O s op).data := by
  cases op with
  | push x => exact iPush_heap hst s x h
  | pop =>
    simp only [execIOp]
    cases hp : iPop O s with
    | none => exact h
    | some r => exact iPop_heap hst s r.1 r.2 h (by rw [hp])
  | peekMutSet x => exact iPeekMutSet_heap hst s x h
  | byIndexMutSet i x => exact iByIndexMutSet_heap hst s i x h
  | removeIdx i => exact iRemove_heap hst s i h

theorem execIOps_heap (hst : IsStdOrd O) (ops : List (IOp α)) :
    ∀ s, IsHeapL Prod.fst s.data → IsHeapL Prod.fst (execIOps O s ops).data := by
  induction ops with
  | nil => intro s h; exact h
  | cons o rest ih =>
    intro s h
    show IsHeapL Prod.fst (execIOps O (execIOp O s o) rest).data
    exact ih _ (execIOp_heap hst s o h)

end IOpInv

section MiscLemmas

variable {β κ : Type} [Inhabited β] [LinearOrder κ] {O : HeapOrd κ}

theorem log2F_eq : ∀ (fuel n : Nat), n < 2 ^ fuel → log2F fuel n = Nat.log2 n := by
  intro fuel
  induction fuel with
  | zero =>
    intro n h
    have h1 : n < 1 := by simpa using h
    have h0 : n = 0 := by omega
    subst h0
    have hz : Nat.log2 0 = 0 := by
      conv_lhs => rw [Nat.log2.eq_def]
      rw [if_neg (by omega)]
    rw [hz]
    rfl
  | succ fuel ih =>
    intro n h
    simp only [log2F]
    by_cases h2 : 2 ≤ n
    · rw [if_pos h2]
      have hrec : Nat.log2 n = Nat.log2 (n / 2) + 1 := by
        conv_lhs => rw [Nat.log2.eq_def]
        rw [if_pos h2]
      rw [hrec, ih (n / 2) (by rw [pow_succ] at h; omega)]
    · rw [if_neg h2]
      have hz : Nat.log2 n = 0 := by
        conv_lhs => rw [Nat.log2.eq_def]
        rw [if_neg h2]
      rw [hz]

theorem log2Fast_eq_log2 (x : Nat) (h : x < 2 ^ 64) : log2Fast x = Nat.log2 x :=
  log2F_eq 64 x h

theorem foldl_siftDown_perm (key : β → κ) :
    ∀ (xs : List Nat) (d : List β), (∀ i ∈ xs, i < d.length) →
    (xs.foldl (fun acc i => (siftDownS (listStorage β κ key) O acc i).1) d).Perm d := by
  intro xs
  induction xs with
  | nil => intro d _; exact List.Perm.refl d
  | cons x rest ihx =>
    intro d hmem
    simp only [List.foldl_cons]
    have hx : x < d.length := hmem x (List.mem_cons_self x rest)
    have hperm : ((siftDownS (listStorage β κ key) O d x).1).Perm d := by
      rw [siftDownS_eq O key d x hx]
      exact absDown_perm O key d.length d x hx
    have hlen : ((siftDownS (listStorage β κ key) O d x).1).length = d.length := by
      rw [siftDownS_eq O key d x hx]
      exact absDown_length O key d.length d x
    exact (ihx _ (fun i hi => by
      rw [hlen]; exact hmem i (List.mem_cons_of_mem x hi))).trans hperm

theorem foldl_siftUp_perm (key : β → κ) :
    ∀ (xs : List Nat) (d : List β), (∀ i ∈ xs, i < d.length) →
    (xs.foldl (fun acc i => (siftUpS (listStorage β κ key) O acc i).1) d).Perm d := by
  intro xs
  induction xs with
  | nil => intro d _; exact List.Perm.refl d
  | cons x rest ihx =>
    intro d hmem
    simp only [List.foldl_cons]
    have hx : x < d.length := hmem x (List.mem_cons_self x rest)
    have hperm : ((siftUpS (listStorage β κ key) O d x).1).Perm d := by
      rw [siftUpS_eq O key d x hx]
      exact absUp_perm O key x d x hx
    have hlen : ((siftUpS (listStorage β κ key) O d x).1).length = d.length := by
      rw [siftUpS_eq O key d x hx]
      exact absUp_length O key x d x
    exact (ihx _ (fun i hi => by
      rw [hlen]; exact hmem i (List.mem_cons_of_mem x hi))).trans hperm

theorem rebuildS_perm (key : β → κ) (d : List β) :
    (rebuildS (listStorage β κ key) O d).Perm d := by
  unfold rebuildS
  apply foldl_siftDown_perm
  intro i hi
  simp only [List.mem_reverse, List.mem_range] at hi
  unfold rebuildRangeLen at hi
  simp only [listStorage_length] at hi
  omega

theorem rebuildTailS_perm (key : β → κ) (d : List β) (start : Nat) :
    (rebuildTailS (listStorage β κ key) O d start).Perm d := by
  unfold rebuildTailS
  by_cases h1 : start = (listStorage β κ key).length d
  · rw [if_pos h1]
  · rw [if_neg h1]
    by_cases h2 : betterToRebuild ((listStorage β κ key).length d) start = true
    · rw [if_pos h2]
      exact rebuildS_perm key d
    · rw [if_neg h2]
      apply foldl_siftUp_perm
      intro i hi
      simp only [List.mem_range'_1] at hi
      simp only [listStorage_length] at hi
      omega

theorem fixupToBottom_length (key : β → κ) (l : List β) (p : Nat)
    (hp : p < l.length) :
    ((fixupSiftToBottomS (listStorage β κ key) O l p).1).length = l.length := by
  unfold fixupSiftToBottomS
  rw [siftToBottomS_eq O key l p hp]
  have hpos := absBot_pos O key l.length l p hp
  have hlen := absBot_length O key l.length l p
  rw [siftUpS_eq O key _ _ (by omega)]
  rw [absUp_length, hlen]

end MiscLemmas

section PopChar

variable {α : Type} [Inhabited α] {O : HeapOrd α}

theorem getLast_eq_getD_zero {β : Type} [Inhabited β] {l : List β}
    (hne : l ≠ []) (h1 : l.length = 1) : l.getLast hne = l.getD 0 default := by
  cases l with
  | nil => exact absurd rfl hne
  | cons a t =>
    cases t with
    | nil => rfl
    | cons b t' => simp at h1

theorem vPop_char [LinearOrder α] (O : HeapOrd α) (l : List α) (hne : l ≠ []) :
    ∃ l', vPop O l = some (l.getD 0 default, l') ∧ l'.length = l.length - 1 := by
  unfold vPop
  rw [List.getLast?_eq_getLast l hne]
  dsimp only
  unfold popSwapS
  by_cases hlen : (vecStorage α).length l.dropLast ≠ 0
  · rw [if_pos hlen]
    dsimp only
    have h0 : 0 < l.dropLast.length := by
      have hh : l.dropLast.length ≠ 0 := hlen
      omega
    refine ⟨(fixupSiftToBottomS (vecStorage α) O
        ((vecStorage α).setItem l.dropLast 0 (l.getLast hne)) 0).1, ?_, ?_⟩
    · have hgd : (vecStorage α).getItem l.dropLast 0 = l.getD 0 default := by
        show l.dropLast.getD 0 default = l.getD 0 default
        exact getD_dropLast _ h0
      rw [hgd]
    · show ((fixupSiftToBottomS (vecStorage α) O
        ((vecStorage α).setItem l.dropLast 0 (l.getLast hne)) 0).1).length =
        l.length - 1
      have hsetd : (vecStorage α).setItem l.dropLast 0 (l.getLast hne) =
          l.dropLast.set 0 (l.getLast hne) := rfl
      rw [hsetd]
      unfold vecStorage
      have hfl := @fixupToBottom_length α α _ _ O (id : α → α)
        (l.dropLast.set 0 (l.getLast hne)) 0
        (by rw [List.length_set]; exact h0)
      rw [hfl, List.length_set, List.length_dropLast]
  · rw [if_neg hlen]
    dsimp only
    push_neg at hlen
    have hlen0 : l.dropLast.length = 0 := hlen
    have hpos : 0 < l.length := List.length_pos.mpr hne
    have hl1 : l.length = 1 := by
      have := List.length_dropLast l
      omega
    refine ⟨l.dropLast, ?_, by omega⟩
    rw [getLast_eq_getD_zero hne hl1]

theorem iPop_none_iff (O : HeapOrd α) (s : IVecS α) :
    iPop O s = none ↔ s.data = [] := by
  unfold iPop ivPop
  cases hd : s.data with
  | nil => simp
  | cons a t =>
    rw [List.getLast?_eq_getLast (a :: t) (by simp)]
    simp

theorem iPop_char [LinearOrder α] (O : HeapOrd α) (s : IVecS α)
    (hne : s.data ≠ []) :
    ∃ x s', iPop O s = some (x, s') ∧ x = (s.data.getD 0 default).1 ∧
      s'.data.length = s.data.length - 1 := by
  unfold iPop ivPop
  rw [List.getLast?_eq_getLast s.data hne]
  dsimp only
  unfold popSwapS
  by_cases hlen : (ivecStorage α).length
      (⟨s.data.dropLast, skipRemove s.table (s.data.getLast hne).2⟩ : IVecS α) ≠ 0
  · rw [if_pos hlen]
    dsimp only
    have h0 : 0 < s.data.dropLast.length := by
      have hh : s.data.dropLast.length ≠ 0 := hlen
      omega
    refine ⟨_, _, rfl, ?_, ?_⟩
    · show (s.data.dropLast.getD 0 default).1 = (s.data.getD 0 default).1
      rw [getD_dropLast _ h0]
    · have hproj := congrArg Prod.fst (@proj_fixupSiftToBottomS α _ O
        ((ivecStorage α).setItem
          (⟨s.data.dropLast, skipRemove s.table (s.data.getLast hne).2⟩ : IVecS α)
          0 (s.data.getLast hne).1) 0)
      dsimp only at hproj
      show ((fixupSiftToBottomS (ivecStorage α) O _ 0).1).data.length = _
      rw [hproj]
      have hfl := @fixupToBottom_length (α × Nat) α _ _ O
        (Prod.fst : α × Nat → α)
        (s.data.dropLast.set 0
          ((s.data.getLast hne).1, (s.data.dropLast.getD 0 default).2)) 0
        (by rw [List.length_set]; exact h0)
      have hsetd : (((ivecStorage α).setItem
          (⟨s.data.dropLast, skipRemove s.table (s.data.getLast hne).2⟩ : IVecS α)
          0 (s.data.getLast hne).1)).data =
          s.data.dropLast.set 0
            ((s.data.getLast hne).1, (s.data.dropLast.getD 0 default).2) := rfl
      rw [hsetd, hfl, List.length_set, List.length_dropLast]
  · rw [if_neg hlen]
    dsimp only
    push_neg at hlen
    have hlen0 : s.data.dropLast.length = 0 := hlen
    have hpos : 0 < s.data.length := List.length_pos.mpr hne
    have hl1 : s.data.length = 1 := by
      have := List.length_dropLast s.data
      omega
    refine ⟨_, _, rfl, ?_, ?_⟩
    · rw [getLast_eq_getD_zero hne hl1]
    · show s.data.dropLast.length = s.data.length - 1
      omega

end PopChar

section SkipBits

theorem skipbit_pos : 0 < SKIP_BIT := Nat.pos_pow_of_pos 63 (by omega)

theorem and_skipbit_eq_zero {a : Nat} (h : a < SKIP_BIT) : a &&& SKIP_BIT = 0 := by
  unfold SKIP_BIT at h ⊢
  apply Nat.eq_of_testBit_eq
  intro i
  rw [Nat.testBit_and, Nat.zero_testBit, Nat.testBit_two_pow]
  by_cases hi : 63 = i
  · subst hi
    rw [Nat.testBit_lt_two_pow h]
    simp
  · simp [hi]

theorem entryIsData_of_lt {a : Nat} (h : a < SKIP_BIT) : entryIsData a = true := by
  unfold entryIsData
  rw [and_skipbit_eq_zero h]
  simp

theorem skipRepr_of_lt {a : Nat} (h : a < SKIP_BIT) : skipRepr a = .data a := by
  unfold skipRepr
  rw [if_pos (and_skipbit_eq_zero h)]

theorem or_skipbit_and_ne {n : Nat} : (n ||| SKIP_BIT) &&& SKIP_BIT ≠ 0 := by
  intro h0
  have hbit : ((n ||| SKIP_BIT) &&& SKIP_BIT).testBit 63 = true := by
    unfold SKIP_BIT
    rw [Nat.testBit_and, Nat.testBit_or, Nat.testBit_two_pow]
    simp
  rw [h0, Nat.zero_testBit] at hbit
  cases hbit

theorem entryIsData_fromSkip (n : Nat) : entryIsData (entryFromSkip n) = false := by
  unfold entryIsData entryFromSkip
  simpa using or_skipbit_and_ne

theorem or_skipbit_low {n : Nat} (h : n < SKIP_BIT) :
    (n ||| SKIP_BIT) &&& (SKIP_BIT - 1) = n := by
  unfold SKIP_BIT at h ⊢
  apply Nat.eq_of_testBit_eq
  intro i
  rw [Nat.testBit_and, Nat.testBit_or, Nat.testBit_two_pow,
    Nat.testBit_two_pow_sub_one]
  by_cases hi : i < 63
  · have h63 : ¬ (63 = i) := by omega
    simp [hi, h63]
  · have hni : n.testBit i = false := by
      apply Nat.testBit_lt_two_pow
      calc n < 2 ^ 63 := h
        _ ≤ 2 ^ i := Nat.pow_le_pow_right (by omega) (by omega)
    simp [hi, hni]

theorem skipRepr_fromSkip {n : Nat} (h : n < SKIP_BIT) :
    skipRepr (entryFromSkip n) = .skip n := by
  unfold skipRepr
  rw [if_neg (by unfold entryFromSkip; exact or_skipbit_and_ne)]
  unfold entryFromSkip
  rw [or_skipbit_low h]

theorem ChainIs_mem_lt {t : List Nat} {f : Nat} {c : List Nat}
    (h : ChainIs t f c) : ∀ j ∈ c, j < t.length := by
  induction h with
  | nil => intro j hj; simp at hj
  | cons i next c hlt hrepr hrest ih =>
    intro j hj
    rcases List.mem_cons.mp hj with hji | hjc
    · subst hji; exact hlt
    · exact ih j hjc

theorem ChainIs_frame {t t' : List Nat} {f : Nat} {c : List Nat}
    (h : ChainIs t f c) (hlen : t'.length = t.length)
    (hsame : ∀ j ∈ c, t'.getD j 0 = t.getD j 0) : ChainIs t' f c := by
  induction h with
  | nil => exact ChainIs.nil t'
  | cons i next c hlt hrepr hrest ih =>
    apply ChainIs.cons
    · omega
    · rw [hsame i (List.mem_cons_self i c)]
      exact hrepr
    · exact ih (fun j hj => hsame j (List.mem_cons_of_mem i hj))

theorem ChainIs_zero {t : List Nat} {c : List Nat} (h : ChainIs t 0 c) :
    c = [] := by
  cases h with
  | nil => rfl

theorem ChainIs_succ {t : List Nat} {i : Nat} {c : List Nat}
    (h : ChainIs t (i + 1) c) :
    ∃ next c', c = i :: c' ∧ i < t.length ∧
      skipRepr (t.getD i 0) = .skip next ∧ ChainIs t next c' := by
  cases h with
  | cons i' next c' hlt hrepr hrest => exact ⟨next, c', rfl, hlt, hrepr, hrest⟩

theorem ChainIs_firstSkip_le {t : List Nat} {f : Nat} {c : List Nat}
    (h : ChainIs t f c) : f ≤ t.length := by
  cases h with
  | nil => omega
  | cons i next c hlt hrepr hrest => omega

theorem TableFrame.refl (t : SkipListS) : TableFrame t t :=
  ⟨rfl, rfl, fun _ _ => rfl⟩

theorem TableFrame.trans {t t' t'' : SkipListS} (h1 : TableFrame t t')
    (h2 : TableFrame t' t'') : TableFrame t t'' := by
  obtain ⟨hl1, hf1, hs1⟩ := h1
  obtain ⟨hl2, hf2, hs2⟩ := h2
  refine ⟨by omega, by rw [hf2, hf1], ?_⟩
  intro i hi
  have he1 := hs1 i hi
  have he2 := hs2 i (by rw [he1]; exact hi)
  rw [he2, he1]

end SkipBits

section HoleTransport

variable {α : Type} [Inhabited α]

theorem holeNew_TInv (s : IVecS α) (p : Nat) (hI : IVecInv s)
    (hp : p < s.data.length) : HoleTInv (holeNew (ivecStorage α) s p) := by
  obtain ⟨hwf, hdl, htl, hmap, hsurj⟩ := hI
  obtain ⟨hip, hep⟩ := hmap p hp
  refine ⟨hp, hwf, hdl, htl, ?_, ⟨hip, ?_⟩, ?_, ?_⟩
  · intro q hq hqp
    exact hmap q hq
  · show entryIsData (s.table.data.getD (pairIdxAt s p) 0) = true
    rw [hep]
    exact entryIsData_of_lt (by omega)
  · intro q hq hqp
    show pairIdxAt s q ≠ pairIdxAt s p
    intro hcon
    obtain ⟨_, heq⟩ := hmap q hq
    rw [hcon, hep] at heq
    exact hqp heq.symm
  · intro i hi hdata
    rcases hsurj i hi hdata with ⟨q, hq, hqi⟩
    by_cases hqp : q = p
    · right
      subst hqp
      exact hqi.symm
    · left
      exact ⟨q, hq, hqp, hqi⟩

theorem moveTo_TInv (h : HoleS (IVecS α) (α × Nat)) (i : Nat)
    (hTI : HoleTInv h) (hi : i < h.data.data.length) (hne : i ≠ h.pos) :
    HoleTInv (holeMoveTo (ivecStorage α) h i) ∧
    TableFrame h.data.table ((holeMoveTo (ivecStorage α) h i).data).table := by
  obtain ⟨hp, ⟨chain, hch, hnd, hiff⟩, hdl, htl, hmap, ⟨helt1, helt2⟩, hne7, hsurj⟩ := hTI
  have hidxI := hmap i hi hne
  have heltI := hne7 i hi hne
  have hidx : ((h.data.data.set h.pos (h.data.data.getD i default)).getD
      h.pos default).2 = pairIdxAt h.data i := by
    unfold pairIdxAt
    rw [getD_set_self _ _ hp]
  have hdata : ((holeMoveTo (ivecStorage α) h i).data).data =
      h.data.data.set h.pos (h.data.data.getD i default) := rfl
  have htab : ((holeMoveTo (ivecStorage α) h i).data).table =
      ⟨h.data.table.data.set
        ((h.data.data.set h.pos (h.data.data.getD i default)).getD h.pos default).2
        h.pos, h.data.table.firstSkip⟩ := rfl
  have htab' : ((holeMoveTo (ivecStorage α) h i).data).table =
      ⟨h.data.table.data.set (pairIdxAt h.data i) h.pos,
        h.data.table.firstSkip⟩ := by
    rw [htab, hidx]
  have hIdata : entryIsData (h.data.table.data.getD (pairIdxAt h.data i) 0) = true := by
    rw [hidxI.2]
    exact entryIsData_of_lt (by omega)
  have hInotchain : pairIdxAt h.data i ∉ chain := by
    intro hmem
    have := (hiff (pairIdxAt h.data i) hidxI.1).mpr hmem
    rw [hIdata] at this
    cases this
  have hframe : TableFrame h.data.table ((holeMoveTo (ivecStorage α) h i).data).table := by
    rw [htab']
    refine ⟨List.length_set _ _ _, rfl, ?_⟩
    intro j hj
    show (h.data.table.data.set (pairIdxAt h.data i) h.pos).getD j 0 =
      h.data.table.data.getD j 0
    by_cases hji : pairIdxAt h.data i = j
    · rw [← hji] at hj
      rw [hIdata] at hj
      cases hj
    · exact getD_set_ne _ _ hji
  have hinj : ∀ q, q < h.data.data.length → q ≠ h.pos → q ≠ i →
      pairIdxAt h.data q ≠ pairIdxAt h.data i := by
    intro q hq hqp hqi hcon
    obtain ⟨_, heq⟩ := hmap q hq hqp
    rw [hcon, hidxI.2] at heq
    exact hqi heq.symm
  have hplen : ((holeMoveTo (ivecStorage α) h i).data).data.length =
      h.data.data.length := by
    rw [hdata, List.length_set]
  have htlen : ((holeMoveTo (ivecStorage α) h i).data).table.data.length =
      h.data.table.data.length := by
    rw [htab']
    exact List.length_set _ _ _
  have hpix_pos : pairIdxAt ((holeMoveTo (ivecStorage α) h i).data) h.pos =
      pairIdxAt h.data i := by
    unfold pairIdxAt
    rw [hdata, getD_set_self _ _ hp]
  have hpix_other : ∀ q, q ≠ h.pos →
      pairIdxAt ((holeMoveTo (ivecStorage α) h i).data) q = pairIdxAt h.data q := by
    intro q hq
    unfold pairIdxAt
    rw [hdata, getD_set_ne _ _ (fun hc => hq hc.symm)]
  have hent_idxI : ((holeMoveTo (ivecStorage α) h i).data).table.data.getD
      (pairIdxAt h.data i) 0 = h.pos := by
    rw [htab']
    exact getD_set_self _ _ hidxI.1
  have hent_other : ∀ j, j ≠ pairIdxAt h.data i →
      ((holeMoveTo (ivecStorage α) h i).data).table.data.getD j 0 =
      h.data.table.data.getD j 0 := by
    intro j hj
    rw [htab']
    exact getD_set_ne _ _ (fun hc => hj hc.symm)
  refine ⟨⟨?_, ?_, ?_, ?_, ?_, ⟨?_, ?_⟩, ?_, ?_⟩, hframe⟩
  · show i < ((holeMoveTo (ivecStorage α) h i).data).data.length
    rw [hplen]
    exact hi
  · refine ⟨chain, ?_, hnd, ?_⟩
    · rw [htab']
      apply ChainIs_frame hch (List.length_set _ _ _)
      intro j hj
      exact getD_set_ne _ _ (fun hc => hInotchain (hc ▸ hj))
    · intro j hj
      rw [htlen] at hj
      by_cases hji : j = pairIdxAt h.data i
      · subst hji
        rw [hent_idxI]
        have hdval : entryIsData h.pos = true := entryIsData_of_lt (by omega)
        rw [hdval]
        simp only [Bool.true_eq_false, false_iff]
        exact hInotchain
      · rw [hent_other j hji]
        exact hiff j hj
  · rw [hplen]
    exact hdl
  · rw [htlen]
    exact htl
  · intro q hq hqi
    rw [hplen] at hq
    by_cases hqp : q = h.pos
    · subst hqp
      rw [hpix_pos, htlen]
      exact ⟨hidxI.1, hent_idxI⟩
    · rw [hpix_other q hqp, htlen]
      obtain ⟨hlt, heq⟩ := hmap q hq hqp
      refine ⟨hlt, ?_⟩
      rw [hent_other _ (hinj q hq hqp hqi)]
      exact heq
  · show h.elt.2 < ((holeMoveTo (ivecStorage α) h i).data).table.data.length
    rw [htlen]
    exact helt1
  · show entryIsData (((holeMoveTo (ivecStorage α) h i).data).table.data.getD
      h.elt.2 0) = true
    rw [hent_other _ (fun hc => heltI hc.symm)]
    exact helt2
  · intro q hq hqi
    rw [hplen] at hq
    by_cases hqp : q = h.pos
    · subst hqp
      rw [hpix_pos]
      exact heltI
    · rw [hpix_other q hqp]
      exact hne7 q hq hqp
  · intro j hj hdataj
    rw [htlen] at hj
    by_cases hji : j = pairIdxAt h.data i
    · left
      refine ⟨h.pos, ?_, fun hc => hne hc.symm, ?_⟩
      · rw [hplen]
        exact hp
      · rw [hpix_pos, hji]
    · rw [hent_other j hji] at hdataj
      rcases hsurj j hj hdataj with ⟨q, hq, hqp, hqj⟩ | hje
      · left
        have hqi2 : q ≠ i := by
          intro hc
          subst hc
          exact hji hqj.symm
        refine ⟨q, ?_, hqi2, ?_⟩
        · rw [hplen]
          exact hq
        · rw [hpix_other q hqp]
          exact hqj
      · right
        exact hje

theorem intoPos_TInv (h : HoleS (IVecS α) (α × Nat)) (hTI : HoleTInv h) :
    IVecInv (holeIntoPos (ivecStorage α) h).1 ∧
    TableFrame h.data.table (((holeIntoPos (ivecStorage α) h).1)).table ∧
    ((holeIntoPos (ivecStorage α) h).1).data = h.data.data.set h.pos h.elt ∧
    (holeIntoPos (ivecStorage α) h).2 = h.pos := by
  obtain ⟨hp, ⟨chain, hch, hnd, hiff⟩, hdl, htl, hmap, ⟨helt1, helt2⟩, hne7, hsurj⟩ := hTI
  have hdata : ((holeIntoPos (ivecStorage α) h).1).data =
      h.data.data.set h.pos h.elt := rfl
  have hidx : ((h.data.data.set h.pos h.elt).getD h.pos default).2 = h.elt.2 := by
    rw [getD_set_self _ _ hp]
  have htab : (((holeIntoPos (ivecStorage α) h).1)).table =
      ⟨h.data.table.data.set
        ((h.data.data.set h.pos h.elt).getD h.pos default).2 h.pos,
        h.data.table.firstSkip⟩ := rfl
  have htab' : (((holeIntoPos (ivecStorage α) h).1)).table =
      ⟨h.data.table.data.set h.elt.2 h.pos, h.data.table.firstSkip⟩ := by
    rw [htab, hidx]
  have hEnotchain : h.elt.2 ∉ chain := by
    intro hmem
    have := (hiff h.elt.2 helt1).mpr hmem
    rw [helt2] at this
    cases this
  have hplen : ((holeIntoPos (ivecStorage α) h).1).data.length =
      h.data.data.length := by
    rw [hdata, List.length_set]
  have htlen : (((holeIntoPos (ivecStorage α) h).1)).table.data.length =
      h.data.table.data.length := by
    rw [htab']
    exact List.length_set _ _ _
  have hpix_pos : pairIdxAt ((holeIntoPos (ivecStorage α) h).1) h.pos = h.elt.2 := by
    unfold pairIdxAt
    rw [hdata, getD_set_self _ _ hp]
  have hpix_other : ∀ q, q ≠ h.pos →
      pairIdxAt ((holeIntoPos (ivecStorage α) h).1) q = pairIdxAt h.data q := by
    intro q hq
    unfold pairIdxAt
    rw [hdata, getD_set_ne _ _ (fun hc => hq hc.symm)]
  have hent_elt : (((holeIntoPos (ivecStorage α) h).1)).table.data.getD
      h.elt.2 0 = h.pos := by
    rw [htab']
    exact getD_set_self _ _ helt1
  have hent_other : ∀ j, j ≠ h.elt.2 →
      (((holeIntoPos (ivecStorage α) h).1)).table.data.getD j 0 =
      h.data.table.data.getD j 0 := by
    intro j hj
    rw [htab']
    exact getD_set_ne _ _ (fun hc => hj hc.symm)
  have hframe : TableFrame h.data.table (((holeIntoPos (ivecStorage α) h).1)).table := by
    rw [htab']
    refine ⟨List.length_set _ _ _, rfl, ?_⟩
    intro j hj
    by_cases hje : h.elt.2 = j
    · rw [← hje] at hj
      rw [helt2] at hj
      cases hj
    · exact getD_set_ne _ _ hje
  refine ⟨⟨?_, ?_, ?_, ?_, ?_⟩, hframe, hdata, rfl⟩
  · refine ⟨chain, ?_, hnd, ?_⟩
    · rw [htab']
      apply ChainIs_frame hch (List.length_set _ _ _)
      intro j hj
      exact getD_set_ne _ _ (fun hc => hEnotchain (hc ▸ hj))
    · intro j hj
      rw [htlen] at hj
      by_cases hje : j = h.elt.2
      · subst hje
        rw [hent_elt]
        have hdval : entryIsData h.pos = true := entryIsData_of_lt (by omega)
        rw [hdval]
        simp only [Bool.true_eq_false, false_iff]
        exact hEnotchain
      · rw [hent_other j hje]
        exact hiff j hj
  · rw [hplen]
    exact hdl
  · rw [htlen]
    exact htl
  · intro q hq
    rw [hplen] at hq
    by_cases hqp : q = h.pos
    · subst hqp
      rw [hpix_pos, htlen]
      exact ⟨helt1, hent_elt⟩
    · rw [hpix_other q hqp, htlen]
      obtain ⟨hlt, heq⟩ := hmap q hq hqp
      refine ⟨hlt, ?_⟩
      rw [hent_other _ (hne7 q hq hqp)]
      exact heq
  · intro j hj hdataj
    rw [htlen] at hj
    by_cases hje : j = h.elt.2
    · refine ⟨h.pos, ?_, ?_⟩
      · rw [hplen]
        exact hp
      · rw [hpix_pos, hje]
    · rw [hent_other j hje] at hdataj
      rcases hsurj j hj hdataj with ⟨q, hq, hqp, hqj⟩ | hje2
      · refine ⟨q, ?_, ?_⟩
        · rw [hplen]
          exact hq
        · rw [hpix_other q hqp]
          exact hqj
      · exact absurd hje2 hje

end HoleTransport

section LoopTransport

variable {α : Type} [Inhabited α] {O : HeapOrd α}

theorem iUpperWhole_some {h : HoleS (IVecS α) (α × Nat)} {c : Nat}
    (hc : holeUpperChildWhole (ivecStorage α) O h = some c) :
    (c = 2 * h.pos + 1 ∨ c = 2 * h.pos + 2) ∧ 2 * h.pos + 2 < h.data.data.length := by
  unfold holeUpperChildWhole at hc
  split at hc
  · simp only [selectSibling, Option.some.injEq] at hc
    have hw := isWholeNode_iff.mp (by assumption)
    have hw' : 2 * h.pos + 2 < h.data.data.length := hw
    rcases Bool.toNat_le (O.selectUpper ((ivecStorage α).getKey h.data (2 * h.pos + 1))
      ((ivecStorage α).getKey h.data (2 * h.pos + 2))) with h'
    exact ⟨by omega, hw'⟩
  · cases hc

theorem iUpperLone_some {h : HoleS (IVecS α) (α × Nat)} {c : Nat}
    (hc : holeUpperChildLone (ivecStorage α) O h = some c) :
    (c = 2 * h.pos + 1 ∨ c = 2 * h.pos + 2) ∧ c < h.data.data.length := by
  unfold holeUpperChildLone at hc
  cases hcl : childrenList ((ivecStorage α).length h.data) h.pos with
  | nil => rw [hcl] at hc; cases hc
  | cons c0 rest =>
    rw [hcl] at hc
    simp only [Option.some.injEq] at hc
    have hmem : c ∈ childrenList ((ivecStorage α).length h.data) h.pos := by
      rw [hcl, ← hc]
      exact foldl_choice_mem _ rest c0
    have hcm := childrenList_mem hmem
    have hlt : c < h.data.data.length := hcm.2
    exact ⟨hcm.1, hlt⟩

theorem siftUpLoop_TInv : ∀ (fuel : Nat) (h : HoleS (IVecS α) (α × Nat)),
    HoleTInv h →
    HoleTInv (siftUpLoop (ivecStorage α) O fuel h) ∧
    TableFrame h.data.table ((siftUpLoop (ivecStorage α) O fuel h).data).table := by
  intro fuel
  induction fuel with
  | zero => intro h hTI; exact ⟨hTI, TableFrame.refl _⟩
  | succ fuel ih =>
    intro h hTI
    simp only [siftUpLoop]
    cases hpar : parentPos h.pos with
    | none => exact ⟨hTI, TableFrame.refl _⟩
    | some par =>
      dsimp only
      split
      · obtain ⟨hpeq, hplt, hppos⟩ := parentPos_some hpar
        have hparlt : par < h.data.data.length := by
          have := hTI.1
          omega
        obtain ⟨hm, hf⟩ := moveTo_TInv h par hTI hparlt (by omega)
        obtain ⟨hm2, hf2⟩ := ih _ hm
        exact ⟨hm2, hf.trans hf2⟩
      · exact ⟨hTI, TableFrame.refl _⟩

theorem siftToBottomLoop_TInv : ∀ (fuel : Nat) (h : HoleS (IVecS α) (α × Nat)),
    HoleTInv h →
    HoleTInv (siftToBottomLoop (ivecStorage α) O fuel h) ∧
    TableFrame h.data.table ((siftToBottomLoop (ivecStorage α) O fuel h).data).table := by
  intro fuel
  induction fuel with
  | zero => intro h hTI; exact ⟨hTI, TableFrame.refl _⟩
  | succ fuel ih =>
    intro h hTI
    simp only [siftToBottomLoop]
    cases hW : holeUpperChildWhole (ivecStorage α) O h with
    | some c =>
      dsimp only
      obtain ⟨hcor, hclen⟩ := iUpperWhole_some hW
      obtain ⟨hm, hf⟩ := moveTo_TInv h c hTI (by omega) (by omega)
      obtain ⟨hm2, hf2⟩ := ih _ hm
      exact ⟨hm2, hf.trans hf2⟩
    | none =>
      dsimp only
      cases hL : holeUpperChildLone (ivecStorage α) O h with
      | some c =>
        dsimp only
        obtain ⟨hcor, hclen⟩ := iUpperLone_some hL
        exact moveTo_TInv h c hTI hclen (by omega)
      | none => exact ⟨hTI, TableFrame.refl _⟩

theorem siftDownLoop_TInv : ∀ (fuel : Nat) (h : HoleS (IVecS α) (α × Nat)),
    HoleTInv h →
    IVecInv (siftDownLoop (ivecStorage α) O fuel h).1 ∧
    TableFrame h.data.table ((siftDownLoop (ivecStorage α) O fuel h).1).table := by
  intro fuel
  induction fuel with
  | zero =>
    intro h hTI
    obtain ⟨hI, hF, _, _⟩ := intoPos_TInv h hTI
    exact ⟨hI, hF⟩
  | succ fuel ih =>
    intro h hTI
    simp only [siftDownLoop]
    cases hW : holeUpperChildWhole (ivecStorage α) O h with
    | some c =>
      dsimp only
      split
      · obtain ⟨hcor, hclen⟩ := iUpperWhole_some hW
        obtain ⟨hm, hf⟩ := moveTo_TInv h c hTI (by omega) (by omega)
        obtain ⟨hm2, hf2⟩ := ih _ hm
        exact ⟨hm2, hf.trans hf2⟩
      · obtain ⟨hI, hF, _, _⟩ := intoPos_TInv h hTI
        exact ⟨hI, hF⟩
    | none =>
      dsimp only
      cases hL : holeUpperChildLone (ivecStorage α) O h with
      | some c =>
        dsimp only
        split
        · obtain ⟨hcor, hclen⟩ := iUpperLone_some hL
          obtain ⟨hm, hf⟩ := moveTo_TInv h c hTI hclen (by omega)
          obtain ⟨hI, hF, _, _⟩ := intoPos_TInv _ hm
          exact ⟨hI, hf.trans hF⟩
        · obtain ⟨hI, hF, _, _⟩ := intoPos_TInv h hTI
          exact ⟨hI, hF⟩
      | none =>
        obtain ⟨hI, hF, _, _⟩ := intoPos_TInv h hTI
        exact ⟨hI, hF⟩

theorem siftUpS_hole_TInv (s : IVecS α) (p : Nat)
    (hH : HoleTInv (holeNew (ivecStorage α) s p)) :
    IVecInv (siftUpS (ivecStorage α) O s p).1 ∧
    TableFrame s.table (((siftUpS (ivecStorage α) O s p).1)).table := by
  unfold siftUpS
  obtain ⟨hT, hF⟩ := siftUpLoop_TInv p _ hH
  obtain ⟨hI, hF2, _, _⟩ := intoPos_TInv _ hT
  exact ⟨hI, TableFrame.trans hF hF2⟩

theorem siftUpS_TInv (s : IVecS α) (p : Nat) (hI : IVecInv s)
    (hp : p < s.data.length) :
    IVecInv (siftUpS (ivecStorage α) O s p).1 ∧
    TableFrame s.table (((siftUpS (ivecStorage α) O s p).1)).table :=
  siftUpS_hole_TInv s p (holeNew_TInv s p hI hp)

theorem fixupToBottomS_hole_TInv (s : IVecS α) (p : Nat)
    (hH : HoleTInv (holeNew (ivecStorage α) s p)) (hp : p < s.data.length) :
    IVecInv (fixupSiftToBottomS (ivecStorage α) O s p).1 ∧
    TableFrame s.table (((fixupSiftToBottomS (ivecStorage α) O s p).1)).table := by
  unfold fixupSiftToBottomS
  dsimp only
  have hbt : IVecInv (siftToBottomS (ivecStorage α) O s p).1 ∧
      TableFrame s.table (((siftToBottomS (ivecStorage α) O s p).1)).table := by
    unfold siftToBottomS
    obtain ⟨hT, hF⟩ := siftToBottomLoop_TInv ((ivecStorage α).length s) _ hH
    obtain ⟨hI, hF2, _, _⟩ := intoPos_TInv _ hT
    exact ⟨hI, TableFrame.trans hF hF2⟩
  have hpos2 : (siftToBottomS (ivecStorage α) O s p).2 <
      ((siftToBottomS (ivecStorage α) O s p).1).data.length := by
    have hproj := @proj_siftToBottomS α _ O s p
    have h1 := congrArg Prod.fst hproj
    have h2 := congrArg Prod.snd hproj
    dsimp only at h1 h2
    rw [h1, h2, siftToBottomS_eq O Prod.fst s.data p hp]
    have := absBot_pos O Prod.fst s.data.length s.data p hp
    rw [absBot_length]
    omega
  obtain ⟨hI2, hF3⟩ := siftUpS_TInv _ _ hbt.1 hpos2
  exact ⟨hI2, TableFrame.trans hbt.2 hF3⟩

end LoopTransport

section ChainOps

theorem ChainIs_frame' {t t' : List Nat} {f : Nat} {c : List Nat}
    (h : ChainIs t f c)
    (hmem : ∀ j ∈ c, j < t'.length ∧ t'.getD j 0 = t.getD j 0) :
    ChainIs t' f c := by
  induction h with
  | nil => exact ChainIs.nil t'
  | cons i next c hlt hrepr hrest ih =>
    refine ChainIs.cons _ _ _ _ (hmem i (List.mem_cons_self i c)).1 ?_
      (ih (fun j hj => hmem j (List.mem_cons_of_mem i hj)))
    rw [(hmem i (List.mem_cons_self i c)).2]
    exact hrepr

theorem ChainIs_nil_eq {t : List Nat} {f : Nat} (h : ChainIs t f []) : f = 0 := by
  cases h with
  | nil => rfl

theorem ChainIs_det {t : List Nat} {f : Nat} {c : List Nat} (h1 : ChainIs t f c) :
    ∀ c', ChainIs t f c' → c = c' := by
  induction h1 with
  | nil =>
    intro c' h2
    exact (ChainIs_zero h2).symm
  | cons i next c hlt hrepr hrest ih =>
    intro c' h2
    obtain ⟨next', c'', hceq, _, hrepr', hrest'⟩ := ChainIs_succ h2
    subst hceq
    have hnn : next = next' := by
      rw [hrepr] at hrepr'
      injection hrepr'
    rw [ih c'' (by rw [hnn]; exact hrest')]

theorem skipWF_chain_props {t : SkipListS} {c : List Nat} (hwf : SkipWF t)
    (hch : ChainIs t.data t.firstSkip c) :
    c.Nodup ∧
    ∀ i, i < t.data.length → (entryIsData (t.data.getD i 0) = false ↔ i ∈ c) := by
  obtain ⟨c', hch', hnd, hiff⟩ := hwf
  have hcc : c = c' := ChainIs_det hch c' hch'
  subst hcc
  exact ⟨hnd, hiff⟩

theorem chain_preserved {t t' : SkipListS} {c : List Nat} (hwf : SkipWF t)
    (hch : ChainIs t.data t.firstSkip c) (hF : TableFrame t t') :
    ChainIs t'.data t'.firstSkip c := by
  obtain ⟨hnd, hiff⟩ := skipWF_chain_props hwf hch
  obtain ⟨hl, hf, hs⟩ := hF
  rw [hf]
  apply ChainIs_frame' hch
  intro j hj
  have hjl := ChainIs_mem_lt hch j hj
  have hskip : entryIsData (t.data.getD j 0) = false := (hiff j hjl).mpr hj
  exact ⟨by omega, hs j hskip⟩

theorem skipRemove_wf (t : SkipListS) (i : Nat) (hwf : SkipWF t)
    (hi : i < t.data.length) (hd : entryIsData (t.data.getD i 0) = true)
    (hsb : t.data.length < SKIP_BIT) :
    SkipWF (skipRemove t i) ∧
    (skipRemove t i).data.length ≤ t.data.length ∧
    (∀ j, j < (skipRemove t i).data.length → j ≠ i →
      (skipRemove t i).data.getD j 0 = t.data.getD j 0) ∧
    (∀ j, j < (skipRemove t i).data.length →
      entryIsData ((skipRemove t i).data.getD j 0) = true → j ≠ i) ∧
    ((i = t.data.length - 1 →
      (skipRemove t i).data.length = t.data.length - 1) ∧
     (i ≠ t.data.length - 1 →
      (skipRemove t i).data.length = t.data.length)) := by
  obtain ⟨chain, hch, hnd, hiff⟩ := hwf
  have hchain_lt := ChainIs_mem_lt hch
  have hinot : i ∉ chain := by
    intro hmem
    have := (hiff i hi).mpr hmem
    rw [hd] at this
    cases this
  unfold skipRemove
  by_cases hcase : i = t.data.length - 1
  · rw [if_pos hcase]
    have hlen : (t.data.dropLast).length = t.data.length - 1 :=
      List.length_dropLast t.data
    have hframe : ∀ j, j < t.data.length - 1 →
        t.data.dropLast.getD j 0 = t.data.getD j 0 := by
      intro j hj
      exact getD_dropLast _ (by omega)
    refine ⟨⟨chain, ?_, hnd, ?_⟩, ?_, ?_, ?_, ?_, ?_⟩
    · apply ChainIs_frame' hch
      intro j hj
      have hjl := hchain_lt j hj
      have hjne : j ≠ i := fun hc => hinot (hc ▸ hj)
      refine ⟨?_, hframe j (by omega)⟩
      show j < t.data.dropLast.length
      omega
    · intro j hj
      have hj' : j < t.data.length - 1 := by
        show j < t.data.length - 1
        have : j < t.data.dropLast.length := hj
        omega
      show entryIsData (t.data.dropLast.getD j 0) = false ↔ j ∈ chain
      rw [hframe j hj']
      exact hiff j (by omega)
    · show t.data.dropLast.length ≤ t.data.length
      omega
    · intro j hj _
      have hj' : j < t.data.dropLast.length := hj
      exact hframe j (by omega)
    · intro j hj _
      have hj' : j < t.data.dropLast.length := hj
      omega
    · intro _
      exact hlen
    · intro hc
      exact absurd hcase hc
  · rw [if_neg hcase]
    have hfs_le : t.firstSkip ≤ t.data.length := ChainIs_firstSkip_le hch
    have hlen : (t.data.set i (entryFromSkip t.firstSkip)).length = t.data.length :=
      List.length_set _ _ _
    have hframe : ∀ j, j ≠ i →
        (t.data.set i (entryFromSkip t.firstSkip)).getD j 0 = t.data.getD j 0 := by
      intro j hj
      exact getD_set_ne _ _ (fun hc => hj hc.symm)
    have hati : (t.data.set i (entryFromSkip t.firstSkip)).getD i 0 =
        entryFromSkip t.firstSkip := getD_set_self _ _ hi
    refine ⟨⟨i :: chain, ?_, ?_, ?_⟩, ?_, ?_, ?_, ?_, ?_⟩
    · apply ChainIs.cons
      · show i < (t.data.set i (entryFromSkip t.firstSkip)).length
        omega
      · rw [hati]
        exact skipRepr_fromSkip (by omega)
      · apply ChainIs_frame' hch
        intro j hj
        have hjl := hchain_lt j hj
        have hjne : j ≠ i := fun hc => hinot (hc ▸ hj)
        refine ⟨?_, hframe j hjne⟩
        show j < (t.data.set i (entryFromSkip t.firstSkip)).length
        omega
    · exact List.nodup_cons.mpr ⟨hinot, hnd⟩
    · intro j hj
      have hj' : j < t.data.length := by
        have : j < (t.data.set i (entryFromSkip t.firstSkip)).length := hj
        omega
      show entryIsData ((t.data.set i (entryFromSkip t.firstSkip)).getD j 0) =
        false ↔ j ∈ i :: chain
      by_cases hji : j = i
      · subst hji
        rw [hati, entryIsData_fromSkip]
        simp
      · rw [hframe j hji]
        rw [hiff j hj']
        simp [hji]
    · show (t.data.set i (entryFromSkip t.firstSkip)).length ≤ t.data.length
      omega
    · intro j _ hjne
      exact hframe j hjne
    · intro j hj hdj
      intro hji
      subst hji
      rw [hati, entryIsData_fromSkip] at hdj
      cases hdj
    · intro hc
      exact absurd hc hcase
    · intro _
      exact hlen

end ChainOps

section ListOps

variable {β : Type} [Inhabited β]

theorem getLastQ_getD (l : List β) (hne : l ≠ []) :
    l.getLast?.getD default = l.getD (l.length - 1) default := by
  rw [List.getLast?_eq_getLast l hne, Option.getD_some,
    List.getLast_eq_getElem, List.getD_eq_getElem?_getD,
    List.getElem?_eq_getElem (by have := List.length_pos.mpr hne; omega),
    Option.getD_some]

theorem dropLast_set_last (l : List β) (b : β) :
    (l.set (l.length - 1) b).dropLast = l.dropLast := by
  apply List.ext_getElem
  · rw [List.length_dropLast, List.length_dropLast, List.length_set]
  · intro i h1 h2
    rw [List.getElem_dropLast, List.getElem_dropLast,
      List.getElem_set_ne (by
        rw [List.length_dropLast, List.length_set] at h1
        omega)]

end ListOps

section IVecOps

variable {α : Type} [Inhabited α] {O : HeapOrd α}

theorem setItem_inv (s : IVecS α) (p : Nat) (x : α) (hI : IVecInv s)
    (hp : p < s.data.length) : IVecInv ((ivecStorage α).setItem s p x) := by
  obtain ⟨hwf, hdl, htl, hmap, hsurj⟩ := hI
  have hdata : ((ivecStorage α).setItem s p x).data =
      s.data.set p (x, (s.data.getD p default).2) := rfl
  have htab : ((ivecStorage α).setItem s p x).table = s.table := rfl
  have hpix : ∀ q, pairIdxAt ((ivecStorage α).setItem s p x) q = pairIdxAt s q := by
    intro q
    unfold pairIdxAt
    rw [hdata]
    by_cases hqp : q = p
    · subst hqp
      rw [getD_set_self _ _ hp]
    · rw [getD_set_ne _ _ (fun hc => hqp hc.symm)]
  refine ⟨by rw [htab]; exact hwf, ?_, by rw [htab]; exact htl, ?_, ?_⟩
  · rw [hdata, List.length_set]
    exact hdl
  · intro q hq
    rw [hdata, List.length_set] at hq
    rw [hpix q, htab]
    exact hmap q hq
  · intro j hj hd
    rw [htab] at hj hd
    obtain ⟨q, hq, hqj⟩ := hsurj j hj hd
    refine ⟨q, ?_, ?_⟩
    · rw [hdata, List.length_set]
      exact hq
    · rw [hpix q]
      exact hqj

theorem dropLast_state_inv (s : IVecS α) (hI : IVecInv s) (hne : s.data ≠ []) :
    IVecInv (⟨s.data.dropLast,
      skipRemove s.table (pairIdxAt s (s.data.length - 1))⟩ : IVecS α) ∧
    (skipRemove s.table (pairIdxAt s (s.data.length - 1))).data.length ≤
      s.table.data.length := by
  obtain ⟨hwf, hdl, htl, hmap, hsurj⟩ := hI
  have hpos : 0 < s.data.length := List.length_pos.mpr hne
  obtain ⟨hiRlt, hiRmap⟩ := hmap (s.data.length - 1) (by omega)
  have hiRdata : entryIsData
      (s.table.data.getD (pairIdxAt s (s.data.length - 1)) 0) = true := by
    rw [hiRmap]
    exact entryIsData_of_lt (by omega)
  obtain ⟨hwf', hlen', hframe', hdata_ne, hlen_cases⟩ :=
    skipRemove_wf s.table (pairIdxAt s (s.data.length - 1)) hwf hiRlt hiRdata htl
  have hinj : ∀ q, q < s.data.length - 1 →
      pairIdxAt s q ≠ pairIdxAt s (s.data.length - 1) := by
    intro q hq hc
    obtain ⟨_, hqmap⟩ := hmap q (by omega)
    rw [hc, hiRmap] at hqmap
    omega
  refine ⟨⟨hwf', ?_, ?_, ?_, ?_⟩, hlen'⟩
  · show s.data.dropLast.length < SKIP_BIT
    have := List.length_dropLast s.data
    omega
  · show (skipRemove s.table (pairIdxAt s (s.data.length - 1))).data.length < SKIP_BIT
    omega
  · intro q hq
    have hq' : q < s.data.length - 1 := by
      have hh : q < s.data.dropLast.length := hq
      have := List.length_dropLast s.data
      omega
    have hpair : pairIdxAt (⟨s.data.dropLast,
        skipRemove s.table (pairIdxAt s (s.data.length - 1))⟩ : IVecS α) q =
        pairIdxAt s q := by
      unfold pairIdxAt
      show (s.data.dropLast.getD q default).2 = _
      rw [getD_dropLast _ (by
        have := List.length_dropLast s.data
        omega)]
    obtain ⟨hqlt, hqmap⟩ := hmap q (by omega)
    have hqne := hinj q hq'
    have hqlt' : pairIdxAt s q <
        (skipRemove s.table (pairIdxAt s (s.data.length - 1))).data.length := by
      by_cases hcase : pairIdxAt s (s.data.length - 1) = s.table.data.length - 1
      · rw [hlen_cases.1 hcase]
        have : pairIdxAt s q ≠ s.table.data.length - 1 := by
          rw [← hcase]
          exact hqne
        omega
      · rw [hlen_cases.2 hcase]
        exact hqlt
    rw [hpair]
    refine ⟨hqlt', ?_⟩
    rw [hframe' _ hqlt' hqne]
    exact hqmap
  · intro j hj hd
    have hj' : j < (skipRemove s.table
        (pairIdxAt s (s.data.length - 1))).data.length := hj
    have hjne := hdata_ne j hj' hd
    have hent := hframe' j hj' hjne
    rw [show ((⟨s.data.dropLast,
        skipRemove s.table (pairIdxAt s (s.data.length - 1))⟩ : IVecS α)).table =
        skipRemove s.table (pairIdxAt s (s.data.length - 1)) from rfl] at hd
    rw [hent] at hd
    obtain ⟨q, hq, hqj⟩ := hsurj j (by omega) hd
    have hqne : q ≠ s.data.length - 1 := by
      intro hc
      subst hc
      exact hjne hqj.symm
    refine ⟨q, ?_, ?_⟩
    · show q < s.data.dropLast.length
      have := List.length_dropLast s.data
      omega
    · unfold pairIdxAt
      show (s.data.dropLast.getD q default).2 = j
      rw [getD_dropLast _ (by
        have := List.length_dropLast s.data
        omega)]
      exact hqj

theorem swapRemove_hole_TInv (s : IVecS α) (pos : Nat) (hI : IVecInv s)
    (hp2 : pos < s.data.length - 1) :
    HoleTInv (holeNew (ivecStorage α) (ivSwapRemove s pos).2 pos) := by
  obtain ⟨hwf, hdl, htl, hmap, hsurj⟩ := hI
  have hp : pos < s.data.length := by omega
  have hne : s.data ≠ [] := by
    intro hc
    rw [hc] at hp
    simp at hp
  have hbval : s.data.getLast?.getD default =
      s.data.getD (s.data.length - 1) default := getLastQ_getD s.data hne
  have hstate : (ivSwapRemove s pos).2 =
      ⟨(s.data.set pos (s.data.getD (s.data.length - 1) default)).dropLast,
        skipRemove s.table (pairIdxAt s pos)⟩ := by
    unfold ivSwapRemove pairIdxAt
    dsimp only
    rw [hbval]
  have hdlen : ((s.data.set pos
      (s.data.getD (s.data.length - 1) default)).dropLast).length =
      s.data.length - 1 := by
    rw [List.length_dropLast, List.length_set]
  have hgd' : ∀ q, q < s.data.length - 1 → q ≠ pos →
      ((s.data.set pos (s.data.getD (s.data.length - 1) default)).dropLast).getD
        q default = s.data.getD q default := by
    intro q hq hqp
    rw [getD_dropLast _ (by rw [hdlen]; omega),
      getD_set_ne _ _ (fun hc => hqp hc.symm)]
  have hgd_pos : ((s.data.set pos
      (s.data.getD (s.data.length - 1) default)).dropLast).getD pos default =
      s.data.getD (s.data.length - 1) default := by
    rw [getD_dropLast _ (by rw [hdlen]; omega), getD_set_self _ _ hp]
  obtain ⟨hiRlt, hiRmap⟩ := hmap pos hp
  have hiRdata : entryIsData (s.table.data.getD (pairIdxAt s pos) 0) = true := by
    rw [hiRmap]
    exact entryIsData_of_lt (by omega)
  obtain ⟨hwf', hlen', hframe', hdata_ne, hlen_cases⟩ :=
    skipRemove_wf s.table (pairIdxAt s pos) hwf hiRlt hiRdata htl
  obtain ⟨hiLlt, hiLmap⟩ := hmap (s.data.length - 1) (by omega)
  have hinj : ∀ q q', q < s.data.length → q' < s.data.length → q ≠ q' →
      pairIdxAt s q ≠ pairIdxAt s q' := by
    intro q q' hq hq' hqq hc
    obtain ⟨_, hm1⟩ := hmap q hq
    obtain ⟨_, hm2⟩ := hmap q' hq'
    rw [hc, hm2] at hm1
    exact hqq hm1.symm
  have hiLne : pairIdxAt s (s.data.length - 1) ≠ pairIdxAt s pos :=
    hinj _ _ (by omega) hp (by omega)
  have hiLlt' : pairIdxAt s (s.data.length - 1) <
      (skipRemove s.table (pairIdxAt s pos)).data.length := by
    by_cases hcase : pairIdxAt s pos = s.table.data.length - 1
    · rw [hlen_cases.1 hcase]
      have : pairIdxAt s (s.data.length - 1) ≠ s.table.data.length - 1 := by
        rw [← hcase]
        exact hiLne
      omega
    · rw [hlen_cases.2 hcase]
      exact hiLlt
  rw [hstate]
  unfold HoleTInv holeNew ivecStorage
  dsimp only
  rw [hgd_pos]
  have hpix : (s.data.getD (s.data.length - 1) default).2 =
      pairIdxAt s (s.data.length - 1) := rfl
  rw [hpix]
  refine ⟨?_, hwf', ?_, ?_, ?_, ⟨?_, ?_⟩, ?_, ?_⟩
  · show pos < ((s.data.set pos
      (s.data.getD (s.data.length - 1) default)).dropLast).length
    rw [hdlen]
    exact hp2
  · show ((s.data.set pos
      (s.data.getD (s.data.length - 1) default)).dropLast).length < SKIP_BIT
    rw [hdlen]
    omega
  · show (skipRemove s.table (pairIdxAt s pos)).data.length < SKIP_BIT
    omega
  · intro q hq hqp
    have hq' : q < s.data.length - 1 := by
      have hh : q < ((s.data.set pos
        (s.data.getD (s.data.length - 1) default)).dropLast).length := hq
      rw [hdlen] at hh
      exact hh
    have hpair : pairIdxAt (⟨(s.data.set pos
        (s.data.getD (s.data.length - 1) default)).dropLast,
        skipRemove s.table (pairIdxAt s pos)⟩ : IVecS α) q = pairIdxAt s q := by
      unfold pairIdxAt
      show (((s.data.set pos (s.data.getD (s.data.length - 1) default)).dropLast).getD
        q default).2 = _
      rw [hgd' q hq' hqp]
    obtain ⟨hqlt, hqmap⟩ := hmap q (by omega)
    have hqne : pairIdxAt s q ≠ pairIdxAt s pos := hinj _ _ (by omega) hp hqp
    have hqlt' : pairIdxAt s q <
        (skipRemove s.table (pairIdxAt s pos)).data.length := by
      by_cases hcase : pairIdxAt s pos = s.table.data.length - 1
      · rw [hlen_cases.1 hcase]
        have : pairIdxAt s q ≠ s.table.data.length - 1 := by
          rw [← hcase]
          exact hqne
        omega
      · rw [hlen_cases.2 hcase]
        exact hqlt
    rw [hpair]
    refine ⟨hqlt', ?_⟩
    rw [hframe' _ hqlt' hqne]
    exact hqmap
  · exact hiLlt'
  · show entryIsData ((skipRemove s.table (pairIdxAt s pos)).data.getD
      (pairIdxAt s (s.data.length - 1)) 0) = true
    rw [hframe' _ hiLlt' hiLne, hiLmap]
    exact entryIsData_of_lt (by omega)
  · intro q hq hqp
    have hq' : q < s.data.length - 1 := by
      have hh : q < ((s.data.set pos
        (s.data.getD (s.data.length - 1) default)).dropLast).length := hq
      rw [hdlen] at hh
      exact hh
    have hpair : pairIdxAt (⟨(s.data.set pos
        (s.data.getD (s.data.length - 1) default)).dropLast,
        skipRemove s.table (pairIdxAt s pos)⟩ : IVecS α) q = pairIdxAt s q := by
      unfold pairIdxAt
      show (((s.data.set pos (s.data.getD (s.data.length - 1) default)).dropLast).getD
        q default).2 = _
      rw [hgd' q hq' hqp]
    rw [hpair]
    show pairIdxAt s q ≠ pairIdxAt s (s.data.length - 1)
    exact hinj _ _ (by omega) (by omega) (by omega)
  · intro j hj hd
    have hj' : j < (skipRemove s.table (pairIdxAt s pos)).data.length := hj
    have hjne := hdata_ne j hj' hd
    have hent := hframe' j hj' hjne
    rw [hent] at hd
    obtain ⟨q, hq, hqj⟩ := hsurj j (by omega) hd
    by_cases hqL : q = s.data.length - 1
    · right
      subst hqL
      exact hqj.symm
    · left
      have hqp : q ≠ pos := by
        intro hc
        subst hc
        exact hjne hqj.symm
      refine ⟨q, ?_, hqp, ?_⟩
      · show q < ((s.data.set pos
          (s.data.getD (s.data.length - 1) default)).dropLast).length
        rw [hdlen]
        omega
      · unfold pairIdxAt
        show (((s.data.set pos (s.data.getD (s.data.length - 1) default)).dropLast).getD
          q default).2 = j
        rw [hgd' q (by omega) hqp]
        exact hqj

theorem entryIsData_of_skipRepr {e n : Nat} (h : skipRepr e = .skip n) :
    entryIsData e = false := by
  unfold skipRepr at h
  unfold entryIsData
  split at h
  · cases h
  · simpa using (by assumption : ¬ e &&& SKIP_BIT = 0)

theorem ChainIs_cons_inv {t : List Nat} {f j : Nat} {c' : List Nat}
    (h : ChainIs t f (j :: c')) :
    ∃ next, f = j + 1 ∧ j < t.length ∧
      skipRepr (t.getD j 0) = .skip next ∧ ChainIs t next c' := by
  cases h with
  | cons i next c hlt hrepr hrest => exact ⟨next, rfl, hlt, hrepr, hrest⟩

theorem iSiftUp_dataLen (O : HeapOrd α) (s : IVecS α) (p : Nat)
    (hp : p < s.data.length) :
    ((siftUpS (ivecStorage α) O s p).1).data.length = s.data.length := by
  have h1 := congrArg Prod.fst (@proj_siftUpS α _ O s p)
  dsimp only at h1
  rw [h1, siftUpS_eq O Prod.fst s.data p hp, absUp_length]

theorem iFixB_dataLen (O : HeapOrd α) (s : IVecS α) (p : Nat)
    (hp : p < s.data.length) :
    ((fixupSiftToBottomS (ivecStorage α) O s p).1).data.length = s.data.length := by
  have h1 := congrArg Prod.fst (@proj_fixupSiftToBottomS α _ O s p)
  dsimp only at h1
  rw [h1]
  unfold fixupSiftToBottomS
  rw [siftToBottomS_eq O Prod.fst s.data p hp]
  have hpos := absBot_pos O Prod.fst s.data.length s.data p hp
  have hlen := absBot_length O Prod.fst s.data.length s.data p
  rw [siftUpS_eq O Prod.fst _ _ (by omega)]
  rw [absUp_length, hlen]

theorem ivPush_inv (s : IVecS α) (x : α) (c : List Nat) (hI : IVecInv s)
    (hch : ChainIs s.table.data s.table.firstSkip c)
    (hdb : s.data.length + 1 < SKIP_BIT)
    (htb : c = [] → s.table.data.length + 1 < SKIP_BIT) :
    IVecInv (ivPush s x).1 ∧
    ((ivPush s x).1).data.length = s.data.length + 1 ∧
    ChainIs ((ivPush s x).1).table.data ((ivPush s x).1).table.firstSkip c.tail ∧
    ((ivPush s x).2 = match c with
      | [] => s.table.data.length
      | i :: _ => i) ∧
    ((ivPush s x).1).table.data.length = (match c with
      | [] => s.table.data.length + 1
      | _ :: _ => s.table.data.length) := by
  obtain ⟨hwf, hdl, htl, hmap, hsurj⟩ := hI
  obtain ⟨hnd0, hiff0⟩ := skipWF_chain_props hwf hch
  unfold ivPush skipAdd
  cases c with
  | nil =>
    have hf0 : s.table.firstSkip = 0 := ChainIs_nil_eq hch
    simp only [hf0]
    have halldata : ∀ i, i < s.table.data.length →
        entryIsData (s.table.data.getD i 0) = true := by
      intro i hi
      rcases Bool.eq_false_or_eq_true (entryIsData (s.table.data.getD i 0))
        with ht | hf
      · exact ht
      · exact absurd ((hiff0 i hi).mp hf) (by simp)
    have hposd : entryIsData s.data.length = true :=
      entryIsData_of_lt (by omega)
    refine ⟨⟨⟨[], ChainIs.nil _, List.Pairwise.nil, ?_⟩, ?_, ?_, ?_, ?_⟩, ?_, ?_, ?_, ?_⟩
    · intro i hi
      have hi' : i < s.table.data.length + 1 := by
        have hh : i < (s.table.data ++ [s.data.length]).length := hi
        rw [List.length_append] at hh
        simpa using hh
      simp only [List.not_mem_nil, iff_false]
      by_cases hcase : i < s.table.data.length
      · rw [getD_append_left _ hcase, halldata i hcase]
        simp
      · have hieq : i = s.table.data.length := by omega
        subst hieq
        rw [getD_append_right_last, hposd]
        simp
    · show (s.data ++ [(x, s.table.data.length)]).length < SKIP_BIT
      rw [List.length_append]
      simpa using hdb
    · show (s.table.data ++ [s.data.length]).length < SKIP_BIT
      rw [List.length_append]
      have := htb rfl
      simpa using this
    · intro q hq
      have hq' : q < s.data.length + 1 := by
        have hh : q < (s.data ++ [(x, s.table.data.length)]).length := hq
        rw [List.length_append] at hh
        simpa using hh
      by_cases hcase : q < s.data.length
      · have hpair : pairIdxAt (⟨s.data ++ [(x, s.table.data.length)],
            ⟨s.table.data ++ [s.data.length], 0⟩⟩ : IVecS α) q = pairIdxAt s q := by
          unfold pairIdxAt
          show ((s.data ++ [(x, s.table.data.length)]).getD q default).2 = _
          rw [getD_append_left _ hcase]
        obtain ⟨hlt, heq⟩ := hmap q hcase
        rw [hpair]
        constructor
        · show pairIdxAt s q < (s.table.data ++ [s.data.length]).length
          rw [List.length_append]
          simp only [List.length_cons, List.length_nil]
          omega
        · show (s.table.data ++ [s.data.length]).getD (pairIdxAt s q) 0 = q
          rw [getD_append_left _ hlt]
          exact heq
      · have hqeq : q = s.data.length := by omega
        subst hqeq
        have hpair : pairIdxAt (⟨s.data ++ [(x, s.table.data.length)],
            ⟨s.table.data ++ [s.data.length], 0⟩⟩ : IVecS α) s.data.length =
            s.table.data.length := by
          unfold pairIdxAt
          show ((s.data ++ [(x, s.table.data.length)]).getD s.data.length default).2 = _
          rw [getD_append_right_last]
        rw [hpair]
        constructor
        · show s.table.data.length < (s.table.data ++ [s.data.length]).length
          rw [List.length_append]
          simp
        · show (s.table.data ++ [s.data.length]).getD s.table.data.length 0 =
            s.data.length
          rw [getD_append_right_last]
    · intro i hi hd
      have hi' : i < s.table.data.length + 1 := by
        have hh : i < (s.table.data ++ [s.data.length]).length := hi
        rw [List.length_append] at hh
        simpa using hh
      by_cases hcase : i < s.table.data.length
      · have hent : (s.table.data ++ [s.data.length]).getD i 0 =
            s.table.data.getD i 0 := getD_append_left _ hcase
        rw [hent] at hd
        obtain ⟨q, hq, hqj⟩ := hsurj i hcase hd
        refine ⟨q, ?_, ?_⟩
        · show q < (s.data ++ [(x, s.table.data.length)]).length
          rw [List.length_append]
          simp only [List.length_cons, List.length_nil]
          omega
        · unfold pairIdxAt
          show ((s.data ++ [(x, s.table.data.length)]).getD q default).2 = i
          rw [getD_append_left _ hq]
          exact hqj
      · have hieq : i = s.table.data.length := by omega
        subst hieq
        refine ⟨s.data.length, ?_, ?_⟩
        · show s.data.length < (s.data ++ [(x, s.table.data.length)]).length
          rw [List.length_append]
          simp
        · unfold pairIdxAt
          show ((s.data ++ [(x, s.table.data.length)]).getD s.data.length default).2 = _
          rw [getD_append_right_last]
    · show (s.data ++ [(x, s.table.data.length)]).length = s.data.length + 1
      rw [List.length_append]
      rfl
    · exact ChainIs.nil _
    · trivial
    · show (s.table.data ++ [s.data.length]).length = s.table.data.length + 1
      rw [List.length_append]
      rfl
  | cons j c' =>
    obtain ⟨next, hfeq, hjlt, hrepr, hrest⟩ := ChainIs_cons_inv hch
    simp only [hfeq]
    simp only [hrepr]
    have hjskip : entryIsData (s.table.data.getD j 0) = false :=
      entryIsData_of_skipRepr hrepr
    have hjnot : j ∉ c' := by
      have := List.nodup_cons.mp hnd0
      exact this.1
    have hidx_ne_j : ∀ q, q < s.data.length → pairIdxAt s q ≠ j := by
      intro q hq hc
      obtain ⟨_, heq⟩ := hmap q hq
      rw [hc] at heq
      have hdq : entryIsData (s.table.data.getD j 0) = true := by
        rw [heq]
        exact entryIsData_of_lt (by omega)
      rw [hjskip] at hdq
      cases hdq
    have hposd : entryIsData s.data.length = true := entryIsData_of_lt (by omega)
    have hati : (s.table.data.set j s.data.length).getD j 0 = s.data.length :=
      getD_set_self _ _ hjlt
    have hfr : ∀ m, m ≠ j → (s.table.data.set j s.data.length).getD m 0 =
        s.table.data.getD m 0 := by
      intro m hm
      exact getD_set_ne _ _ (fun hc => hm hc.symm)
    have hchain' : ChainIs (s.table.data.set j s.data.length) next c' := by
      apply ChainIs_frame' hrest
      intro m hm
      have hmlt := ChainIs_mem_lt hrest m hm
      have hmne : m ≠ j := fun hc => hjnot (hc ▸ hm)
      refine ⟨?_, hfr m hmne⟩
      show m < (s.table.data.set j s.data.length).length
      rw [List.length_set]
      exact hmlt
    refine ⟨⟨⟨c', hchain', (List.nodup_cons.mp hnd0).2, ?_⟩, ?_, ?_, ?_, ?_⟩,
      ?_, hchain', ?_, ?_⟩
    · intro i hi
      have hi' : i < s.table.data.length := by
        have hh : i < (s.table.data.set j s.data.length).length := hi
        rw [List.length_set] at hh
        exact hh
      by_cases hij : i = j
      · subst hij
        rw [hati, hposd]
        simp only [Bool.true_eq_false, false_iff]
        exact hjnot
      · rw [hfr i hij]
        rw [hiff0 i hi']
        simp [hij]
    · show (s.data ++ [(x, j)]).length < SKIP_BIT
      rw [List.length_append]
      simpa using hdb
    · show (s.table.data.set j s.data.length).length < SKIP_BIT
      rw [List.length_set]
      exact htl
    · intro q hq
      have hq' : q < s.data.length + 1 := by
        have hh : q < (s.data ++ [(x, j)]).length := hq
        rw [List.length_append] at hh
        simpa using hh
      by_cases hcase : q < s.data.length
      · have hpair : pairIdxAt (⟨s.data ++ [(x, j)],
            ⟨s.table.data.set j s.data.length, next⟩⟩ : IVecS α) q =
            pairIdxAt s q := by
          unfold pairIdxAt
          show ((s.data ++ [(x, j)]).getD q default).2 = _
          rw [getD_append_left _ hcase]
        obtain ⟨hlt, heq⟩ := hmap q hcase
        rw [hpair]
        constructor
        · show pairIdxAt s q < (s.table.data.set j s.data.length).length
          rw [List.length_set]
          exact hlt
        · show (s.table.data.set j s.data.length).getD (pairIdxAt s q) 0 = q
          rw [hfr _ (hidx_ne_j q hcase)]
          exact heq
      · have hqeq : q = s.data.length := by omega
        subst hqeq
        have hpair : pairIdxAt (⟨s.data ++ [(x, j)],
            ⟨s.table.data.set j s.data.length, next⟩⟩ : IVecS α) s.data.length =
            j := by
          unfold pairIdxAt
          show ((s.data ++ [(x, j)]).getD s.data.length default).2 = _
          rw [getD_append_right_last]
        rw [hpair]
        constructor
        · show j < (s.table.data.set j s.data.length).length
          rw [List.length_set]
          exact hjlt
        · rw [hati]
    · intro i hi hd
      have hi' : i < s.table.data.length := by
        have hh : i < (s.table.data.set j s.data.length).length := hi
        rw [List.length_set] at hh
        exact hh
      by_cases hij : i = j
      · refine ⟨s.data.length, ?_, ?_⟩
        · show s.data.length < (s.data ++ [(x, j)]).length
          rw [List.length_append]
          simp
        · unfold pairIdxAt
          show ((s.data ++ [(x, j)]).getD s.data.length default).2 = i
          rw [getD_append_right_last]
          exact hij.symm
      · rw [hfr i hij] at hd
        obtain ⟨q, hq, hqj⟩ := hsurj i hi' hd
        refine ⟨q, ?_, ?_⟩
        · show q < (s.data ++ [(x, j)]).length
          rw [List.length_append]
          simp only [List.length_cons, List.length_nil]
          omega
        · unfold pairIdxAt
          show ((s.data ++ [(x, j)]).getD q default).2 = i
          rw [getD_append_left _ hq]
          exact hqj
    · show (s.data ++ [(x, j)]).length = s.data.length + 1
      rw [List.length_append]
      rfl
    · trivial
    · show (s.table.data.set j s.data.length).length = s.table.data.length
      rw [List.length_set]

theorem iPush_step (O : HeapOrd α) (s : IVecS α) (x : α) (c : List Nat)
    (hI : IVecInv s) (hch : ChainIs s.table.data s.table.firstSkip c)
    (hdb : s.data.length + 1 < SKIP_BIT)
    (htb : c = [] → s.table.data.length + 1 < SKIP_BIT) :
    IVecInv (iPush O s x).1 ∧
    ((iPush O s x).1).data.length = s.data.length + 1 ∧
    ChainIs ((iPush O s x).1).table.data ((iPush O s x).1).table.firstSkip c.tail ∧
    ((iPush O s x).2 = match c with
      | [] => s.table.data.length
      | i :: _ => i) ∧
    ((iPush O s x).1).table.data.length = (match c with
      | [] => s.table.data.length + 1
      | _ :: _ => s.table.data.length) := by
  obtain ⟨hI', hlen', hch', hhandle, htlen'⟩ := ivPush_inv s x c hI hch hdb htb
  have hpos : s.data.length < ((ivPush s x).1).data.length := by omega
  obtain ⟨hI2, hF⟩ := @siftUpS_TInv α _ O (ivPush s x).1 s.data.length hI' hpos
  have hsublen := iSiftUp_dataLen O (ivPush s x).1 s.data.length hpos
  have hchain2 := chain_preserved hI'.1 hch' hF
  refine ⟨hI2, ?_, hchain2, hhandle, ?_⟩
  · show ((siftUpS (ivecStorage α) O (ivPush s x).1 s.data.length).1).data.length = _
    rw [hsublen, hlen']
  · show ((siftUpS (ivecStorage α) O (ivPush s x).1 s.data.length).1).table.data.length = _
    rw [hF.1]
    exact htlen'

theorem iPop_inv (O : HeapOrd α) (s : IVecS α) (x : α) (s' : IVecS α)
    (hI : IVecInv s) (hpop : iPop O s = some (x, s')) :
    IVecInv s' ∧ s'.data.length = s.data.length - 1 ∧
    s'.table.data.length ≤ s.table.data.length := by
  unfold iPop ivPop at hpop
  cases hgl : s.data.getLast? with
  | none => rw [hgl] at hpop; cases hpop
  | some pair =>
    rw [hgl] at hpop
    dsimp only at hpop
    have hne : s.data ≠ [] := by
      intro hc
      rw [hc] at hgl
      exact absurd hgl (by simp)
    have hpair2 : pair.2 = pairIdxAt s (s.data.length - 1) := by
      have h2 := getLastQ_getD s.data hne
      rw [hgl] at h2
      simp only [Option.getD_some] at h2
      unfold pairIdxAt
      rw [← h2]
    rw [hpair2] at hpop
    obtain ⟨hIst, htle⟩ := dropLast_state_inv s hI hne
    set st : IVecS α :=
      ⟨s.data.dropLast, skipRemove s.table (pairIdxAt s (s.data.length - 1))⟩
      with hst
    unfold popSwapS at hpop
    by_cases hlen : (ivecStorage α).length st ≠ 0
    · rw [if_pos hlen] at hpop
      dsimp only at hpop
      rw [Option.some.injEq, Prod.mk.injEq] at hpop
      obtain ⟨hx, hs'⟩ := hpop
      have hlen0 : 0 < st.data.length := by
        have hh : st.data.length ≠ 0 := hlen
        omega
      have hIset := setItem_inv st 0 pair.1 hIst hlen0
      have hsetlen : ((ivecStorage α).setItem st 0 pair.1).data.length =
          st.data.length := by
        show (st.data.set 0 _).length = st.data.length
        exact List.length_set _ _ _
      obtain ⟨hIfin, hFfin⟩ := @fixupToBottomS_hole_TInv α _ O
        ((ivecStorage α).setItem st 0 pair.1) 0
        (holeNew_TInv _ 0 hIset (by omega)) (by omega)
      have hdlen := iFixB_dataLen O ((ivecStorage α).setItem st 0 pair.1) 0
        (by omega)
      refine ⟨by rw [← hs']; exact hIfin, ?_, ?_⟩
      · rw [← hs', hdlen, hsetlen]
        show s.data.dropLast.length = s.data.length - 1
        exact List.length_dropLast s.data
      · rw [← hs']
        have hFt := hFfin.1
        rw [hFt]
        show st.table.data.length ≤ s.table.data.length
        exact htle
    · rw [if_neg hlen] at hpop
      dsimp only at hpop
      rw [Option.some.injEq, Prod.mk.injEq] at hpop
      obtain ⟨hx, hs'⟩ := hpop
      refine ⟨by rw [← hs']; exact hIst, ?_, ?_⟩
      · rw [← hs']
        show s.data.dropLast.length = s.data.length - 1
        exact List.length_dropLast s.data
      · rw [← hs']
        exact htle

theorem iRemove_inv (O : HeapOrd α) (s : IVecS α) (idx : Nat) (hI : IVecInv s) :
    IVecInv (iRemove O s idx) ∧
    (iRemove O s idx).data.length ≤ s.data.length ∧
    (iRemove O s idx).table.data.length ≤ s.table.data.length := by
  unfold iRemove
  cases hpos : ivIndexToPos s idx with
  | none => exact ⟨hI, Nat.le_refl _, Nat.le_refl _⟩
  | some pos =>
    dsimp only
    by_cases hlt : pos < s.data.length
    · rw [if_pos hlt]
      have hne : s.data ≠ [] := by
        intro hc
        rw [hc] at hlt
        simp at hlt
      have hr2len : (ivSwapRemove s pos).2.data.length = s.data.length - 1 := by
        show ((s.data.set pos (s.data.getLast?.getD default)).dropLast).length = _
        rw [List.length_dropLast, List.length_set]
      have hr2tab : (ivSwapRemove s pos).2.table =
          skipRemove s.table (pairIdxAt s pos) := rfl
      by_cases hlt2 : pos < (ivSwapRemove s pos).2.data.length
      · rw [if_pos hlt2]
        have hp2 : pos < s.data.length - 1 := by omega
        have hH := swapRemove_hole_TInv s pos hI hp2
        obtain ⟨hIfin, hFfin⟩ := @fixupToBottomS_hole_TInv α _ O
          (ivSwapRemove s pos).2 pos hH hlt2
        have hdlen := iFixB_dataLen O (ivSwapRemove s pos).2 pos hlt2
        refine ⟨hIfin, ?_, ?_⟩
        · rw [hdlen, hr2len]
          omega
        · rw [hFfin.1, hr2tab]
          obtain ⟨hwf, hdl, htl, hmap, hsurj⟩ := hI
          obtain ⟨hiRlt, hiRmap⟩ := hmap pos hlt
          have hiRdata : entryIsData (s.table.data.getD (pairIdxAt s pos) 0) =
              true := by
            rw [hiRmap]
            exact entryIsData_of_lt (by omega)
          exact (skipRemove_wf s.table (pairIdxAt s pos) hwf hiRlt hiRdata htl).2.1
      · rw [if_neg hlt2]
        have hposL : pos = s.data.length - 1 := by omega
        have hr2 : (ivSwapRemove s pos).2 =
            ⟨s.data.dropLast,
              skipRemove s.table (pairIdxAt s (s.data.length - 1))⟩ := by
          show (⟨((s.data.set pos (s.data.getLast?.getD default)).dropLast),
            skipRemove s.table (pairIdxAt s pos)⟩ : IVecS α) = _
          rw [hposL, dropLast_set_last]
        rw [hr2]
        obtain ⟨hIst, htle⟩ := dropLast_state_inv s hI hne
        refine ⟨hIst, ?_, htle⟩
        show s.data.dropLast.length ≤ s.data.length
        have := List.length_dropLast s.data
        omega
    · rw [if_neg hlt]
      exact ⟨hI, Nat.le_refl _, Nat.le_refl _⟩

theorem execIOp_removal_inv (O : HeapOrd α) (s : IVecS α) (op : IOp α)
    (hI : IVecInv s) (hrm : IsRemovalOp op) :
    IVecInv (execIOp O s op) ∧
    (execIOp O s op).data.length ≤ s.data.length ∧
    (execIOp O s op).table.data.length ≤ s.table.data.length := by
  cases op with
  | pop =>
    simp only [execIOp]
    cases hp : iPop O s with
    | none => exact ⟨hI, Nat.le_refl _, Nat.le_refl _⟩
    | some r =>
      dsimp only
      obtain ⟨hIr, hdl, htl⟩ := iPop_inv O s r.1 r.2 hI (by rw [hp])
      exact ⟨hIr, by omega, htl⟩
  | removeIdx i => exact iRemove_inv O s i hI
  | push x => cases hrm
  | peekMutSet x => cases hrm
  | byIndexMutSet i x => cases hrm

theorem execIOps_removal_inv (O : HeapOrd α) :
    ∀ (ops : List (IOp α)), (∀ op ∈ ops, IsRemovalOp op) →
    ∀ s, IVecInv s →
    IVecInv (execIOps O s ops) ∧
    (execIOps O s ops).data.length ≤ s.data.length ∧
    (execIOps O s ops).table.data.length ≤ s.table.data.length := by
  intro ops
  induction ops with
  | nil => intro _ s hI; exact ⟨hI, Nat.le_refl _, Nat.le_refl _⟩
  | cons o rest ih =>
    intro hall s hI
    obtain ⟨h1, h2, h3⟩ := execIOp_removal_inv O s o hI
      (hall o (List.mem_cons_self o rest))
    obtain ⟨g1, g2, g3⟩ := ih (fun op hop => hall op (List.mem_cons_of_mem o hop))
      (execIOp O s o) h1
    refine ⟨?_, ?_, ?_⟩
    · show IVecInv (execIOps O (execIOp O s o) rest)
      exact g1
    · show (execIOps O (execIOp O s o) rest).data.length ≤ s.data.length
      omega
    · show (execIOps O (execIOp O s o) rest).table.data.length ≤
        s.table.data.length
      omega

theorem iPushAllH_acc (O : HeapOrd α) : ∀ (ys : List α) (s : IVecS α) (a : List Nat),
    ys.foldl (fun p x => ((iPush O p.1 x).1, p.2 ++ [(iPush O p.1 x).2])) (s, a) =
    ((iPushAllH O s ys).1, a ++ (iPushAllH O s ys).2) := by
  intro ys
  induction ys with
  | nil => intro s a; simp [iPushAllH]
  | cons y rest ih =>
    intro s a
    conv_rhs => unfold iPushAllH
    simp only [List.foldl_cons]
    rw [ih, ih]
    simp

theorem iPushAllH_cons (O : HeapOrd α) (y : α) (rest : List α) (s : IVecS α) :
    (iPushAllH O s (y :: rest)).1 = (iPushAllH O (iPush O s y).1 rest).1 ∧
    (iPushAllH O s (y :: rest)).2 =
      (iPush O s y).2 :: (iPushAllH O (iPush O s y).1 rest).2 := by
  have hdef : iPushAllH O s (y :: rest) =
      List.foldl (fun p x => ((iPush O p.1 x).1, p.2 ++ [(iPush O p.1 x).2]))
        ((iPush O s y).1, [(iPush O s y).2]) rest := by
    unfold iPushAllH
    simp only [List.foldl_cons]
    simp
  rw [hdef, iPushAllH_acc O rest (iPush O s y).1 [(iPush O s y).2]]
  constructor
  · rfl
  · simp

theorem refill_spec (O : HeapOrd α) : ∀ (ys : List α) (s : IVecS α) (c : List Nat),
    IVecInv s → ChainIs s.table.data s.table.firstSkip c →
    s.data.length + ys.length < SKIP_BIT →
    s.table.data.length + (ys.length - c.length) < SKIP_BIT →
    (iPushAllH O s ys).2 =
      c.take ys.length ++
        List.range' s.table.data.length (ys.length - c.length) ∧
    ((iPushAllH O s ys).1).table.data.length =
      s.table.data.length + (ys.length - c.length) ∧
    IVecInv (iPushAllH O s ys).1 ∧
    ((iPushAllH O s ys).1).data.length = s.data.length + ys.length := by
  intro ys
  induction ys with
  | nil =>
    intro s c hI hch hb1 hb2
    refine ⟨by simp [iPushAllH], by simp [iPushAllH], ?_, by simp [iPushAllH]⟩
    show IVecInv s
    exact hI
  | cons y rest ih =>
    intro s c hI hch hb1 hb2
    obtain ⟨hc1, hc2⟩ := iPushAllH_cons O y rest s
    cases c with
    | nil =>
      have hlb1 : s.data.length + 1 < SKIP_BIT := by
        simp only [List.length_cons] at hb1
        omega
      have hlb2 : s.table.data.length + 1 < SKIP_BIT := by
        simp only [List.length_cons, List.length_nil, Nat.sub_zero] at hb2
        omega
      obtain ⟨hI', hdlen', hch', hhandle, htlen'⟩ :=
        iPush_step O s y [] hI hch hlb1 (fun _ => hlb2)
      have hhandle2 : (iPush O s y).2 = s.table.data.length := hhandle
      have htlen2 : ((iPush O s y).1).table.data.length =
          s.table.data.length + 1 := htlen'
      have hb1' : ((iPush O s y).1).data.length + rest.length < SKIP_BIT := by
        rw [hdlen']
        simp only [List.length_cons] at hb1
        omega
      have hb2' : ((iPush O s y).1).table.data.length +
          (rest.length - ([] : List Nat).length) < SKIP_BIT := by
        rw [htlen2]
        simp only [List.length_cons, List.length_nil, Nat.sub_zero] at hb2 ⊢
        omega
      obtain ⟨ihh, ihtl, ihI, ihdl⟩ := ih (iPush O s y).1 [] hI' hch' hb1' hb2'
      refine ⟨?_, ?_, ?_, ?_⟩
      · rw [hc2, ihh, hhandle2, htlen2]
        simp only [List.take_nil, List.nil_append, List.length_cons,
          List.length_nil, Nat.sub_zero]
        rfl
      · rw [hc1, ihtl, htlen2]
        simp only [List.length_cons, List.length_nil, Nat.sub_zero]
        omega
      · rw [hc1]
        exact ihI
      · rw [hc1, ihdl, hdlen']
        simp only [List.length_cons]
        omega
    | cons j c' =>
      obtain ⟨hI', hdlen', hch', hhandle, htlen'⟩ :=
        iPush_step O s y (j :: c') hI hch
          (by simp only [List.length_cons] at hb1; omega)
          (fun hc => by cases hc)
      have hhandle2 : (iPush O s y).2 = j := hhandle
      have htlen2 : ((iPush O s y).1).table.data.length =
          s.table.data.length := htlen'
      have hb1' : ((iPush O s y).1).data.length + rest.length < SKIP_BIT := by
        rw [hdlen']
        simp only [List.length_cons] at hb1
        omega
      have hb2' : ((iPush O s y).1).table.data.length +
          (rest.length - c'.length) < SKIP_BIT := by
        rw [htlen2]
        simp only [List.length_cons] at hb2 ⊢
        omega
      obtain ⟨ihh, ihtl, ihI, ihdl⟩ := ih (iPush O s y).1 c' hI' hch' hb1' hb2'
      refine ⟨?_, ?_, ?_, ?_⟩
      · rw [hc2, ihh, hhandle2, htlen2]
        simp only [List.length_cons, List.take_succ_cons, List.cons_append]
        have harith : rest.length - c'.length =
            (rest.length + 1) - (c'.length + 1) := by omega
        rw [harith]
      · rw [hc1, ihtl, htlen2]
        simp only [List.length_cons]
        have harith : rest.length - c'.length =
            (rest.length + 1) - (c'.length + 1) := by omega
        rw [harith]
      · rw [hc1]
        exact ihI
      · rw [hc1, ihdl, hdlen']
        simp only [List.length_cons]
        omega

theorem empty_state_chain (s : IVecS α) (hI : IVecInv s) (hemp : s.data = []) :
    ∃ c, ChainIs s.table.data s.table.firstSkip c ∧
      c.Perm (List.range s.table.data.length) := by
  obtain ⟨⟨c, hch, hnd, hiff⟩, _, _, _, hsurj⟩ := hI
  refine ⟨c, hch, ?_⟩
  apply (List.perm_ext_iff_of_nodup hnd (List.nodup_range _)).mpr
  intro a
  constructor
  · intro ha
    exact List.mem_range.mpr (ChainIs_mem_lt hch a ha)
  · intro ha
    have halt := List.mem_range.mp ha
    apply (hiff a halt).mp
    rcases Bool.eq_false_or_eq_true (entryIsData (s.table.data.getD a 0))
      with ht | hf
    · obtain ⟨p, hp, _⟩ := hsurj a halt ht
      rw [hemp] at hp
      simp at hp
    · exact hf

end IVecOps

section HeapToNoPrefer

variable {β κ : Type} [Inhabited β] [LinearOrder κ] {O : HeapOrd κ}

theorem heap_noPrefer (hst : IsStdOrd O) (key : β → κ) (l : List β)
    (h : IsHeapL key l) : NoPreferOverParent O key l := by
  intro p hp hp0
  exact (hst.ssu_false).mpr (h p hp0 hp)

end HeapToNoPrefer

/-! ## Claim theorems -/

section Claims

/-- Claim C1: pushing any finite sequence into an empty `VecHeap` and popping
until empty yields the pushed multiset in descending order under the max
policy and ascending order under the min policy; in particular the concrete
min-policy scenario pushes 3,15,1,42,7,6,5,64 and pops
1,3,5,6,7,15,42,64. -/
theorem claim_C1 :
    (∀ (α : Type) [Inhabited α] [LinearOrder α] (xs : List α),
      ((vPopAll (maxHeapOrd α) (vPushAll (maxHeapOrd α) [] xs).length
        (vPushAll (maxHeapOrd α) [] xs)).Perm xs ∧
       List.Sorted (fun a b : α => b ≤ a)
        (vPopAll (maxHeapOrd α) (vPushAll (maxHeapOrd α) [] xs).length
          (vPushAll (maxHeapOrd α) [] xs))) ∧
      ((vPopAll (minHeapOrd α) (vPushAll (minHeapOrd α) [] xs).length
        (vPushAll (minHeapOrd α) [] xs)).Perm xs ∧
       List.Sorted (fun a b : α => a ≤ b)
        (vPopAll (minHeapOrd α) (vPushAll (minHeapOrd α) [] xs).length
          (vPushAll (minHeapOrd α) [] xs)))) ∧
    vPopAll (minHeapOrd ℕ) 8
      (vPushAll (minHeapOrd ℕ) [] [3, 15, 1, 42, 7, 6, 5, 64]) =
      [1, 3, 5, 6, 7, 15, 42, 64] := by
  constructor
  · intro α instI instL xs
    constructor
    · have hempty : IsHeapL (id : α → α) [] := by
        intro q h1 h2
        simp at h2
      obtain ⟨hh, hp⟩ := vPushAll_heap (maxHeapOrd_std α) xs [] hempty
      rw [List.nil_append] at hp
      obtain ⟨hperm, hsort⟩ :=
        vPopAll_spec (maxHeapOrd_std α) _ _ (Nat.le_refl _) hh
      exact ⟨hperm.trans hp, hsort⟩
    · have hempty : IsHeapL (id : αᵒᵈ → αᵒᵈ) [] := by
        intro q h1 h2
        simp at h2
      obtain ⟨hh, hp⟩ := @vPushAll_heap αᵒᵈ instI _ (minHeapOrd α)
        (minHeapOrd_std α) xs [] hempty
      rw [List.nil_append] at hp
      obtain ⟨hperm, hsort⟩ := @vPopAll_spec αᵒᵈ instI _ (minHeapOrd α)
        (minHeapOrd_std α) _ _ (Nat.le_refl _) hh
      exact ⟨hperm.trans hp, hsort⟩
  · rfl

/-- Claim C2: from an empty heap, after any sequence of completed public
operations on either facade, the policy never prefers a non-root position
over its parent, for any policy that is standard for some linear order. -/
theorem claim_C2 (α : Type) [Inhabited α] [LinearOrder α] (O : HeapOrd α)
    (hst : IsStdOrd O) (ops : List (POp α)) (iops : List (IOp α)) :
    NoPreferOverParent O id (execPOps O [] ops) ∧
    NoPreferOverParent O Prod.fst (execIOps O (emptyIVec α) iops).data := by
  constructor
  · apply heap_noPrefer hst
    apply execPOps_heap hst
    intro q h1 h2
    simp at h2
  · apply heap_noPrefer hst
    apply execIOps_heap hst
    intro q h1 h2
    simp [emptyIVec] at h2

theorem claim_C2_witness :
    NoPreferOverParent (maxHeapOrd ℕ) id
      (execPOps (maxHeapOrd ℕ) []
        [POp.push 3, POp.push 1, POp.push 5, POp.pop, POp.peekMutSet 2,
          POp.append [POp.push 7, POp.push 4]]) ∧
    NoPreferOverParent (maxHeapOrd ℕ) Prod.fst
      (execIOps (maxHeapOrd ℕ) (emptyIVec ℕ)
        [IOp.push 3, IOp.push 1, IOp.push 5, IOp.pop, IOp.byIndexMutSet 0 7,
          IOp.removeIdx 2, IOp.peekMutSet 2]).data :=
  claim_C2 ℕ (maxHeapOrd ℕ) (maxHeapOrd_std ℕ)
    [POp.push 3, POp.push 1, POp.push 5, POp.pop, POp.peekMutSet 2,
      POp.append [POp.push 7, POp.push 4]]
    [IOp.push 3, IOp.push 1, IOp.push 5, IOp.pop, IOp.byIndexMutSet 0 7,
      IOp.removeIdx 2, IOp.peekMutSet 2]

/-- Claim C3, counterexample to the spec's boundary: at total length 8 and
old length 4 the tail equals the start, the spec demands a full rebuild, but
`better_to_rebuild` chooses per-element sift-up. -/
theorem claim_C3_counterexample :
    0 < 4 ∧ 4 < 8 ∧ 8 - 4 ≥ 4 ∧ betterToRebuild 8 4 = false := by decide

/-- Claim C3, amended: a full rebuild is chosen iff the tail is strictly
longer than the old prefix, or the corresponding crossover formula holds
(`tail >= start` in the spec should read `tail > start`). -/
theorem claim_C3_amended (n start : Nat) (h0 : 0 < start) (h1 : start < n)
    (h2 : n < 2 ^ 64) :
    betterToRebuild n start = true ↔
      (start < n - start ∨
        (n ≤ 2048 ∧ 2 * n < (n - start) * Nat.log2 start) ∨
        (2048 < n ∧ 2 * n < (n - start) * 11)) := by
  unfold betterToRebuild
  dsimp only
  rw [log2Fast_eq_log2 start (by omega)]
  by_cases hc1 : start < n - start
  · rw [if_pos hc1]
    simp [hc1]
  · rw [if_neg hc1]
    by_cases hc2 : n ≤ 2048
    · rw [if_pos hc2]
      simp only [decide_eq_true_eq]
      constructor
      · intro h
        exact Or.inr (Or.inl ⟨hc2, h⟩)
      · rintro (h | ⟨_, h⟩ | ⟨h2048, _⟩)
        · exact absurd h hc1
        · exact h
        · omega
    · rw [if_neg hc2]
      simp only [decide_eq_true_eq]
      constructor
      · intro h
        exact Or.inr (Or.inr ⟨by omega, h⟩)
      · rintro (h | ⟨h2048, _⟩ | ⟨_, h⟩)
        · exact absurd h hc1
        · omega
        · exact h

theorem claim_C3_witness :
    0 < 4 ∧ 4 < 10 ∧ 10 < 2 ^ 64 ∧
    (betterToRebuild 10 4 = true ↔
      (4 < 10 - 4 ∨
        (10 ≤ 2048 ∧ 2 * 10 < (10 - 4) * Nat.log2 4) ∨
        (2048 < 10 ∧ 2 * 10 < (10 - 4) * 11))) :=
  ⟨by decide, by decide, by decide,
    claim_C3_amended 10 4 (by decide) (by decide) (by decide)⟩

/-- Claim C4 is violated by the code: pushing 2 then 5 into an empty
indexable min-heap and popping once removes the element 2, yet afterwards
the live handle 1 (for the still-present element 5) resolves to nothing
and the dead handle 0 (for the popped element 2) resolves to 5; the
handle-to-position table is not a bijection after the pop. -/
theorem claim_C4_violation :
    (iPush (minHeapOrd ℕ) (emptyIVec ℕ) 2).2 = 0 ∧
    (iPush (minHeapOrd ℕ) (iPush (minHeapOrd ℕ) (emptyIVec ℕ) 2).1 5).2 = 1 ∧
    ∃ s3, iPop (minHeapOrd ℕ)
        (iPush (minHeapOrd ℕ) (iPush (minHeapOrd ℕ) (emptyIVec ℕ) 2).1 5).1 =
        some (2, s3) ∧
      iByIndex s3 1 = none ∧ iByIndex s3 0 = some 5 ∧
      s3.data.length = 1 := by
  exact ⟨rfl, rfl, _, rfl, rfl, rfl, rfl⟩

/-- Claim C5: after pushing `k` elements into an empty indexable heap, the
issued handles are exactly `0..k-1`; after removing all elements by any mix
of pops and by-handle removes, the next `k` pushes reuse exactly the same
handle set in some order, and the side table never exceeds `k` entries at
any point of either phase. -/
theorem claim_C5 (α : Type) [Inhabited α] (O : HeapOrd α) (k : Nat)
    (xs ys : List α) (ops : List (IOp α)) (hk : k < 2 ^ 63)
    (hxs : xs.length = k) (hys : ys.length = k)
    (hrm : ∀ op ∈ ops, IsRemovalOp op)
    (hemp : (execIOps O (iPushAllH O (emptyIVec α) xs).1 ops).data = []) :
    (iPushAllH O (emptyIVec α) xs).2 = List.range k ∧
    ((iPushAllH O (execIOps O (iPushAllH O (emptyIVec α) xs).1 ops) ys).2).Perm
      (iPushAllH O (emptyIVec α) xs).2 ∧
    (∀ n, ((execIOps O (iPushAllH O (emptyIVec α) xs).1
      (ops.take n)).table.data.length ≤ k)) ∧
    (∀ n, ((iPushAllH O (execIOps O (iPushAllH O (emptyIVec α) xs).1 ops)
      (ys.take n)).1).table.data.length ≤ k) := by
  have hSB : k < SKIP_BIT := hk
  have hI0 : IVecInv (emptyIVec α) := by
    refine ⟨⟨[], ChainIs.nil _, List.Pairwise.nil, ?_⟩, ?_, ?_, ?_, ?_⟩
    · intro i hi
      simp [emptyIVec] at hi
    · show ([] : List (α × Nat)).length < SKIP_BIT
      simpa using skipbit_pos
    · show ([] : List Nat).length < SKIP_BIT
      simpa using skipbit_pos
    · intro p hp
      simp [emptyIVec] at hp
    · intro i hi
      simp [emptyIVec] at hi
  obtain ⟨h1h, h1t, h1I, h1d⟩ := refill_spec O xs (emptyIVec α) []
    hI0 (ChainIs.nil _) (by simpa [emptyIVec, hxs] using hSB)
    (by simpa [emptyIVec, hxs] using hSB)
  have h1h' : (iPushAllH O (emptyIVec α) xs).2 = List.range k := by
    rw [h1h]
    show [].take xs.length ++ List.range' ([] : List Nat).length
      (xs.length - ([] : List Nat).length) = List.range k
    simp only [List.take_nil, List.nil_append, List.length_nil, Nat.sub_zero, hxs]
    rw [List.range_eq_range']
  have h1t' : ((iPushAllH O (emptyIVec α) xs).1).table.data.length = k := by
    rw [h1t]
    show ([] : List Nat).length + (xs.length - ([] : List Nat).length) = k
    simp [hxs]
  have h1d' : ((iPushAllH O (emptyIVec α) xs).1).data.length = k := by
    rw [h1d]
    show ([] : List (α × Nat)).length + xs.length = k
    simp [hxs]
  obtain ⟨h2I, h2d, h2t⟩ := execIOps_removal_inv O ops hrm _ h1I
  have h2d0 : (execIOps O (iPushAllH O (emptyIVec α) xs).1 ops).data.length = 0 := by
    rw [hemp]
    rfl
  obtain ⟨c2, hch2, hcperm⟩ := empty_state_chain _ h2I hemp
  have hc2len : c2.length =
      (execIOps O (iPushAllH O (emptyIVec α) xs).1 ops).table.data.length := by
    rw [hcperm.length_eq, List.length_range]
  have hLk : (execIOps O (iPushAllH O (emptyIVec α) xs).1 ops).table.data.length
      ≤ k := by
    rw [← h1t']
    exact h2t
  obtain ⟨h3h, h3t, h3I, h3d⟩ := refill_spec O ys _ c2 h2I hch2
    (by rw [h2d0, hys]; omega) (by rw [hys]; omega)
  refine ⟨h1h', ?_, ?_, ?_⟩
  · rw [h3h, h1h']
    have hctake : c2.take ys.length = c2 := by
      apply List.take_of_length_le
      omega
    rw [hctake]
    apply List.Perm.trans (List.Perm.append_right _ hcperm)
    rw [← hc2len]
    have hsplit : List.range c2.length ++
        List.range' c2.length (ys.length - c2.length) = List.range k := by
      rw [List.range_eq_range', List.range_eq_range']
      have := List.range'_append 0 c2.length (ys.length - c2.length) 1
      simp only [Nat.zero_add, Nat.one_mul] at this
      rw [this]
      congr 1
      omega
    exact hsplit ▸ List.Perm.refl _
  · intro n
    obtain ⟨_, _, ht⟩ := execIOps_removal_inv O (ops.take n)
      (fun op hop => hrm op (List.mem_of_mem_take hop)) _ h1I
    rw [← h1t']
    exact ht
  · intro n
    have htk : (ys.take n).length = min n ys.length := by simp
    obtain ⟨_, htn, _, _⟩ := refill_spec O (ys.take n) _ c2 h2I hch2
      (by rw [h2d0]; omega) (by omega)
    rw [htn]
    omega

theorem claim_C5_witness :
    (iPushAllH (minHeapOrd ℕ) (emptyIVec ℕ) [4, 7]).2 = List.range 2 ∧
    ((iPushAllH (minHeapOrd ℕ)
      (execIOps (minHeapOrd ℕ) (iPushAllH (minHeapOrd ℕ) (emptyIVec ℕ) [4, 7]).1
        [IOp.pop, IOp.pop]) [9, 9]).2).Perm
      (iPushAllH (minHeapOrd ℕ) (emptyIVec ℕ) [4, 7]).2 ∧
    ((execIOps (minHeapOrd ℕ) (iPushAllH (minHeapOrd ℕ) (emptyIVec ℕ) [4, 7]).1
      ([IOp.pop, IOp.pop].take 1)).table.data.length ≤ 2) ∧
    ((iPushAllH (minHeapOrd ℕ)
      (execIOps (minHeapOrd ℕ) (iPushAllH (minHeapOrd ℕ) (emptyIVec ℕ) [4, 7]).1
        [IOp.pop, IOp.pop]) ([9, 9].take 1)).1).table.data.length ≤ 2 := by
  have h := claim_C5 ℕ (minHeapOrd ℕ) 2 [4, 7] [9, 9] [IOp.pop, IOp.pop]
    (by decide) rfl rfl
    (by
      intro op hop
      simp only [List.mem_cons, List.not_mem_nil, or_false] at hop
      rcases hop with h | h <;> rw [h] <;> exact trivial)
    (by decide)
  exact ⟨h.1, h.2.1, h.2.2.1 1, h.2.2.2 1⟩

/-- Claim C6: for every storage and policy, when the hole's node has both
children and the policy prefers neither child key strictly over the other,
sift-down's upper-child selection returns the earlier (left) child. -/
theorem claim_C6 (σ κ ι slot : Type) (S : StorageModel σ κ ι slot)
    (O : HeapOrd κ) (h : HoleS σ slot)
    (hw : isWholeNode (S.length h.data) h.pos = true)
    (h1 : O.shouldSiftUp (S.getKey h.data (2 * h.pos + 1))
      (S.getKey h.data (2 * h.pos + 2)) = false)
    (h2 : O.shouldSiftUp (S.getKey h.data (2 * h.pos + 2))
      (S.getKey h.data (2 * h.pos + 1)) = false) :
    holeUpperChildWhole S O h = some (2 * h.pos + 1) := by
  unfold holeUpperChildWhole
  rw [if_pos hw]
  dsimp only
  have hsel : O.selectUpper (S.getKey h.data (2 * h.pos + 1))
      (S.getKey h.data (2 * h.pos + 2)) = false := h2
  rw [hsel]
  simp [selectSibling]

theorem claim_C6_witness :
    isWholeNode ((listStorage ℕ ℕ id).length [5, 3, 3]) 0 = true ∧
    (maxHeapOrd ℕ).shouldSiftUp ((listStorage ℕ ℕ id).getKey [5, 3, 3] 1)
      ((listStorage ℕ ℕ id).getKey [5, 3, 3] 2) = false ∧
    (maxHeapOrd ℕ).shouldSiftUp ((listStorage ℕ ℕ id).getKey [5, 3, 3] 2)
      ((listStorage ℕ ℕ id).getKey [5, 3, 3] 1) = false ∧
    holeUpperChildWhole (listStorage ℕ ℕ id) (maxHeapOrd ℕ)
      ⟨[5, 3, 3], 5, 0⟩ = some 1 :=
  ⟨by decide, by decide, by decide,
    claim_C6 (List ℕ) ℕ ℕ ℕ (listStorage ℕ ℕ id) (maxHeapOrd ℕ)
      ⟨[5, 3, 3], 5, 0⟩ (by decide) (by decide) (by decide)⟩

/-- Claim C7: `fixup_sift` sifts up first and, when the element moved,
returns that result with no sift-down; only when the position is unchanged
does it sift down; and on the list storage, in a heap valid everywhere
except possibly at `pos`, the post-move state is already a heap. -/
theorem claim_C7 :
    (∀ (σ κ ι slot : Type) (S : StorageModel σ κ ι slot) (O : HeapOrd κ)
      (d : σ) (p : Nat),
      ((siftUpS S O d p).2 ≠ p → fixupSiftS S O d p = siftUpS S O d p) ∧
      ((siftUpS S O d p).2 = p →
        fixupSiftS S O d p = siftDownS S O (siftUpS S O d p).1 p)) ∧
    (∀ (β κ : Type) [Inhabited β] [LinearOrder κ] (O : HeapOrd κ)
      (key : β → κ), IsStdOrd O →
      ∀ (l : List β) (p : Nat), p < l.length →
      (∀ q, 0 < q → q < l.length → q ≠ p → (q - 1) / 2 ≠ p → EdgeAt key l q) →
      (0 < p → ∀ c, c < l.length → (c - 1) / 2 = p →
        keyAt key l c ≤ keyAt key l ((p - 1) / 2)) →
      (siftUpS (listStorage β κ key) O l p).2 ≠ p →
      IsHeapL key (fixupSiftS (listStorage β κ key) O l p).1) := by
  constructor
  · intro σ κ ι slot S O d p
    constructor
    · intro hmoved
      unfold fixupSiftS
      rw [if_pos hmoved]
    · intro hsame
      unfold fixupSiftS
      rw [if_neg (by simp [hsame])]
  · intro β κ instI instL O key hst l p hp hA4 hB hmoved
    exact (fixup_heap key hst l p hp hA4 hB).1

theorem claim_C7_witness :
    (1 < ([1, 5] : List ℕ).length) ∧
    (siftUpS (listStorage ℕ ℕ id) (maxHeapOrd ℕ) [1, 5] 1).2 ≠ 1 ∧
    IsHeapL id (fixupSiftS (listStorage ℕ ℕ id) (maxHeapOrd ℕ) [1, 5] 1).1 :=
  ⟨by decide, by decide,
    claim_C7.2 ℕ ℕ (maxHeapOrd ℕ) id (maxHeapOrd_std ℕ) [1, 5] 1 (by decide)
      (by intro q h1 h2 h3 h4; simp at h2; omega)
      (by intro hp0 c hc hcp; simp at hc; omega)
      (by decide)⟩

/-- Claim C8: on both facades `pop` on a non-empty heap returns exactly the
element `peek` reports (the root) and shrinks the length by one, and on an
empty heap it returns nothing. -/
theorem claim_C8 (α : Type) [Inhabited α] [LinearOrder α] (O : HeapOrd α) :
    (∀ l : List α, (vPop O l = none ↔ l = []) ∧
      (l ≠ [] → ∃ l', vPop O l = some (l.getD 0 default, l') ∧
        vPeek l = some (l.getD 0 default) ∧ l'.length = l.length - 1)) ∧
    (∀ s : IVecS α, (iPop O s = none ↔ s.data = []) ∧
      (s.data ≠ [] → ∃ x s', iPop O s = some (x, s') ∧
        iPeek s = some x ∧ s'.data.length = s.data.length - 1)) := by
  constructor
  · intro l
    refine ⟨vPop_none_iff O l, ?_⟩
    intro hne
    obtain ⟨l', hpop, hlen⟩ := vPop_char O l hne
    refine ⟨l', hpop, ?_, hlen⟩
    unfold vPeek peekS
    rw [if_pos ?_]
    · rfl
    · show ¬ l.length = 0
      have := List.length_pos.mpr hne
      omega
  · intro s
    refine ⟨iPop_none_iff O s, ?_⟩
    intro hne
    obtain ⟨x, s', hpop, hx, hlen⟩ := iPop_char O s hne
    refine ⟨x, s', hpop, ?_, hlen⟩
    unfold iPeek peekS
    rw [if_pos ?_]
    · rw [hx]
      rfl
    · show ¬ s.data.length = 0
      have := List.length_pos.mpr hne
      omega

theorem claim_C8_witness :
    (vPop (maxHeapOrd ℕ) [3, 1] = none ↔ ([3, 1] : List ℕ) = []) ∧
    (∃ l', vPop (maxHeapOrd ℕ) [3, 1] = some (([3, 1] : List ℕ).getD 0 default, l') ∧
      vPeek [3, 1] = some (([3, 1] : List ℕ).getD 0 default) ∧
      l'.length = ([3, 1] : List ℕ).length - 1) := by
  have h := (claim_C8 ℕ (maxHeapOrd ℕ)).1 [3, 1]
  exact ⟨h.1, h.2 (by decide)⟩

/-- Claim C9: creating a `peek_mut` or `by_index_mut` guard and dropping it
without taking a mutable reference leaves the heap (and for the indexable
heap also the side table) completely unchanged. -/
theorem claim_C9 (α : Type) [Inhabited α] (O : HeapOrd α) :
    (∀ l : List α, vPeekMutNoMut O l = l) ∧
    (∀ (s : IVecS α) (idx : Nat), iByIndexMutNoMut O s idx = s) := by
  constructor
  · intro l
    unfold vPeekMutNoMut
    split
    · rfl
    · rfl
  · intro s idx
    unfold iByIndexMutNoMut
    cases ivIndexToPos s idx with
    | none => rfl
    | some pos =>
      dsimp only
      split
      · rfl
      · rfl

/-- Claim C10: `VecHeap::append` swaps the whole structs (ordering values
included) exactly when the receiver is strictly shorter; in both branches
the receiver ends with the multiset union of both heaps' elements and the
argument is left empty. -/
theorem claim_C10 (α ω : Type) [Inhabited α] [LinearOrder α] (pol : ω → HeapOrd α)
    (h₁ h₂ : VecHeapS α ω) :
    ((vAppendFull pol h₁ h₂).2).data = [] ∧
    (h₁.data.length < h₂.data.length →
      (vAppendFull pol h₁ h₂).1.ord = h₂.ord ∧
      (vAppendFull pol h₁ h₂).2.ord = h₁.ord) ∧
    (¬ h₁.data.length < h₂.data.length →
      (vAppendFull pol h₁ h₂).1.ord = h₁.ord ∧
      (vAppendFull pol h₁ h₂).2.ord = h₂.ord) ∧
    ((vAppendFull pol h₁ h₂).1.data).Perm (h₁.data ++ h₂.data) := by
  unfold vAppendFull
  by_cases hc : h₁.data.length < h₂.data.length
  · rw [if_pos hc]
    refine ⟨rfl, fun _ => ⟨rfl, rfl⟩, fun hn => absurd hc hn, ?_⟩
    dsimp only
    unfold vecStorage
    exact (rebuildTailS_perm id (h₂.data ++ h₁.data) h₂.data.length).trans
      List.perm_append_comm
  · rw [if_neg hc]
    refine ⟨rfl, fun hlt => absurd hlt hc, fun _ => ⟨rfl, rfl⟩, ?_⟩
    dsimp only
    unfold vecStorage
    exact rebuildTailS_perm id (h₁.data ++ h₂.data) h₁.data.length

theorem claim_C10_witness :
    ((vAppendFull (fun b : Bool => if b then maxHeapOrd ℕ else minHeapOrd ℕ)
      ⟨[1], true⟩ ⟨[2, 3], false⟩).1.ord = false) ∧
    ((vAppendFull (fun b : Bool => if b then maxHeapOrd ℕ else minHeapOrd ℕ)
      ⟨[1], true⟩ ⟨[2, 3], false⟩).2.ord = true) ∧
    ((vAppendFull (fun b : Bool => if b then maxHeapOrd ℕ else minHeapOrd ℕ)
      ⟨[1], true⟩ ⟨[2, 3], false⟩).1.data).Perm ([1] ++ [2, 3]) := by
  have h := claim_C10 ℕ Bool
    (fun b : Bool => if b then maxHeapOrd ℕ else minHeapOrd ℕ)
    ⟨[1], true⟩ ⟨[2, 3], false⟩
  exact ⟨(h.2.1 (by decide)).1, (h.2.1 (by decide)).2, h.2.2.2⟩

end Claims

end Mheap
